import Mathlib

/-!
Verification development for the Varcoin transaction-construction core
(src/Core/TransactionBuilder.cpp): the transaction builder and the
unspent selector.  C++ functions are shallowly embedded as executable
Lean definitions; machine integers are modelled as Nat with explicit
reduction modulo 2^32 / 2^64 at the operations where wrap-around can
occur.  External crypto primitives and currency parameters are taken as
function parameters.
-/

namespace Varcoin

/-- Modulus of the C++ type uint64_t. -/
def W64 : ℕ := 2 ^ 64

/-- Modulus of the C++ type uint32_t. -/
def W32 : ℕ := 2 ^ 32

/-- Embedding of api::Output: one unspent output as seen by the wallet.
Curve points, hashes and the owning address are abstracted as Nat codes. -/
structure Output where
  amount : ℕ
  global_index : ℕ
  transaction_public_key : ℕ
  index_in_transaction : ℕ
  public_key : ℕ
  key_image : ℕ
  height : ℕ
  unlock_time : ℕ
  address : ℕ
  dust : Bool
deriving DecidableEq, Repr

/-- Embedding of KeyInput: the on-chain form of a consumed output. -/
structure KeyInput where
  amount : ℕ
  key_image : ℕ
  output_indexes : List ℕ
deriving DecidableEq, Repr

/-- Comparator APIOutputLessGlobalIndex, in its non-strict form: the
source sorts with the strict comparator, which yields a list sorted
with respect to this relation. -/
def leGI (a b : Output) : Prop := a.global_index ≤ b.global_index

instance : DecidableRel leGI :=
  fun a b => inferInstanceAs (Decidable (a.global_index ≤ b.global_index))

instance : IsTotal Output leGI :=
  ⟨fun a b => Nat.le_total a.global_index b.global_index⟩

instance : IsTrans Output leGI :=
  ⟨fun _ _ _ h h' => Nat.le_trans h h'⟩

/-- Ring preparation in add_input: sort the mix outputs by global_index
(std::sort with APIOutputLessGlobalIndex), then insert the real output at
the position found by std::lower_bound, which is exactly ordered
insertion with respect to leGI. -/
def ringMembers (real_output : Output) (mix_outputs : List Output) : List Output :=
  List.orderedInsert leGI real_output (List.insertionSort leGI mix_outputs)

/-- The index at which std::lower_bound places the real output inside the
sorted mix outputs: the number of leading members with a strictly smaller
global_index. -/
def realIndex (real_output : Output) (mix_outputs : List Output) : ℕ :=
  ((List.insertionSort leGI mix_outputs).takeWhile
    (fun b => b.global_index < real_output.global_index)).length

/-- The absolute (pre-conversion) sequence of ring global indexes built by
add_input. -/
def absoluteIndexes (real_output : Output) (mix_outputs : List Output) : List ℕ :=
  (ringMembers real_output mix_outputs).map Output.global_index

/-- Helper for the offset conversion: each element minus its predecessor,
with uint32_t wrap-around. -/
def relAux : ℕ → List ℕ → List ℕ
  | _, [] => []
  | prev, x :: xs => (x + (W32 - prev % W32)) % W32 :: relAux x xs

/-- TransactionBuilder::absolute_output_offsets_to_relative: the first
element is kept, every later element is replaced by the difference with
its predecessor (uint32_t subtraction). -/
def absolute_output_offsets_to_relative : List ℕ → List ℕ
  | [] => []
  | a :: xs => a :: relAux a xs

/-- Helper for the inverse conversion: running prefix sums with uint32_t
wrap-around. -/
def absAux : ℕ → List ℕ → List ℕ
  | _, [] => []
  | prev, x :: xs => (prev + x) % W32 :: absAux ((prev + x) % W32) xs

/-- Modelled from the spec: the relative-to-absolute conversion is not part
of the sources under review; the spec describes it as prefix-summing the
relative offsets (first absolute, rest are deltas). -/
def relative_output_offsets_to_absolute : List ℕ → List ℕ
  | [] => []
  | a :: xs => a :: absAux a xs

/-- Modelled from the spec: the transaction secret is the hash-to-scalar of
the concatenation of the inputs hash and the derivation seed; hash_to_scalar
and secret_key_to_public_key are external crypto primitives, passed in as
the function parameters hashToScalar and secretToPublic.  Byte arrays are
lists of Nat. -/
def deterministic_keys_from_seed (hashToScalar : List ℕ → ℕ) (secretToPublic : ℕ → ℕ)
    (tx_inputs_hash tx_derivation_seed : List ℕ) : ℕ × ℕ :=
  let ba := tx_inputs_hash ++ tx_derivation_seed
  let sec := hashToScalar ba
  (sec, secretToPublic sec)

/-- The transaction secret derived by TransactionBuilder::sign, as a function
of the finalized (post-shuffle) input list: sign moves the shuffled inputs
into the transaction, hashes them (get_transaction_inputs_hash, external,
passed as the parameter inputsHash) and feeds the result to
deterministic_keys_from_seed together with the seed. -/
def signTxSecret (hashToScalar : List ℕ → ℕ) (secretToPublic : ℕ → ℕ)
    (inputsHash : List KeyInput → List ℕ)
    (shuffled_inputs : List KeyInput) (tx_derivation_seed : List ℕ) : ℕ :=
  (deterministic_keys_from_seed hashToScalar secretToPublic
    (inputsHash shuffled_inputs) tx_derivation_seed).1

/-- Embedding of the m_transaction fields relevant to the builder claims. -/
structure TransactionState where
  version : ℕ
  unlock_time : ℕ
  extra : List ℕ
deriving DecidableEq, Repr

/-- Embedding of InputDesc: a prepared input with its ring and ephemeral
keys. -/
structure InputDesc where
  input : KeyInput
  outputs : List Output
  real_output_index : ℕ
  eph_sec : ℕ
  eph_pub : ℕ
deriving DecidableEq, Repr

/-- Embedding of the TransactionBuilder state touched by add_input. -/
structure Builder where
  transaction : TransactionState
  inputs_amount : ℕ
  outputs_amount : ℕ
  input_descs : List InputDesc
deriving DecidableEq, Repr

/-- TransactionBuilder::add_input.  The external helper
generate_key_image_helper is passed as the parameter gki, mapping the
sender keys (abstracted as a Nat code), the transaction public key and the
output index to either none (derivation failure) or the ephemeral key pair
and the derived key image.  The result pairs the new builder state (the
this object after the call, including the case where an exception
propagates) with either the thrown message or the returned index. -/
def add_input (gki : ℕ → ℕ → ℕ → Option (ℕ × ℕ × ℕ)) (b : Builder) (sender_keys : ℕ)
    (real_output : Output) (mix_outputs : List Output) : Builder × Except String ℕ :=
  let b1 : Builder := { b with inputs_amount := b.inputs_amount + real_output.amount }
  let ring := ringMembers real_output mix_outputs
  match gki sender_keys real_output.transaction_public_key real_output.index_in_transaction with
  | none => (b1, Except.error "generating keyimage failed")
  | some (eph_sec, eph_pub, ki) =>
    if ki ≠ real_output.key_image then
      (b1, Except.error "generated keyimage does not match input")
    else if ring.any (fun o => o.amount ≠ real_output.amount) then
      (b1, Except.error "Mixin outputs with different amounts is not allowed")
    else
      let desc : InputDesc :=
        { input :=
            { amount := real_output.amount
              key_image := ki
              output_indexes :=
                absolute_output_offsets_to_relative (ring.map Output.global_index) }
          outputs := ring
          real_output_index := realIndex real_output mix_outputs
          eph_sec := eph_sec
          eph_pub := eph_pub }
      ({ b1 with input_descs := b1.input_descs ++ [desc] }, Except.ok b1.input_descs.length)

/-! Basic facts about the ring preparation. -/

theorem ringMembers_perm (real_output : Output) (mix_outputs : List Output) :
    List.Perm (ringMembers real_output mix_outputs) (real_output :: mix_outputs) := by
  unfold ringMembers
  exact (List.perm_orderedInsert leGI real_output _).trans
    ((List.perm_insertionSort leGI mix_outputs).cons real_output)

theorem ringMembers_sorted (real_output : Output) (mix_outputs : List Output) :
    List.Sorted leGI (ringMembers real_output mix_outputs) :=
  List.Sorted.orderedInsert real_output _ (List.sorted_insertionSort leGI mix_outputs)

theorem sorted_map_of_sorted_leGI {l : List Output} (h : List.Sorted leGI l) :
    List.Sorted (· ≤ ·) (l.map Output.global_index) := by
  induction l with
  | nil => simp
  | cons a t ih =>
    rw [List.sorted_cons] at h
    rw [List.map_cons, List.sorted_cons]
    refine ⟨?_, ih h.2⟩
    intro b hb
    obtain ⟨c, hc, rfl⟩ := List.mem_map.1 hb
    exact h.1 c hc

theorem absoluteIndexes_sorted_le (real_output : Output) (mix_outputs : List Output) :
    List.Sorted (· ≤ ·) (absoluteIndexes real_output mix_outputs) :=
  sorted_map_of_sorted_leGI (ringMembers_sorted real_output mix_outputs)

theorem absoluteIndexes_perm (real_output : Output) (mix_outputs : List Output) :
    List.Perm (absoluteIndexes real_output mix_outputs)
      ((real_output :: mix_outputs).map Output.global_index) :=
  (ringMembers_perm real_output mix_outputs).map Output.global_index

theorem absoluteIndexes_sorted_lt (real_output : Output) (mix_outputs : List Output)
    (hnd : ((real_output :: mix_outputs).map Output.global_index).Nodup) :
    List.Sorted (· < ·) (absoluteIndexes real_output mix_outputs) := by
  have hnd' : (absoluteIndexes real_output mix_outputs).Nodup :=
    (absoluteIndexes_perm real_output mix_outputs).nodup_iff.2 hnd
  have hle := absoluteIndexes_sorted_le real_output mix_outputs
  exact List.Sorted.lt_of_le hle hnd'

theorem ringMembers_any_amount (real_output : Output) (mix_outputs : List Output) :
    ((ringMembers real_output mix_outputs).any
        (fun o => o.amount ≠ real_output.amount) = true)
      ↔ ∃ o ∈ mix_outputs, o.amount ≠ real_output.amount := by
  rw [List.any_eq_true]
  constructor
  · rintro ⟨o, ho, hne⟩
    have hmem := (ringMembers_perm real_output mix_outputs).mem_iff.1 ho
    simp only [decide_eq_true_eq] at hne
    rcases List.mem_cons.1 hmem with rfl | h
    · exact absurd rfl hne
    · exact ⟨o, h, hne⟩
  · rintro ⟨o, ho, hne⟩
    refine ⟨o, (ringMembers_perm real_output mix_outputs).mem_iff.2
      (List.mem_cons_of_mem _ ho), by simpa⟩

/-! Round trip of the offset conversions. -/

theorem absAux_relAux (xs : List ℕ) : ∀ prev, prev < W32 → (∀ x ∈ xs, x < W32) →
    absAux prev (relAux prev xs) = xs := by
  induction xs with
  | nil => intro prev _ _; rfl
  | cons x xs ih =>
    intro prev hprev h
    have hx : x < W32 := h x (by simp)
    have hpm : prev % W32 = prev := Nat.mod_eq_of_lt hprev
    have key : (prev + (x + (W32 - prev % W32)) % W32) % W32 = x := by
      rw [hpm]
      have h1 : prev + (x + (W32 - prev)) = x + W32 := by omega
      calc (prev + (x + (W32 - prev)) % W32) % W32
          = (prev % W32 + ((x + (W32 - prev)) % W32) % W32) % W32 := by
            rw [← Nat.add_mod]
        _ = (prev + (x + (W32 - prev))) % W32 := by
            rw [Nat.mod_mod_of_dvd _ dvd_rfl, ← Nat.add_mod]
        _ = (x + W32) % W32 := by rw [h1]
        _ = x := by rw [Nat.add_mod_right]; exact Nat.mod_eq_of_lt hx
    show absAux prev ((x + (W32 - prev % W32)) % W32 :: relAux x xs) = x :: xs
    unfold absAux
    rw [key]
    exact congrArg (x :: ·) (ih x hx (fun y hy => h y (List.mem_cons_of_mem _ hy)))

/-! Concrete material for the counterexamples and witnesses. -/

/-- A convenience constructor for concrete outputs. -/
def mkOut (amount global_index key_image : ℕ) : Output :=
  { amount := amount, global_index := global_index, transaction_public_key := 0,
    index_in_transaction := 0, public_key := 0, key_image := key_image,
    height := 0, unlock_time := 0, address := 0, dust := false }

/-- The empty builder state used by the concrete builder runs. -/
def emptyBuilder : Builder :=
  { transaction := { version := 1, unlock_time := 0, extra := [] },
    inputs_amount := 0, outputs_amount := 0, input_descs := [] }

/-- A key-image helper that always succeeds with key image 42. -/
def gkiConst : ℕ → ℕ → ℕ → Option (ℕ × ℕ × ℕ) := fun _ _ _ => some (0, 0, 42)

/-- A key-image helper that always fails. -/
def gkiFail : ℕ → ℕ → ℕ → Option (ℕ × ℕ × ℕ) := fun _ _ _ => none

/-- Concrete hash-to-scalar model: the first byte of the array. -/
def cHs : List ℕ → ℕ := fun l => l.headD 0

/-- Concrete secret-to-public model. -/
def cPub : ℕ → ℕ := fun s => s + 1

/-- Concrete inputs-hash model: the amounts of the inputs, in order.  Any
collision-resistant hash separates the two orderings used below; this model
keeps just enough of the input list to do the same. -/
def cIH : List KeyInput → List ℕ := fun ins => ins.map KeyInput.amount

/-- First run's shuffled input list. -/
def cIns1 : List KeyInput := [⟨0, 0, []⟩, ⟨1, 0, []⟩]

/-- Second run's shuffled input list: the same set of inputs, shuffled the
other way. -/
def cIns2 : List KeyInput := [⟨1, 0, []⟩, ⟨0, 0, []⟩]

/-! Claim theorems: C2, C3, C4, C5, C9. -/

/-- C2 counterexample: two runs of sign on builders holding the same set of
inputs (the two finalized lists are permutations of each other) and the same
seed, whose shuffles order the inputs differently, derive different
transaction secrets, because the inputs hash is taken over the
already-shuffled input list. -/
theorem sign_secret_shuffle_dependent :
    List.Perm cIns1 cIns2 ∧
      signTxSecret cHs cPub cIH cIns1 [] ≠ signTxSecret cHs cPub cIH cIns2 [] := by
  constructor
  · decide
  · decide

/-- C2 (amended): for any two runs of sign whose shuffles produce the same
finalized input list and which are given the same derivation seed, the
derived transaction secret is identical, and it is the hash-to-scalar of the
concatenation of the inputs hash and the seed. -/
theorem sign_secret_deterministic (hashToScalar : List ℕ → ℕ) (secretToPublic : ℕ → ℕ)
    (inputsHash : List KeyInput → List ℕ) (ins1 ins2 : List KeyInput)
    (seed1 seed2 : List ℕ) (hins : ins1 = ins2) (hseed : seed1 = seed2) :
    signTxSecret hashToScalar secretToPublic inputsHash ins1 seed1
        = signTxSecret hashToScalar secretToPublic inputsHash ins2 seed2 ∧
      signTxSecret hashToScalar secretToPublic inputsHash ins1 seed1
        = hashToScalar (inputsHash ins1 ++ seed1) := by
  subst hins; subst hseed; exact ⟨rfl, rfl⟩

/-- C2 witness: the determinism theorem applied at a concrete run. -/
theorem sign_secret_deterministic_witness :
    signTxSecret cHs cPub cIH cIns1 [] = signTxSecret cHs cPub cIH cIns1 [] ∧
      signTxSecret cHs cPub cIH cIns1 [] = cHs (cIH cIns1 ++ []) :=
  sign_secret_deterministic cHs cPub cIH cIns1 cIns1 [] [] rfl rfl

/-- C3 counterexample: an input accepted by add_input (the node supplied two
ring candidates with the same global index) whose absolute output_indexes
sequence 3, 5, 5 is not strictly increasing. -/
theorem absolute_indexes_not_strict :
    (add_input gkiConst emptyBuilder 0 (mkOut 1 3 42) [mkOut 1 5 0, mkOut 1 5 0]).2
        = Except.ok 0 ∧
      ¬ List.Sorted (· < ·) (absoluteIndexes (mkOut 1 3 42) [mkOut 1 5 0, mkOut 1 5 0]) := by
  constructor
  · rfl
  · intro h
    have he : absoluteIndexes (mkOut 1 3 42) [mkOut 1 5 0, mkOut 1 5 0] = [3, 5, 5] := rfl
    rw [he] at h
    exact absurd h (by decide)

/-- C3 (amended): for every input prepared by add_input, the absolute form of
output_indexes is nondecreasing, and it is strictly increasing whenever the
global indexes of the real output and the mix outputs are pairwise
distinct (which the selector does not enforce among mix members). -/
theorem absolute_indexes_sorted (real_output : Output) (mix_outputs : List Output)
    (hnd : ((real_output :: mix_outputs).map Output.global_index).Nodup) :
    List.Sorted (· ≤ ·) (absoluteIndexes real_output mix_outputs) ∧
      List.Sorted (· < ·) (absoluteIndexes real_output mix_outputs) :=
  ⟨absoluteIndexes_sorted_le real_output mix_outputs,
    absoluteIndexes_sorted_lt real_output mix_outputs hnd⟩

/-- C3 witness: the sortedness theorem applied at a concrete ring with
pairwise distinct global indexes. -/
theorem absolute_indexes_sorted_witness :
    List.Sorted (· ≤ ·) (absoluteIndexes (mkOut 1 3 42) [mkOut 1 7 0, mkOut 1 5 0]) ∧
      List.Sorted (· < ·) (absoluteIndexes (mkOut 1 3 42) [mkOut 1 7 0, mkOut 1 5 0]) :=
  absolute_indexes_sorted (mkOut 1 3 42) [mkOut 1 7 0, mkOut 1 5 0] (by decide)

/-- The builder state right after the unconditional inputs_amount update at
the top of add_input. -/
def bumped (b : Builder) (real_output : Output) : Builder :=
  { b with inputs_amount := b.inputs_amount + real_output.amount }

/-- The InputDesc that a successful add_input appends. -/
def preparedInput (real_output : Output) (mix_outputs : List Output) (es ep : ℕ) : InputDesc :=
  { input :=
      { amount := real_output.amount
        key_image := real_output.key_image
        output_indexes :=
          absolute_output_offsets_to_relative
            ((ringMembers real_output mix_outputs).map Output.global_index) }
    outputs := ringMembers real_output mix_outputs
    real_output_index := realIndex real_output mix_outputs
    eph_sec := es
    eph_pub := ep }

theorem add_input_gki_none {gki : ℕ → ℕ → ℕ → Option (ℕ × ℕ × ℕ)} (b : Builder)
    (sender_keys : ℕ) (real_output : Output) (mix_outputs : List Output)
    (hg : gki sender_keys real_output.transaction_public_key
      real_output.index_in_transaction = none) :
    add_input gki b sender_keys real_output mix_outputs
      = (bumped b real_output, Except.error "generating keyimage failed") := by
  simp [add_input, hg, bumped]

theorem add_input_ki_mismatch {gki : ℕ → ℕ → ℕ → Option (ℕ × ℕ × ℕ)} (b : Builder)
    (sender_keys : ℕ) (real_output : Output) (mix_outputs : List Output) {es ep ki : ℕ}
    (hg : gki sender_keys real_output.transaction_public_key
      real_output.index_in_transaction = some (es, ep, ki))
    (hki : ki ≠ real_output.key_image) :
    add_input gki b sender_keys real_output mix_outputs
      = (bumped b real_output, Except.error "generated keyimage does not match input") := by
  simp only [add_input, hg]
  rw [if_pos hki]
  rfl

theorem add_input_amount_mismatch {gki : ℕ → ℕ → ℕ → Option (ℕ × ℕ × ℕ)} (b : Builder)
    (sender_keys : ℕ) (real_output : Output) (mix_outputs : List Output) {es ep ki : ℕ}
    (hg : gki sender_keys real_output.transaction_public_key
      real_output.index_in_transaction = some (es, ep, ki))
    (hki : ki = real_output.key_image)
    (hamt : ∃ o ∈ mix_outputs, o.amount ≠ real_output.amount) :
    add_input gki b sender_keys real_output mix_outputs
      = (bumped b real_output,
          Except.error "Mixin outputs with different amounts is not allowed") := by
  simp only [add_input, hg]
  rw [if_neg (not_not_intro hki)]
  rw [if_pos ((ringMembers_any_amount real_output mix_outputs).2 hamt)]
  rfl

theorem add_input_success {gki : ℕ → ℕ → ℕ → Option (ℕ × ℕ × ℕ)} (b : Builder)
    (sender_keys : ℕ) (real_output : Output) (mix_outputs : List Output) {es ep ki : ℕ}
    (hg : gki sender_keys real_output.transaction_public_key
      real_output.index_in_transaction = some (es, ep, ki))
    (hki : ki = real_output.key_image)
    (hamt : ¬ ∃ o ∈ mix_outputs, o.amount ≠ real_output.amount) :
    add_input gki b sender_keys real_output mix_outputs
      = ({ bumped b real_output with
            input_descs := b.input_descs ++ [preparedInput real_output mix_outputs es ep] },
          Except.ok b.input_descs.length) := by
  subst hki
  simp only [add_input, hg]
  rw [if_neg (not_not_intro rfl)]
  rw [if_neg ?hcond]
  · rfl
  · intro hb
    exact hamt ((ringMembers_any_amount real_output mix_outputs).1 hb)

/-- C4: add_input reports an error exactly when key-image derivation fails,
or the derived key image differs from the recorded one, or some ring member
has an amount different from the real output; otherwise it appends the
prepared input and returns its index (the previous length of the list). -/
theorem add_input_error_char (gki : ℕ → ℕ → ℕ → Option (ℕ × ℕ × ℕ)) (b : Builder)
    (sender_keys : ℕ) (real_output : Output) (mix_outputs : List Output) :
    ((∃ e, (add_input gki b sender_keys real_output mix_outputs).2 = Except.error e) ↔
        (gki sender_keys real_output.transaction_public_key real_output.index_in_transaction
            = none ∨
          (∃ es ep ki, gki sender_keys real_output.transaction_public_key
              real_output.index_in_transaction = some (es, ep, ki) ∧
            ki ≠ real_output.key_image) ∨
          ∃ o ∈ mix_outputs, o.amount ≠ real_output.amount)) ∧
      ∀ i, (add_input gki b sender_keys real_output mix_outputs).2 = Except.ok i →
        i = b.input_descs.length ∧
          ∃ desc, (add_input gki b sender_keys real_output mix_outputs).1.input_descs
            = b.input_descs ++ [desc] := by
  cases hg : gki sender_keys real_output.transaction_public_key
      real_output.index_in_transaction with
  | none =>
    rw [add_input_gki_none b sender_keys real_output mix_outputs hg]
    constructor
    · exact ⟨fun _ => Or.inl rfl, fun _ => ⟨_, rfl⟩⟩
    · intro i hi; cases hi
  | some v =>
    obtain ⟨es, ep, ki⟩ := v
    by_cases hki : ki = real_output.key_image
    · by_cases hamt : ∃ o ∈ mix_outputs, o.amount ≠ real_output.amount
      · rw [add_input_amount_mismatch b sender_keys real_output mix_outputs hg hki hamt]
        constructor
        · exact ⟨fun _ => Or.inr (Or.inr hamt), fun _ => ⟨_, rfl⟩⟩
        · intro i hi; cases hi
      · rw [add_input_success b sender_keys real_output mix_outputs hg hki hamt]
        constructor
        · constructor
          · rintro ⟨e, he⟩; cases he
          · rintro (h | ⟨es', ep', ki', hsome, hne⟩ | hmix)
            · cases h
            · simp only [Option.some.injEq, Prod.mk.injEq] at hsome
              obtain ⟨-, -, rfl⟩ := hsome
              exact absurd hki hne
            · exact absurd hmix hamt
        · intro i hi
          injection hi with hi
          exact ⟨hi.symm, _, rfl⟩
    · rw [add_input_ki_mismatch b sender_keys real_output mix_outputs hg hki]
      constructor
      · exact ⟨fun _ => Or.inr (Or.inl ⟨es, ep, ki, rfl, hki⟩), fun _ => ⟨_, rfl⟩⟩
      · intro i hi; cases hi

/-- C4 witness: the characterization applied at a concrete successful call
and read off on the success side. -/
theorem add_input_error_char_witness :
    0 = emptyBuilder.input_descs.length ∧
      ∃ desc, (add_input gkiConst emptyBuilder 0 (mkOut 1 3 42) [mkOut 1 5 0]).1.input_descs
        = emptyBuilder.input_descs ++ [desc] :=
  (add_input_error_char gkiConst emptyBuilder 0 (mkOut 1 3 42) [mkOut 1 5 0]).2 0 rfl

/-- C5: converting a vector of absolute uint32 indexes to relative offsets
and prefix-summing back is the identity. -/
theorem offsets_roundtrip (off : List ℕ) (h : ∀ x ∈ off, x < W32) :
    relative_output_offsets_to_absolute (absolute_output_offsets_to_relative off) = off := by
  cases off with
  | nil => rfl
  | cons a xs =>
    have ha : a < W32 := h a (by simp)
    show relative_output_offsets_to_absolute (a :: relAux a xs) = a :: xs
    unfold relative_output_offsets_to_absolute
    exact congrArg (a :: ·)
      (absAux_relAux xs a ha (fun y hy => h y (List.mem_cons_of_mem _ hy)))

/-- C5 witness: the round trip at a concrete, non-monotone vector. -/
theorem offsets_roundtrip_witness :
    relative_output_offsets_to_absolute
        (absolute_output_offsets_to_relative [7, 3, 12]) = [7, 3, 12] :=
  offsets_roundtrip [7, 3, 12] (by decide)

/-- C9: when add_input fails, the builder state it leaves behind has the
pending input list and the transaction unchanged, but inputs_amount already
increased by the real output's amount: a failed add_input is not atomic. -/
theorem add_input_failure_state (gki : ℕ → ℕ → ℕ → Option (ℕ × ℕ × ℕ)) (b : Builder)
    (sender_keys : ℕ) (real_output : Output) (mix_outputs : List Output) (e : String)
    (h : (add_input gki b sender_keys real_output mix_outputs).2 = Except.error e) :
    (add_input gki b sender_keys real_output mix_outputs).1.input_descs = b.input_descs ∧
      (add_input gki b sender_keys real_output mix_outputs).1.transaction = b.transaction ∧
      (add_input gki b sender_keys real_output mix_outputs).1.inputs_amount
        = b.inputs_amount + real_output.amount := by
  cases hg : gki sender_keys real_output.transaction_public_key
      real_output.index_in_transaction with
  | none =>
    rw [add_input_gki_none b sender_keys real_output mix_outputs hg]
    exact ⟨rfl, rfl, rfl⟩
  | some v =>
    obtain ⟨es, ep, ki⟩ := v
    by_cases hki : ki = real_output.key_image
    · by_cases hamt : ∃ o ∈ mix_outputs, o.amount ≠ real_output.amount
      · rw [add_input_amount_mismatch b sender_keys real_output mix_outputs hg hki hamt]
        exact ⟨rfl, rfl, rfl⟩
      · exfalso
        rw [add_input_success b sender_keys real_output mix_outputs hg hki hamt] at h
        cases h
    · rw [add_input_ki_mismatch b sender_keys real_output mix_outputs hg hki]
      exact ⟨rfl, rfl, rfl⟩

/-! The unspent selector.  std::map is embedded as a key-sorted association
list; a vector of outputs is a Lean list whose head plays the role of the
vector's back (the element read by back() and removed by pop_back), so
push_back is consing at the head.  Amounts are Nat; the one place where the
source relies on uint64 wrap-around (the fake_large trick in
optimize_amounts) reduces modulo 2^64 explicitly. -/

/-- Constant fake_large: added to optimize negative amounts. -/
def fake_large : ℕ := 1000000000000000000

/-- Constant OPTIMIZATIONS_PER_TX. -/
def OPTIMIZATIONS_PER_TX : ℕ := 50

/-- Constant OPTIMIZATIONS_PER_TX_AGGRESSIVE. -/
def OPTIMIZATIONS_PER_TX_AGGRESSIVE : ℕ := 200

/-- Constant MEDIAN_PERCENT. -/
def MEDIAN_PERCENT : ℕ := 5

/-- Constant MEDIAN_PERCENT_AGGRESSIVE. -/
def MEDIAN_PERCENT_AGGRESSIVE : ℕ := 10

/-- Constant STACK_OPTIMIZATION_THRESHOLD. -/
def STACK_OPTIMIZATION_THRESHOLD : ℕ := 20

/-- Constant TWO_THRESHOLD. -/
def TWO_THRESHOLD : ℕ := 10

/-- A stack of outputs (a C++ vector; the list head is the vector back). -/
abbrev Stack := List Output

/-- HaveCoins: std::map digit to (std::map leading-digit to stack). -/
abbrev HaveCoins := List (ℕ × List (ℕ × Stack))

/-- DustCoins: std::map amount to stack. -/
abbrev DustCoins := List (ℕ × Stack)

/-- Lookup in a key-unique association list (std::map find). -/
def alFind {β : Type} (k : ℕ) : List (ℕ × β) → Option β
  | [] => none
  | (k', v) :: rest => if k = k' then some v else alFind k rest

/-- Insert-or-modify in a key-sorted association list: the function receives
the present value, if any (std::map operator[] plus an update). -/
def alUpdate {β : Type} (k : ℕ) (f : Option β → β) : List (ℕ × β) → List (ℕ × β)
  | [] => [(k, f none)]
  | (k', v) :: rest =>
    if k < k' then (k, f none) :: (k', v) :: rest
    else if k = k' then (k', f (some v)) :: rest
    else (k', v) :: alUpdate k f rest

/-- Erase a key from an association list (std::map erase). -/
def alErase {β : Type} (k : ℕ) : List (ℕ × β) → List (ℕ × β)
  | [] => []
  | (k', v) :: rest => if k = k' then rest else (k', v) :: alErase k rest

/-- First entry whose key is at least k (std::map lower_bound on a
key-sorted list). -/
def alLowerBound {β : Type} (k : ℕ) : List (ℕ × β) → Option (ℕ × β)
  | [] => none
  | (k', v) :: rest => if k ≤ k' then some (k', v) else alLowerBound k rest

/-- Structural engine for the loop while (am > 9) digit += 1, am /= 10; the
fuel argument only bounds the recursion depth and never runs out when it
starts at the amount itself. -/
def digitLeadGo : ℕ → ℕ → ℕ × ℕ
  | 0, a => (0, a)
  | fuel + 1, a =>
    if 9 < a then
      ((digitLeadGo fuel (a / 10)).1 + 1, (digitLeadGo fuel (a / 10)).2)
    else (0, a)

theorem digitLeadGo_irrel : ∀ fuel1 fuel2 a, a ≤ fuel1 → a ≤ fuel2 →
    digitLeadGo fuel1 a = digitLeadGo fuel2 a := by
  intro fuel1
  induction fuel1 with
  | zero =>
    intro fuel2 a h1 h2
    interval_cases a
    cases fuel2 with
    | zero => rfl
    | succ f => simp [digitLeadGo]
  | succ f1 ih =>
    intro fuel2 a h1 h2
    by_cases ha : 9 < a
    · cases fuel2 with
      | zero => omega
      | succ f2 =>
        simp only [digitLeadGo, if_pos ha]
        have hdiv : a / 10 < a := Nat.div_lt_self (by omega) (by omega)
        rw [ih f2 (a / 10) (by omega) (by omega)]
    · cases fuel2 with
      | zero =>
        have : a = 0 := by omega
        subst this
        simp [digitLeadGo]
      | succ f2 => simp [digitLeadGo, if_neg ha]

/-- The digit computed by the loop while (am > 9) digit += 1, am /= 10: the
decimal position of the leading digit of the amount. -/
def digitOf (a : ℕ) : ℕ := (digitLeadGo a a).1

/-- The leading digit left in am when the same loop finishes. -/
def leadOf (a : ℕ) : ℕ := (digitLeadGo a a).2

theorem digitOf_small {a : ℕ} (h : a ≤ 9) : digitOf a = 0 := by
  unfold digitOf
  cases a with
  | zero => rfl
  | succ n => simp [digitLeadGo, Nat.lt_irrefl, show ¬ 9 < n + 1 by omega]

theorem leadOf_small {a : ℕ} (h : a ≤ 9) : leadOf a = a := by
  unfold leadOf
  cases a with
  | zero => rfl
  | succ n => simp [digitLeadGo, show ¬ 9 < n + 1 by omega]

theorem digitOf_step {a : ℕ} (h : 9 < a) : digitOf a = digitOf (a / 10) + 1 := by
  unfold digitOf
  cases ha : a with
  | zero => omega
  | succ n =>
    rw [← ha]
    have h1 : a = (a - 1) + 1 := by omega
    rw [h1]
    simp only [digitLeadGo, if_pos (show 9 < (a-1)+1 by omega)]
    congr 1
    rw [digitLeadGo_irrel (a - 1) (((a-1)+1) / 10) (((a-1)+1) / 10)
      (by have := Nat.div_lt_self (show 0 < (a-1)+1 by omega) (show 1 < 10 by omega); omega)
      (le_refl _)]

theorem leadOf_step {a : ℕ} (h : 9 < a) : leadOf a = leadOf (a / 10) := by
  unfold leadOf
  have h1 : a = (a - 1) + 1 := by omega
  rw [h1]
  simp only [digitLeadGo, if_pos (show 9 < (a-1)+1 by omega)]
  rw [digitLeadGo_irrel (a - 1) (((a-1)+1) / 10) (((a-1)+1) / 10)
    (by have := Nat.div_lt_self (show 0 < (a-1)+1 by omega) (show 1 < 10 by omega); omega)
    (le_refl _)]

/-- The UnspentSelector member state threaded through selection. -/
structure SelState where
  used_total : ℕ
  inputs_count : ℕ
  optimization_unspents : List Output
  used_unspents : List Output
  ra_amounts : List ℕ
deriving DecidableEq, Repr

/-- The selector state right after reset. -/
def initialSelState : SelState :=
  { used_total := 0, inputs_count := 0, optimization_unspents := [],
    used_unspents := [], ra_amounts := [] }

/-- The three-line provisional pick used by every selection site: push the
coin onto optimization_unspents, add its amount to used_total, bump
inputs_count. -/
def pickCoin (s : SelState) (c : Output) : SelState :=
  { s with used_total := s.used_total + c.amount,
           inputs_count := s.inputs_count + 1,
           optimization_unspents := s.optimization_unspents ++ [c] }

/-- Push onto a possibly missing stack (operator[] then push_back). -/
def stackPush (c : Output) : Option Stack → Stack
  | none => [c]
  | some st => c :: st

/-- Push a non-dust coin onto have_coins under its digit and leading-digit
key. -/
def havePush (h : HaveCoins) (c : Output) : HaveCoins :=
  alUpdate (digitOf c.amount) (fun es => alUpdate (leadOf c.amount) (stackPush c) (es.getD [])) h

/-- Push a dust coin onto dust_coins under its amount. -/
def dustPush (d : DustCoins) (c : Output) : DustCoins :=
  alUpdate c.amount (stackPush c) d

/-- UnspentSelector::create_have_coins.  The currency predicates is_dust and
is_transaction_spend_time_unlocked are the parameters isDust and unlocked
(the latter already specialized to the block height and time); iteration is
over the unspents in reverse (rbegin to rend).  Returns the two maps and
max_digit. -/
def createHaveCoins (isDust : ℕ → Bool) (unlocked : ℕ → Bool) (confirmed_height : ℕ)
    (unspents : List Output) : HaveCoins × DustCoins × ℕ :=
  unspents.reverse.foldl (fun (acc : HaveCoins × DustCoins × ℕ) un =>
    if confirmed_height ≤ un.height then acc
    else if ¬ unlocked un.unlock_time then acc
    else if ¬ isDust un.amount then
      (havePush acc.1 un, acc.2.1, max acc.2.2 (digitOf un.amount))
    else (acc.1, dustPush acc.2.1 un, acc.2.2)) ([], [], 0)

/-- UnspentSelector::combine_optimized_unspents: commit the provisional
picks into used_unspents (recording their amounts in ra_amounts). -/
def combineOptimizedUnspents (s : SelState) : SelState :=
  { s with ra_amounts := s.ra_amounts ++ s.optimization_unspents.map Output.amount,
           used_unspents := s.used_unspents ++ s.optimization_unspents,
           optimization_unspents := [] }

/-- One step of unoptimize_amounts: undo the counters for one provisional
pick and return the coin to have_coins or dust_coins according to its dust
flag. -/
def unoptimizeStep (acc : HaveCoins × DustCoins × SelState) (un : Output) :
    HaveCoins × DustCoins × SelState :=
  let s' : SelState :=
    { acc.2.2 with used_total := acc.2.2.used_total - un.amount,
                   inputs_count := acc.2.2.inputs_count - 1 }
  if un.dust then (acc.1, dustPush acc.2.1 un, s')
  else (havePush acc.1 un, acc.2.1, s')

/-- UnspentSelector::unoptimize_amounts. -/
def unoptimizeAmounts (h : HaveCoins) (d : DustCoins) (s : SelState) :
    HaveCoins × DustCoins × SelState :=
  let r := s.optimization_unspents.foldl unoptimizeStep (h, d, s)
  (r.1, r.2.1, { r.2.2 with optimization_unspents := [] })

/-- Pop the top of the stack at key k in a one-level map, erasing the entry
when the stack empties; none models the popping of a missing or empty stack,
which is undefined behaviour in the source and excluded by well-formedness. -/
def stacksPopAt (m : List (ℕ × Stack)) (k : ℕ) : Option (Output × List (ℕ × Stack)) :=
  match alFind k m with
  | none => none
  | some [] => none
  | some (c :: st) =>
    some (c, if st.isEmpty then alErase k m else alUpdate k (fun _ => st) m)

/-- Pop the top of the stack at (digit, lead) in have_coins, erasing emptied
inner entries and emptied digit entries. -/
def havePopAt (h : HaveCoins) (digit lead : ℕ) : Option (Output × HaveCoins) :=
  match alFind digit h with
  | none => none
  | some es =>
    match stacksPopAt es lead with
    | none => none
    | some (c, es') =>
      some (c, if es'.isEmpty then alErase digit h else alUpdate digit (fun _ => es') h)

/-- The am computation of optimize_amounts: 10 minus ((fake_large +
total_amount + digit_amount - 1 - m_used_total) / digit_amount) mod 10, the
uint64 subtraction made explicit modulo 2^64. -/
def amCode (total used d : ℕ) : ℕ :=
  10 - (((fake_large + total + d - 1 + (W64 - used % W64)) % W64) / d) % 10

/-- The double loop of optimize_amounts searching the best qualifying pair,
in ascending key order; returns (best_weight, best_two_counts 0,
best_two_counts 1). -/
def bestPair (es : List (ℕ × Stack)) (am : ℕ) : ℕ × ℕ × ℕ :=
  es.foldl (fun acc a =>
    es.foldl (fun acc2 b =>
      if (a.1 + b.1 + am) % 10 = 0 ∧
          (TWO_THRESHOLD ≤ a.2.length ∨ TWO_THRESHOLD ≤ b.2.length) ∧
          acc2.1 < a.2.length + b.2.length
      then (a.2.length + b.2.length, a.1, b.1) else acc2) acc) (0, 0, 0)

/-- The single-stack search of optimize_amounts: first key with (key + am)
mod 10 = 0 wins outright (the break); otherwise the tallest stack among keys
strictly above 10 - am. -/
def singleSearch (am : ℕ) : List (ℕ × Stack) → ℕ → ℕ → ℕ
  | [], _, best => best
  | (k, st) :: rest, bw, best =>
    if (k + am) % 10 = 0 then k
    else if 10 - am < k ∧ bw < st.length then singleSearch am rest st.length k
    else singleSearch am rest bw best

/-- One iteration of the digit loop of optimize_amounts. -/
def optDigitStep (total digit : ℕ) (h : HaveCoins) (s : SelState) : HaveCoins × SelState :=
  let am := amCode total s.used_total (10 ^ digit)
  match alFind digit h with
  | none => (h, s)
  | some es =>
    let bp := bestPair es am
    if bp.1 ≠ 0 then
      match havePopAt h digit bp.2.1 with
      | none => (h, s)
      | some (c1, h1) =>
        match havePopAt h1 digit bp.2.2 with
        | none => (h1, pickCoin s c1)
        | some (c2, h2) => (h2, pickCoin (pickCoin s c1) c2)
    else if am = 10 then (h, s)
    else
      let bs := singleSearch am es 0 0
      if bs ≠ 0 then
        match havePopAt h digit bs with
        | none => (h, s)
        | some (c, h1) => (h1, pickCoin s c)
      else (h, s)

/-- The digit loop of optimize_amounts, with the early break when used_total
has reached the target and digit_amount exceeds it. -/
def optAmountsGo (total : ℕ) : ℕ → ℕ → HaveCoins → SelState → HaveCoins × SelState
  | 0, _, h, s => (h, s)
  | fuel + 1, digit, h, s =>
    if total ≤ s.used_total ∧ s.used_total < 10 ^ digit then (h, s)
    else
      let hs := optDigitStep total digit h s
      optAmountsGo total fuel (digit + 1) hs.1 hs.2

/-- UnspentSelector::optimize_amounts: digit rounding over digits
0..max_digit. -/
def optimizeAmounts (h : HaveCoins) (max_digit total : ℕ) (s : SelState) :
    HaveCoins × SelState :=
  optAmountsGo total (max_digit + 1) 0 h s

/-- The scan for the tallest stack strictly above
STACK_OPTIMIZATION_THRESHOLD, in ascending key order; returns its weight and
its (digit, lead) keys. -/
def bestStackScan (h : HaveCoins) : ℕ × Option (ℕ × ℕ) :=
  h.foldl (fun acc e =>
    e.2.foldl (fun acc2 a =>
      if acc2.1 < a.2.length then (a.2.length, some (e.1, a.1)) else acc2) acc)
    (STACK_OPTIMIZATION_THRESHOLD, none)

/-- Take 10 coins off the top of the stack at (digit, lead); the entry is
never erased (the threshold keeps the stack non-empty). -/
def popTenFrom (h : HaveCoins) (digit lead : ℕ) (s : SelState) : HaveCoins × SelState :=
  match alFind digit h with
  | none => (h, s)
  | some es =>
    match alFind lead es with
    | none => (h, s)
    | some st =>
      (alUpdate digit (fun _ => alUpdate lead (fun _ => st.drop 10) es) h,
        (st.take 10).foldl pickCoin s)

/-- Structural engine of the stack-compaction loop; the fuel starts at the
optimization count and dominates it throughout, so it never runs out before
the loop exits on its own condition. -/
def stackLoopGo : ℕ → ℕ → HaveCoins → SelState → ℕ × HaveCoins × SelState
  | 0, cnt, h, s => (cnt, h, s)
  | fuel + 1, cnt, h, s =>
    if 10 ≤ cnt then
      match bestStackScan h with
      | (_, none) => (cnt, h, s)
      | (_, some (digit, lead)) =>
        let hs := popTenFrom h digit lead s
        stackLoopGo fuel (cnt - 10) hs.1 hs.2
    else (cnt, h, s)

/-- The stack-compaction loop: while 10 or more optimization picks remain,
take 10 coins from the tallest stack above the threshold; stop when none
qualifies.  Returns the remaining optimization count. -/
def stackLoop (cnt : ℕ) (h : HaveCoins) (s : SelState) : ℕ × HaveCoins × SelState :=
  stackLoopGo cnt cnt h s

/-- The anonymity-zero cover: the smallest dust coin at least the shortfall,
found with lower_bound. -/
def dustCoverSingle (total : ℕ) (d : DustCoins) (s : SelState) : DustCoins × SelState :=
  if s.used_total < total then
    match alLowerBound (total - s.used_total) d with
    | none => (d, s)
    | some (k, _) =>
      match stacksPopAt d k with
      | none => (d, s)
      | some (c, d') => (d', pickCoin s c)
  else (d, s)

/-- Structural engine of the dust fill loop; the fuel starts at the
optimization count and dominates it throughout. -/
def dustFillGo (total : ℕ) : ℕ → ℕ → DustCoins → SelState → ℕ × DustCoins × SelState
  | 0, cnt, d, s => (cnt, d, s)
  | fuel + 1, cnt, d, s =>
    if s.used_total < total ∧ d ≠ [] ∧ 1 ≤ cnt then
      match d.getLast? with
      | none => (cnt, d, s)
      | some (k, _) =>
        match stacksPopAt d k with
        | none => (cnt, d, s)
        | some (c, d') => dustFillGo total fuel (cnt - 1) d' (pickCoin s c)
    else (cnt, d, s)

/-- The anonymity-zero dust fill loop: largest-amount dust first, at most
cnt coins. -/
def dustFillLoop (total cnt : ℕ) (d : DustCoins) (s : SelState) : ℕ × DustCoins × SelState :=
  dustFillGo total cnt cnt d s

/-- The search for the smallest single non-dust coin covering the shortfall:
first fitting leading digit of the lowest digit wins. -/
def singleLargeGo (total : ℕ) : ℕ → ℕ → HaveCoins → SelState → HaveCoins × SelState
  | 0, _, h, s => (h, s)
  | fuel + 1, digit, h, s =>
    match alFind digit h with
    | none => singleLargeGo total fuel (digit + 1) h s
    | some es =>
      match es.find? (fun a => ¬ a.2.isEmpty ∧ total - s.used_total ≤ a.1 * 10 ^ digit) with
      | none => singleLargeGo total fuel (digit + 1) h s
      | some (lead, _) =>
        match havePopAt h digit lead with
        | none => (h, s)
        | some (c, h') => (h', pickCoin s c)

/-- The coin at the back of the last stack of the last digit entry. -/
def haveLastCoin (h : HaveCoins) : Option Output :=
  (h.getLast?.bind (fun e => e.2.getLast?)).bind (fun a => a.2.head?)

/-- The coin at the back of the last dust stack. -/
def dustLastCoin (d : DustCoins) : Option Output :=
  d.getLast?.bind (fun e => e.2.head?)

/-- Pop the filler coin from the last stack of the last digit entry. -/
def popLastHave (h : HaveCoins) : Option (Output × HaveCoins) :=
  match h.getLast? with
  | none => none
  | some (digit, es) =>
    match es.getLast? with
    | none => none
    | some (lead, _) => havePopAt h digit lead

/-- Pop the filler coin from the last dust stack. -/
def popLastDust (d : DustCoins) : Option (Output × DustCoins) :=
  match d.getLast? with
  | none => none
  | some (k, _) => stacksPopAt d k

/-- Total number of coins held in have_coins. -/
def haveCount (h : HaveCoins) : ℕ :=
  (h.map (fun e => (e.2.map (fun a => a.2.length)).sum)).sum

/-- Total number of coins held in dust_coins. -/
def dustCount (d : DustCoins) : ℕ :=
  (d.map (fun e => e.2.length)).sum

/-- The final filler loop: largest coins (dust included when anonymity is
zero) until the target is covered or the usable pools are exhausted.  fuel
dominates the number of remaining coins, so a run with the fuel chosen by
selectInner never stops on fuel. -/
def fillerGo (anonymity total : ℕ) :
    ℕ → HaveCoins → DustCoins → SelState → Bool × HaveCoins × DustCoins × SelState
  | 0, h, d, s => (false, h, d, s)
  | fuel + 1, h, d, s =>
    if total ≤ s.used_total then (true, h, d, s)
    else if h = [] ∧ (anonymity ≠ 0 ∨ d = []) then (false, h, d, s)
    else
      let ha := match haveLastCoin h with | some c => c.amount | none => 0
      let du := if anonymity = 0 then
          (match dustLastCoin d with | some c => c.amount | none => 0) else 0
      if du < ha then
        match popLastHave h with
        | none => (false, h, d, s)
        | some (c, h') => fillerGo anonymity total fuel h' d (pickCoin s c)
      else
        match popLastDust d with
        | none => (false, h, d, s)
        | some (c, d') => fillerGo anonymity total fuel h d' (pickCoin s c)

/-- The inner UnspentSelector::select_optimal_outputs: dust cover, stack
compaction, digit rounding, single large coin, filler, final digit
rounding. -/
def selectInner (anonymity max_digit total optimization_count : ℕ)
    (h : HaveCoins) (d : DustCoins) (s : SelState) :
    Bool × HaveCoins × DustCoins × SelState :=
  let dc := if anonymity = 0 then dustCoverSingle total d s else (d, s)
  let df := if anonymity = 0 then dustFillLoop total optimization_count dc.1 dc.2
            else (optimization_count, dc.1, dc.2)
  let sl := stackLoop df.1 h df.2.2
  let oa := optimizeAmounts sl.2.1 max_digit total sl.2.2
  if total ≤ oa.2.used_total then (true, oa.1, df.2.1, oa.2)
  else
    let slg := singleLargeGo total (max_digit + 1) 0 oa.1 oa.2
    if total ≤ slg.2.used_total then (true, slg.1, df.2.1, slg.2)
    else
      let uo := unoptimizeAmounts slg.1 df.2.1 slg.2
      let fl := fillerGo anonymity total (haveCount uo.1 + dustCount uo.2.1 + 1)
        uo.1 uo.2.1 uo.2.2
      if fl.1 then
        let oa2 := optimizeAmounts fl.2.1 max_digit total fl.2.2.2
        (true, oa2.1, fl.2.2.1, oa2.2)
      else (false, fl.2.1, fl.2.2.1, fl.2.2.2)

/-- The caller-facing parameters of the outer select_optimal_outputs. -/
structure OuterParams where
  effective_median_size : ℕ
  anonymity : ℕ
  total_amount : ℕ
  total_outputs : ℕ
  fee_per_byte : ℕ
  optimization_level : String
  minimum_fee : ℕ
  default_dust_threshold : ℕ
deriving DecidableEq, Repr

/-- The outcome of one iteration of the outer fee loop. -/
inductive StepRes where
  | nef (h : HaveCoins) (d : DustCoins) (s : SelState)
  | dnf (h : HaveCoins) (d : DustCoins) (s : SelState)
  | done (change : ℕ) (h : HaveCoins) (d : DustCoins) (s : SelState)
  | retry (fee optimizations : ℕ) (h : HaveCoins) (d : DustCoins) (s : SelState)
deriving DecidableEq, Repr

/-- The optimization median: effective_median_size scaled by the level
percent. -/
def optimizationMedian (p : OuterParams) : ℕ :=
  p.effective_median_size *
    (if p.optimization_level = "aggressive" then MEDIAN_PERCENT_AGGRESSIVE
      else MEDIAN_PERCENT) / 100

/-- One iteration of the outer fee loop of select_optimal_outputs.  The
external size estimator get_maximum_tx_size is the parameter txSize. -/
def outerStep (txSize : ℕ → ℕ → ℕ → ℕ) (p : OuterParams)
    (max_digit fee optimizations : ℕ) (h : HaveCoins) (d : DustCoins) (s : SelState) :
    StepRes :=
  let r := selectInner p.anonymity max_digit (p.total_amount + fee) optimizations h d s
  if ¬ r.1 then .nef r.2.1 r.2.2.1 r.2.2.2
  else
    let s1 := r.2.2.2
    let change_dust_fee := (s1.used_total - p.total_amount - fee) % p.default_dust_threshold
    let tx_size := txSize s1.inputs_count (p.total_outputs + 8) p.anonymity
    if optimizationMedian p < tx_size ∧ 0 < optimizations then
      let u := unoptimizeAmounts r.2.1 r.2.2.1 s1
      let o' := optimizations / 2
      .retry fee (if o' < 10 then 0 else o') u.1 u.2.1 u.2.2
    else if p.effective_median_size < tx_size then .dnf r.2.1 r.2.2.1 s1
    else
      let size_fee := p.fee_per_byte * tx_size
      if size_fee ≤ fee + change_dust_fee then
        .done (s1.used_total - p.total_amount - fee - change_dust_fee)
          r.2.1 r.2.2.1 (combineOptimizedUnspents s1)
      else
        let fee' := ((size_fee - change_dust_fee + p.default_dust_threshold - 1)
            / p.default_dust_threshold) * p.default_dust_threshold
        let u := unoptimizeAmounts r.2.1 r.2.2.1 s1
        .retry fee' optimizations u.1 u.2.1 u.2.2

/-- The result of the outer select_optimal_outputs: the status string, the
value written through the change pointer (none when the call fails before
writing it), the fee of the returning iteration, and the final structures. -/
structure OuterRes where
  status : String
  change : Option ℕ
  fee : ℕ
  h : HaveCoins
  d : DustCoins
  s : SelState
deriving DecidableEq, Repr

/-- The outer fee loop; fuel bounds the number of iterations (the source
loop carries no a-priori bound, and every terminating run is reached at some
fuel). -/
def outerGo (txSize : ℕ → ℕ → ℕ → ℕ) (p : OuterParams) (max_digit : ℕ) :
    ℕ → ℕ → ℕ → HaveCoins → DustCoins → SelState → Option OuterRes
  | 0, _, _, _, _, _ => none
  | fuel + 1, fee, opts, h, d, s =>
    match outerStep txSize p max_digit fee opts h d s with
    | .nef h' d' s' => some ⟨"NOT_ENOUGH_FUNDS", none, fee, h', d', s'⟩
    | .dnf h' d' s' => some ⟨"TRANSACTION_DOES_NOT_FIT_IN_BLOCK", none, fee, h', d', s'⟩
    | .done c h' d' s' => some ⟨"", some c, fee, h', d', s'⟩
    | .retry fee' opts' h' d' s' => outerGo txSize p max_digit fuel fee' opts' h' d' s'

/-- The initial optimization budget selected from the optimization level. -/
def initialOptimizations (level : String) : ℕ :=
  if level = "aggressive" then OPTIMIZATIONS_PER_TX_AGGRESSIVE
  else if level = "minimal" then 9 else OPTIMIZATIONS_PER_TX

/-- UnspentSelector::select_optimal_outputs (outer): build the coin maps
from the unspent pool and run the fee loop from the minimum fee, starting
from the state left by reset. -/
def select_optimal_outputs (txSize : ℕ → ℕ → ℕ → ℕ) (isDust : ℕ → Bool)
    (unlocked : ℕ → Bool) (confirmed_height : ℕ) (unspents : List Output)
    (p : OuterParams) (fuel : ℕ) : Option OuterRes :=
  let c := createHaveCoins isDust unlocked confirmed_height unspents
  outerGo txSize p c.2.2 fuel p.minimum_fee (initialOptimizations p.optimization_level)
    c.1 c.2.1 initialSelState

/-! Association-list infrastructure: the std::map embedding. -/

/-- The keys of an association list. -/
def alKeys {β : Type} (m : List (ℕ × β)) : List ℕ := m.map Prod.fst

/-- Key-sortedness: the std::map invariant that keys are strictly
increasing (hence unique). -/
def KSorted {β : Type} (m : List (ℕ × β)) : Prop :=
  List.Pairwise (· < ·) (alKeys m)

theorem alFind_cons_eq {β : Type} {k : ℕ} {v : β} {rest : List (ℕ × β)} :
    alFind k ((k, v) :: rest) = some v := by
  simp [alFind]

theorem alFind_cons_ne {β : Type} {k k' : ℕ} {v : β} {rest : List (ℕ × β)}
    (h : k ≠ k') : alFind k ((k', v) :: rest) = alFind k rest := by
  simp [alFind, h]

theorem alErase_cons_eq {β : Type} {k : ℕ} {v : β} {rest : List (ℕ × β)} :
    alErase k ((k, v) :: rest) = rest := by
  simp [alErase]

theorem alErase_cons_ne {β : Type} {k k' : ℕ} {v : β} {rest : List (ℕ × β)}
    (h : k ≠ k') : alErase k ((k', v) :: rest) = (k', v) :: alErase k rest := by
  simp [alErase, fun h' => h (h' : k = k')]

theorem alUpdate_cons_lt {β : Type} {k k' : ℕ} {v : β} {rest : List (ℕ × β)}
    (f : Option β → β) (h : k < k') :
    alUpdate k f ((k', v) :: rest) = (k, f none) :: (k', v) :: rest := by
  simp [alUpdate, h]

theorem alUpdate_cons_eq {β : Type} {k : ℕ} {v : β} {rest : List (ℕ × β)}
    (f : Option β → β) : alUpdate k f ((k, v) :: rest) = (k, f (some v)) :: rest := by
  simp [alUpdate]

theorem alUpdate_cons_gt {β : Type} {k k' : ℕ} {v : β} {rest : List (ℕ × β)}
    (f : Option β → β) (h : k' < k) :
    alUpdate k f ((k', v) :: rest) = (k', v) :: alUpdate k f rest := by
  have h1 : ¬ k < k' := by omega
  have h2 : ¬ k = k' := by omega
  simp [alUpdate, h1, h2]

theorem ksorted_cons {β : Type} {e : ℕ × β} {m : List (ℕ × β)} (h : KSorted (e :: m)) :
    (∀ k' ∈ alKeys m, e.1 < k') ∧ KSorted m := by
  unfold KSorted alKeys at *
  rw [List.map_cons, List.pairwise_cons] at h
  exact ⟨fun k' hk' => by
    obtain ⟨x, hx, rfl⟩ := List.mem_map.1 hk'
    exact h.1 _ (List.mem_map_of_mem _ hx), h.2⟩

theorem mem_of_alFind_some {β : Type} {m : List (ℕ × β)} {k : ℕ} {v : β}
    (h : alFind k m = some v) : (k, v) ∈ m := by
  induction m with
  | nil => cases h
  | cons e rest ih =>
    obtain ⟨k', v'⟩ := e
    by_cases hk : k = k'
    · subst hk
      rw [alFind_cons_eq] at h
      cases h
      exact List.mem_cons_self _ _
    · rw [alFind_cons_ne hk] at h
      exact List.mem_cons_of_mem _ (ih h)

theorem alFind_eq_none_of_forall {β : Type} {m : List (ℕ × β)} {k : ℕ}
    (h : ∀ k' ∈ alKeys m, k ≠ k') : alFind k m = none := by
  induction m with
  | nil => rfl
  | cons e rest ih =>
    obtain ⟨k', v'⟩ := e
    have hne : k ≠ k' := h k' (by simp [alKeys])
    rw [alFind_cons_ne hne]
    exact ih (fun k'' hk'' => h k'' (by simp [alKeys] at hk'' ⊢; exact Or.inr hk''))

theorem perm_cons_erase_of_alFind {β : Type} {m : List (ℕ × β)} {k : ℕ} {v : β}
    (h : alFind k m = some v) : List.Perm m ((k, v) :: alErase k m) := by
  induction m with
  | nil => cases h
  | cons e rest ih =>
    obtain ⟨k', v'⟩ := e
    by_cases hk : k = k'
    · subst hk
      rw [alFind_cons_eq] at h
      cases h
      rw [alErase_cons_eq]
    · rw [alFind_cons_ne hk] at h
      rw [alErase_cons_ne hk]
      exact ((ih h).cons (k', v')).trans (List.Perm.swap _ _ _)

theorem alErase_sublist {β : Type} (k : ℕ) (m : List (ℕ × β)) :
    List.Sublist (alErase k m) m := by
  induction m with
  | nil => simp [alErase]
  | cons e rest ih =>
    obtain ⟨k', v'⟩ := e
    by_cases hk : k = k'
    · subst hk
      rw [alErase_cons_eq]
      exact List.sublist_cons_self _ _
    · rw [alErase_cons_ne hk]
      exact ih.cons₂ _

theorem ksorted_alErase {β : Type} {m : List (ℕ × β)} (k : ℕ) (h : KSorted m) :
    KSorted (alErase k m) :=
  h.sublist ((alErase_sublist k m).map Prod.fst)

theorem alFind_alErase_ne {β : Type} {m : List (ℕ × β)} {k k2 : ℕ} (hne : k2 ≠ k) :
    alFind k2 (alErase k m) = alFind k2 m := by
  induction m with
  | nil => rfl
  | cons e rest ih =>
    obtain ⟨k', v'⟩ := e
    by_cases hk : k = k'
    · subst hk
      rw [alErase_cons_eq, alFind_cons_ne hne]
    · rw [alErase_cons_ne hk]
      by_cases hk2 : k2 = k'
      · subst hk2
        rw [alFind_cons_eq, alFind_cons_eq]
      · rw [alFind_cons_ne hk2, alFind_cons_ne hk2]
        exact ih

theorem alUpdate_perm_new {β : Type} {m : List (ℕ × β)} {k : ℕ} (f : Option β → β)
    (h : alFind k m = none) : List.Perm (alUpdate k f m) ((k, f none) :: m) := by
  induction m with
  | nil => rfl
  | cons e rest ih =>
    obtain ⟨k', v'⟩ := e
    by_cases hk : k = k'
    · subst hk; rw [alFind_cons_eq] at h; cases h
    · rw [alFind_cons_ne hk] at h
      by_cases hlt : k < k'
      · rw [alUpdate_cons_lt f hlt]
      · rw [alUpdate_cons_gt f (by omega)]
        exact ((ih h).cons (k', v')).trans (List.Perm.swap _ _ _)

theorem alUpdate_perm_replace {β : Type} {m : List (ℕ × β)} {k : ℕ} {v : β}
    (f : Option β → β) (hs : KSorted m) (h : alFind k m = some v) :
    List.Perm (alUpdate k f m) ((k, f (some v)) :: alErase k m) := by
  induction m with
  | nil => cases h
  | cons e rest ih =>
    obtain ⟨k', v'⟩ := e
    obtain ⟨hlt, hrest⟩ := ksorted_cons hs
    by_cases hk : k = k'
    · subst hk
      rw [alFind_cons_eq] at h
      cases h
      rw [alUpdate_cons_eq, alErase_cons_eq]
    · rw [alFind_cons_ne hk] at h
      have hin : k ∈ alKeys rest := List.mem_map_of_mem Prod.fst (mem_of_alFind_some h)
      have hk'lt : k' < k := hlt k hin
      rw [alUpdate_cons_gt f hk'lt, alErase_cons_ne hk]
      exact ((ih hrest h).cons (k', v')).trans (List.Perm.swap _ _ _)

theorem alKeys_alUpdate_subset {β : Type} {m : List (ℕ × β)} {k : ℕ} (f : Option β → β) :
    ∀ b ∈ alKeys (alUpdate k f m), b = k ∨ b ∈ alKeys m := by
  induction m with
  | nil =>
    intro b hb
    unfold alUpdate alKeys at hb
    simp at hb
    exact Or.inl hb
  | cons e rest ih =>
    obtain ⟨k', v'⟩ := e
    intro b hb
    by_cases hklt : k < k'
    · rw [alUpdate_cons_lt f hklt] at hb
      unfold alKeys at hb ⊢
      simp only [List.map_cons, List.mem_cons] at hb ⊢
      tauto
    · by_cases hk : k = k'
      · subst hk
        rw [alUpdate_cons_eq] at hb
        unfold alKeys at hb ⊢
        simp only [List.map_cons, List.mem_cons] at hb ⊢
        tauto
      · rw [alUpdate_cons_gt f (by omega)] at hb
        unfold alKeys at hb ⊢
        simp only [List.map_cons, List.mem_cons] at hb ⊢
        rcases hb with rfl | hb
        · tauto
        · rcases ih b hb with h3 | h3 <;> tauto

theorem ksorted_alUpdate {β : Type} {m : List (ℕ × β)} {k : ℕ} (f : Option β → β)
    (hs : KSorted m) : KSorted (alUpdate k f m) := by
  induction m with
  | nil =>
    unfold KSorted alKeys alUpdate
    simp
  | cons e rest ih =>
    obtain ⟨k', v'⟩ := e
    obtain ⟨hlt, hrest⟩ := ksorted_cons hs
    by_cases hklt : k < k'
    · rw [alUpdate_cons_lt f hklt]
      unfold KSorted alKeys at *
      simp only [List.map_cons, List.pairwise_cons] at *
      refine ⟨?_, hs⟩
      intro b hb
      rcases List.mem_cons.1 hb with rfl | hb'
      · exact hklt
      · exact lt_trans hklt (hs.1 b hb')
    · by_cases hk : k = k'
      · subst hk
        rw [alUpdate_cons_eq]
        unfold KSorted alKeys at *
        simp only [List.map_cons, List.pairwise_cons] at *
        exact ⟨hs.1, hs.2⟩
      · rw [alUpdate_cons_gt f (by omega)]
        unfold KSorted alKeys at *
        simp only [List.map_cons, List.pairwise_cons] at *
        refine ⟨?_, ih hrest⟩
        intro b hb
        rcases alKeys_alUpdate_subset f b hb with rfl | hb'
        · omega
        · exact hs.1 b hb'

theorem alFind_alUpdate_self {β : Type} {m : List (ℕ × β)} {k : ℕ} (f : Option β → β)
    (hs : KSorted m) : alFind k (alUpdate k f m) = some (f (alFind k m)) := by
  induction m with
  | nil =>
    show alFind k [(k, f none)] = _
    rw [alFind_cons_eq]
    rfl
  | cons e rest ih =>
    obtain ⟨k', v'⟩ := e
    obtain ⟨hlt, hrest⟩ := ksorted_cons hs
    by_cases hklt : k < k'
    · rw [alUpdate_cons_lt f hklt, alFind_cons_eq, alFind_cons_ne (by omega : k ≠ k')]
      rw [alFind_eq_none_of_forall (fun k2 hk2 => by have := hlt k2 hk2; omega)]
    · by_cases hk : k = k'
      · subst hk
        rw [alUpdate_cons_eq, alFind_cons_eq, alFind_cons_eq]
      · rw [alUpdate_cons_gt f (by omega), alFind_cons_ne hk, alFind_cons_ne hk]
        exact ih hrest

theorem alFind_alUpdate_ne {β : Type} {m : List (ℕ × β)} {k k2 : ℕ} (f : Option β → β)
    (hne : k2 ≠ k) : alFind k2 (alUpdate k f m) = alFind k2 m := by
  induction m with
  | nil =>
    show alFind k2 [(k, f none)] = _
    rw [alFind_cons_ne hne]
  | cons e rest ih =>
    obtain ⟨k', v'⟩ := e
    by_cases hklt : k < k'
    · rw [alUpdate_cons_lt f hklt, alFind_cons_ne hne]
    · by_cases hk : k = k'
      · subst hk
        rw [alUpdate_cons_eq, alFind_cons_ne hne, alFind_cons_ne hne]
      · rw [alUpdate_cons_gt f (by omega)]
        by_cases hk2 : k2 = k'
        · subst hk2
          rw [alFind_cons_eq, alFind_cons_eq]
        · rw [alFind_cons_ne hk2, alFind_cons_ne hk2]
          exact ih

/-! Coin content of the selector maps. -/

/-- All coins held in a one-level stack map, in entry order. -/
def stacksFlat (m : List (ℕ × Stack)) : List Output := (m.map Prod.snd).flatten

/-- All coins held in have_coins. -/
def haveFlat (h : HaveCoins) : List Output := (h.map (fun e => stacksFlat e.2)).flatten

theorem stacksFlat_cons (e : ℕ × Stack) (m : List (ℕ × Stack)) :
    stacksFlat (e :: m) = e.2 ++ stacksFlat m := by
  simp [stacksFlat]

theorem haveFlat_cons (e : ℕ × List (ℕ × Stack)) (h : HaveCoins) :
    haveFlat (e :: h) = stacksFlat e.2 ++ haveFlat h := by
  simp [haveFlat]

theorem stacksFlat_perm {m m' : List (ℕ × Stack)} (h : List.Perm m m') :
    List.Perm (stacksFlat m) (stacksFlat m') :=
  (h.map Prod.snd).flatten

theorem haveFlat_perm {h h' : HaveCoins} (hp : List.Perm h h') :
    List.Perm (haveFlat h) (haveFlat h') := by
  unfold haveFlat
  exact (hp.map (fun e : ℕ × List (ℕ × Stack) => stacksFlat e.2)).flatten

theorem mem_alUpdate {β : Type} {m : List (ℕ × β)} {k : ℕ} {f : Option β → β}
    {e : ℕ × β} (hs : KSorted m) (hmem : e ∈ alUpdate k f m) :
    e = (k, f (alFind k m)) ∨ e ∈ m := by
  cases hf : alFind k m with
  | none =>
    have h2 := (alUpdate_perm_new f hf).mem_iff.1 hmem
    rcases List.mem_cons.1 h2 with h1 | h1
    · exact Or.inl h1
    · exact Or.inr h1
  | some v =>
    have h2 := (alUpdate_perm_replace f hs hf).mem_iff.1 hmem
    rcases List.mem_cons.1 h2 with h1 | h1
    · exact Or.inl h1
    · exact Or.inr (List.Sublist.mem h1 (alErase_sublist k m))

theorem alUpdate_ne_nil {β : Type} (m : List (ℕ × β)) (k : ℕ) (f : Option β → β) :
    alUpdate k f m ≠ [] := by
  cases m with
  | nil => simp [alUpdate]
  | cons e rest =>
    obtain ⟨k', v'⟩ := e
    by_cases h1 : k < k'
    · rw [alUpdate_cons_lt f h1]; simp
    · by_cases h2 : k = k'
      · subst h2; rw [alUpdate_cons_eq f]; simp
      · rw [alUpdate_cons_gt f (by omega)]; simp

/-! Well-formedness of the selector maps. -/

/-- The coin conditions on the inner map of have_coins under digit key dg:
non-empty stacks of non-dust coins located by digit and leading digit. -/
def EntriesOK (dg : ℕ) (es : List (ℕ × Stack)) : Prop :=
  ∀ a ∈ es, a.2 ≠ [] ∧ ∀ c ∈ a.2, c.dust = false ∧ digitOf c.amount = dg ∧
    leadOf c.amount = a.1 ∧ 1 ≤ c.amount

/-- Well-formedness of dust_coins: strictly increasing keys, non-empty
stacks, every coin dust-flagged, keyed by its own amount, amount nonzero. -/
def DustWF (d : DustCoins) : Prop :=
  KSorted d ∧ ∀ e ∈ d, e.2 ≠ [] ∧ ∀ c ∈ e.2, c.dust = true ∧ c.amount = e.1 ∧ 1 ≤ c.amount

/-- Well-formedness of have_coins. -/
def HaveWF (h : HaveCoins) : Prop :=
  KSorted h ∧ ∀ e ∈ h, e.2 ≠ [] ∧ KSorted e.2 ∧ EntriesOK e.1 e.2

instance {β : Type} (m : List (ℕ × β)) : Decidable (KSorted m) :=
  inferInstanceAs (Decidable (List.Pairwise (· < ·) (alKeys m)))

instance (dg : ℕ) (es : List (ℕ × Stack)) : Decidable (EntriesOK dg es) :=
  inferInstanceAs (Decidable (∀ a ∈ es, a.2 ≠ [] ∧ ∀ c ∈ a.2, c.dust = false ∧
    digitOf c.amount = dg ∧ leadOf c.amount = a.1 ∧ 1 ≤ c.amount))

instance (d : DustCoins) : Decidable (DustWF d) :=
  inferInstanceAs (Decidable (KSorted d ∧ ∀ e ∈ d, e.2 ≠ [] ∧
    ∀ c ∈ e.2, c.dust = true ∧ c.amount = e.1 ∧ 1 ≤ c.amount))

instance (h : HaveCoins) : Decidable (HaveWF h) :=
  inferInstanceAs (Decidable (KSorted h ∧ ∀ e ∈ h, e.2 ≠ [] ∧ KSorted e.2 ∧
    EntriesOK e.1 e.2))

theorem stacksFlat_push_perm {m : List (ℕ × Stack)} {k : ℕ} (c : Output) (hs : KSorted m) :
    List.Perm (stacksFlat (alUpdate k (stackPush c) m)) (c :: stacksFlat m) := by
  cases hf : alFind k m with
  | none =>
    refine (stacksFlat_perm (alUpdate_perm_new _ hf)).trans ?_
    rw [stacksFlat_cons]
    simp [stackPush]
  | some st =>
    refine (stacksFlat_perm (alUpdate_perm_replace _ hs hf)).trans ?_
    rw [stacksFlat_cons]
    have hp := stacksFlat_perm (perm_cons_erase_of_alFind hf)
    rw [stacksFlat_cons] at hp
    show List.Perm ((stackPush c (some st)) ++ stacksFlat (alErase k m)) (c :: stacksFlat m)
    simp only [stackPush, List.cons_append]
    exact (hp.symm).cons c

theorem innerPushOK {es : List (ℕ × Stack)} {c : Output} (dg : ℕ) (hks : KSorted es)
    (hok : EntriesOK dg es) (hdg : digitOf c.amount = dg) (hdust : c.dust = false)
    (hamt : 1 ≤ c.amount) :
    KSorted (alUpdate (leadOf c.amount) (stackPush c) es) ∧
      alUpdate (leadOf c.amount) (stackPush c) es ≠ [] ∧
      EntriesOK dg (alUpdate (leadOf c.amount) (stackPush c) es) := by
  refine ⟨ksorted_alUpdate _ hks, alUpdate_ne_nil _ _ _, ?_⟩
  intro a ha
  rcases mem_alUpdate hks ha with rfl | ha'
  · refine ⟨by cases alFind (leadOf c.amount) es <;> simp [stackPush], ?_⟩
    intro c' hc'
    cases hf : alFind (leadOf c.amount) es with
    | none =>
      rw [hf] at hc'
      simp only [stackPush, List.mem_singleton] at hc'
      subst hc'
      exact ⟨hdust, hdg, rfl, hamt⟩
    | some st =>
      rw [hf] at hc'
      simp only [stackPush, List.mem_cons] at hc'
      rcases hc' with rfl | hc'
      · exact ⟨hdust, hdg, rfl, hamt⟩
      · exact (hok _ (mem_of_alFind_some hf)).2 c' hc'
  · exact hok a ha'

theorem dustWF_push {d : DustCoins} {c : Output} (hd : DustWF d) (hdust : c.dust = true)
    (hamt : 1 ≤ c.amount) :
    DustWF (dustPush d c) ∧ List.Perm (stacksFlat (dustPush d c)) (c :: stacksFlat d) := by
  obtain ⟨hks, hall⟩ := hd
  refine ⟨⟨ksorted_alUpdate _ hks, ?_⟩, stacksFlat_push_perm c hks⟩
  intro e he
  rcases mem_alUpdate hks he with rfl | he'
  · refine ⟨by cases alFind c.amount d <;> simp [stackPush], ?_⟩
    intro c' hc'
    cases hf : alFind c.amount d with
    | none =>
      rw [hf] at hc'
      simp only [stackPush, List.mem_singleton] at hc'
      subst hc'
      exact ⟨hdust, rfl, hamt⟩
    | some st =>
      rw [hf] at hc'
      simp only [stackPush, List.mem_cons] at hc'
      rcases hc' with rfl | hc'
      · exact ⟨hdust, rfl, hamt⟩
      · exact (hall _ (mem_of_alFind_some hf)).2 c' hc'
  · exact hall e he'

theorem haveWF_push {h : HaveCoins} {c : Output} (hh : HaveWF h) (hdust : c.dust = false)
    (hamt : 1 ≤ c.amount) :
    HaveWF (havePush h c) ∧ List.Perm (haveFlat (havePush h c)) (c :: haveFlat h) := by
  obtain ⟨hks, hall⟩ := hh
  unfold havePush
  constructor
  · refine ⟨ksorted_alUpdate _ hks, ?_⟩
    intro e he
    rcases mem_alUpdate hks he with rfl | he'
    · cases hf : alFind (digitOf c.amount) h with
      | none =>
        simp only [Option.getD]
        have := @innerPushOK ([] : List (ℕ × Stack)) c (digitOf c.amount)
          (by unfold KSorted alKeys; simp) (by intro a ha; cases ha) rfl hdust hamt
        exact ⟨this.2.1, this.1, this.2.2⟩
      | some es =>
        simp only [Option.getD]
        obtain ⟨hne, hkes, hes⟩ := hall _ (mem_of_alFind_some hf)
        have := innerPushOK (digitOf c.amount) hkes hes rfl hdust hamt
        exact ⟨this.2.1, this.1, this.2.2⟩
    · exact hall e he'
  · cases hf : alFind (digitOf c.amount) h with
    | none =>
      refine (haveFlat_perm (alUpdate_perm_new _ hf)).trans ?_
      rw [haveFlat_cons]
      simp only [Option.getD]
      have h1 : stacksFlat (alUpdate (leadOf c.amount) (stackPush c)
          ([] : List (ℕ × Stack))) = [c] := by
        simp [alUpdate, stackPush, stacksFlat]
      rw [h1]
      exact List.Perm.refl _
    | some es =>
      refine (haveFlat_perm (alUpdate_perm_replace _ hks hf)).trans ?_
      rw [haveFlat_cons]
      simp only [Option.getD]
      obtain ⟨hne, hkes, hes⟩ := hall _ (mem_of_alFind_some hf)
      have hip := @stacksFlat_push_perm es (leadOf c.amount) c hkes
      have herase := haveFlat_perm (perm_cons_erase_of_alFind hf)
      rw [haveFlat_cons] at herase
      refine (hip.append_right _).trans ?_
      show List.Perm (c :: (stacksFlat es ++ haveFlat (alErase (digitOf c.amount) h)))
        (c :: haveFlat h)
      exact (herase.symm).cons c

theorem stacksPopAt_some_spec {m : List (ℕ × Stack)} {k : ℕ} {c : Output}
    {m' : List (ℕ × Stack)} (h : stacksPopAt m k = some (c, m')) :
    ∃ st, alFind k m = some (c :: st) ∧
      m' = (if st.isEmpty then alErase k m else alUpdate k (fun _ => st) m) := by
  unfold stacksPopAt at h
  cases hf : alFind k m with
  | none => rw [hf] at h; cases h
  | some st0 =>
    rw [hf] at h
    cases st0 with
    | nil => cases h
    | cons c0 st =>
      simp only [Option.some.injEq, Prod.mk.injEq] at h
      obtain ⟨rfl, h2⟩ := h
      exact ⟨st, rfl, h2.symm⟩

theorem stacksPopAt_eq {m : List (ℕ × Stack)} {k : ℕ} {c : Output} {st : Stack}
    (hf : alFind k m = some (c :: st)) :
    stacksPopAt m k
      = some (c, if st.isEmpty then alErase k m else alUpdate k (fun _ => st) m) := by
  unfold stacksPopAt
  rw [hf]

theorem havePopAt_some_spec {h : HaveCoins} {digit lead : ℕ} {c : Output} {h' : HaveCoins}
    (hp : havePopAt h digit lead = some (c, h')) :
    ∃ es es', alFind digit h = some es ∧ stacksPopAt es lead = some (c, es') ∧
      h' = (if es'.isEmpty then alErase digit h else alUpdate digit (fun _ => es') h) := by
  unfold havePopAt at hp
  cases hf : alFind digit h with
  | none => rw [hf] at hp; cases hp
  | some es =>
    rw [hf] at hp
    dsimp only at hp
    cases hsp : stacksPopAt es lead with
    | none => rw [hsp] at hp; cases hp
    | some p =>
      obtain ⟨c0, es'⟩ := p
      rw [hsp] at hp
      simp only [Option.some.injEq, Prod.mk.injEq] at hp
      obtain ⟨rfl, h2⟩ := hp
      exact ⟨es, es', rfl, hsp, h2.symm⟩

theorem havePopAt_eq {h : HaveCoins} {digit lead : ℕ} {es es' : List (ℕ × Stack)}
    {c : Output} (hf : alFind digit h = some es) (hsp : stacksPopAt es lead = some (c, es')) :
    havePopAt h digit lead
      = some (c, if es'.isEmpty then alErase digit h else alUpdate digit (fun _ => es') h) := by
  unfold havePopAt
  rw [hf]
  dsimp only
  rw [hsp]

theorem stacksPopAt_generic {m : List (ℕ × Stack)} {k : ℕ} {c : Output}
    {m' : List (ℕ × Stack)} (hks : KSorted m) (h : stacksPopAt m k = some (c, m')) :
    KSorted m' ∧ List.Perm (stacksFlat m) (c :: stacksFlat m') ∧
      ∃ st, alFind k m = some (c :: st) ∧
        ∀ e' ∈ m', e' ∈ m ∨ (e' = (k, st) ∧ st ≠ []) := by
  obtain ⟨st, hf, hm'⟩ := stacksPopAt_some_spec h
  have hperm := stacksFlat_perm (perm_cons_erase_of_alFind hf)
  rw [stacksFlat_cons] at hperm
  by_cases hst : st.isEmpty
  · rw [if_pos hst] at hm'
    subst hm'
    have hst' : st = [] := List.isEmpty_iff.1 hst
    subst hst'
    refine ⟨ksorted_alErase k hks, hperm, [], hf, ?_⟩
    intro e' he'
    exact Or.inl (List.Sublist.mem he' (alErase_sublist k m))
  · rw [if_neg hst] at hm'
    subst hm'
    have hstne : st ≠ [] := by simpa [List.isEmpty_iff] using hst
    have hupd := stacksFlat_perm (alUpdate_perm_replace (fun _ => st) hks hf)
    rw [stacksFlat_cons] at hupd
    refine ⟨ksorted_alUpdate _ hks, ?_, st, hf, ?_⟩
    · refine hperm.trans ?_
      show List.Perm (c :: (st ++ stacksFlat (alErase k m))) _
      exact (hupd.symm).cons c
    · intro e' he'
      rcases mem_alUpdate hks he' with rfl | he2
      · exact Or.inr ⟨rfl, hstne⟩
      · exact Or.inl he2

theorem dustWF_popAt {d : DustCoins} {k : ℕ} {c : Output} {d' : DustCoins}
    (hd : DustWF d) (h : stacksPopAt d k = some (c, d')) :
    DustWF d' ∧ List.Perm (stacksFlat d) (c :: stacksFlat d') ∧
      c.dust = true ∧ c.amount = k ∧ 1 ≤ c.amount := by
  obtain ⟨hks, hall⟩ := hd
  obtain ⟨hks', hperm, st, hf, hmap⟩ := stacksPopAt_generic hks h
  have hcmem := hall _ (mem_of_alFind_some hf)
  have hc := hcmem.2 c (by simp)
  refine ⟨⟨hks', ?_⟩, hperm, hc⟩
  intro e' he'
  rcases hmap e' he' with he2 | ⟨rfl, hne⟩
  · exact hall e' he2
  · exact ⟨hne, fun c' hc' => hcmem.2 c' (List.mem_cons_of_mem _ hc')⟩

theorem haveWF_popAt {h : HaveCoins} {digit lead : ℕ} {c : Output} {h' : HaveCoins}
    (hh : HaveWF h) (hp : havePopAt h digit lead = some (c, h')) :
    HaveWF h' ∧ List.Perm (haveFlat h) (c :: haveFlat h') ∧
      c.dust = false ∧ digitOf c.amount = digit ∧ leadOf c.amount = lead ∧
      1 ≤ c.amount := by
  obtain ⟨hks, hall⟩ := hh
  obtain ⟨es, es', hf, hsp, hm'⟩ := havePopAt_some_spec hp
  obtain ⟨hesne, hkes, hesok⟩ := hall _ (mem_of_alFind_some hf)
  obtain ⟨hkes', hpermes, st, hfes, hmapes⟩ := stacksPopAt_generic hkes hsp
  have hstackmem := hesok _ (mem_of_alFind_some hfes)
  have hc := hstackmem.2 c (by simp)
  have hESOK : EntriesOK digit es' := by
    intro a ha
    rcases hmapes a ha with ha2 | ⟨rfl, hne⟩
    · exact hesok a ha2
    · exact ⟨hne, fun c' hc' => hstackmem.2 c' (List.mem_cons_of_mem _ hc')⟩
  have hperm0 := haveFlat_perm (perm_cons_erase_of_alFind hf)
  rw [haveFlat_cons] at hperm0
  have hstep : List.Perm (haveFlat h)
      (c :: (stacksFlat es' ++ haveFlat (alErase digit h))) := by
    refine hperm0.trans ?_
    show List.Perm (stacksFlat es ++ haveFlat (alErase digit h)) _
    refine (hpermes.append_right _).trans ?_
    exact List.Perm.refl _
  by_cases hes' : es'.isEmpty
  · rw [if_pos hes'] at hm'
    subst hm'
    have hes'nil : es' = [] := List.isEmpty_iff.1 hes'
    refine ⟨⟨ksorted_alErase digit hks, ?_⟩, ?_, hc⟩
    · intro e' he'
      exact hall e' (List.Sublist.mem he' (alErase_sublist digit h))
    · refine hstep.trans ?_
      rw [hes'nil]
      exact List.Perm.refl _
  · rw [if_neg hes'] at hm'
    subst hm'
    have hupd := haveFlat_perm
      (alUpdate_perm_replace (fun _ => es') hks hf)
    rw [haveFlat_cons] at hupd
    refine ⟨⟨ksorted_alUpdate _ hks, ?_⟩, ?_, hc⟩
    · intro e' he'
      rcases mem_alUpdate hks he' with rfl | he2
      · exact ⟨by simpa [List.isEmpty_iff] using hes', hkes', hESOK⟩
      · exact hall e' he2
    · exact hstep.trans ((hupd.symm).cons c)

theorem dustCount_eq (d : DustCoins) : dustCount d = (stacksFlat d).length := by
  unfold dustCount stacksFlat
  rw [List.length_flatten, List.map_map]
  rfl

theorem haveCount_eq (h : HaveCoins) : haveCount h = (haveFlat h).length := by
  unfold haveCount haveFlat
  rw [List.length_flatten, List.map_map]
  congr 1
  apply List.map_congr_left
  intro e _
  show (e.2.map (fun a => a.2.length)).sum = (stacksFlat e.2).length
  unfold stacksFlat
  rw [List.length_flatten, List.map_map]
  rfl

/-! The am formula of optimize_amounts. -/

/-- The am formula exactly as the claim words it: 10 minus ((target +
digit_amount - 1 - used_total) / digit_amount) mod 10, read over the
integers (the subtraction may go negative; division is floor division,
which for a positive divisor is the Euclidean division of Int). -/
def amClaim (total used d : ℕ) : ℤ :=
  10 - ((total : ℤ) + d - 1 - used) / d % 10

theorem amCode_reduce (total used d : ℕ) (h1 : used < W64)
    (h2 : used ≤ fake_large + total + d - 1)
    (h3 : fake_large + total + d - 1 - used < W64) :
    amCode total used d = 10 - ((fake_large + total + d - 1 - used) / d) % 10 := by
  unfold amCode
  rw [Nat.mod_eq_of_lt h1]
  have e2 : fake_large + total + d - 1 + (W64 - used)
      = (fake_large + total + d - 1 - used) + W64 := by
    have : 1 ≤ fake_large + total + d := by unfold fake_large; omega
    omega
  rw [e2, Nat.add_mod_right, Nat.mod_eq_of_lt h3]

theorem amCode_eq_claim (total used digit : ℕ) (hdig : digit ≤ 17) (h1 : used < W64)
    (h2 : used ≤ fake_large + total + 10 ^ digit - 1)
    (h3 : fake_large + total + 10 ^ digit - 1 - used < W64) :
    (amCode total used (10 ^ digit) : ℤ) = amClaim total used (10 ^ digit) := by
  have hd0 : (0:ℕ) < 10 ^ digit := pow_pos (by norm_num) digit
  have hdz : ((10 ^ digit : ℕ) : ℤ) ≠ 0 := by exact_mod_cast hd0.ne'
  rw [amCode_reduce total used (10 ^ digit) h1 h2 h3]
  have hfl : fake_large = 1000000000000000000 := rfl
  have hNval : ((fake_large + total + 10 ^ digit - 1 - used : ℕ) : ℤ)
      = (fake_large:ℤ) + total + 10 ^ digit - 1 - used := by
    have hp : ((10 ^ digit : ℕ) : ℤ) = (10:ℤ) ^ digit := by push_cast; rfl
    omega
  have hq : (((fake_large + total + 10 ^ digit - 1 - used) / 10 ^ digit : ℕ) : ℤ)
      = ((fake_large + total + 10 ^ digit - 1 - used : ℕ) : ℤ) / ((10 ^ digit : ℕ) : ℤ) :=
    Int.ofNat_ediv _ _
  have hfake : (fake_large : ℤ) = 10 ^ (18 - digit) * ((10 ^ digit : ℕ) : ℤ) := by
    rw [Nat.cast_pow]
    push_cast
    rw [← pow_add]
    have hexp : 18 - digit + digit = 18 := by omega
    rw [hexp]
    norm_num [fake_large]
  have hsplit : ((fake_large + total + 10 ^ digit - 1 - used : ℕ) : ℤ)
        / ((10 ^ digit : ℕ) : ℤ)
      = ((total:ℤ) + ((10 ^ digit : ℕ) : ℤ) - 1 - used) / ((10 ^ digit : ℕ) : ℤ)
        + 10 ^ (18 - digit) := by
    have hNd : ((fake_large + total + 10 ^ digit - 1 - used : ℕ) : ℤ)
        = ((total:ℤ) + ((10 ^ digit : ℕ) : ℤ) - 1 - used)
          + 10 ^ (18 - digit) * ((10 ^ digit : ℕ) : ℤ) := by
      rw [hNval, hfake]
      push_cast
      ring
    rw [hNd, Int.add_mul_ediv_right _ _ hdz]
  have h17 : (10:ℤ) ^ (18 - digit) = 10 * 10 ^ (17 - digit) := by
    rw [← pow_succ']
    congr 1
    omega
  have hcast : ((((fake_large + total + 10 ^ digit - 1 - used) / 10 ^ digit) % 10 : ℕ) : ℤ)
      = ((total:ℤ) + ((10 ^ digit : ℕ) : ℤ) - 1 - used) / ((10 ^ digit : ℕ) : ℤ) % 10 := by
    rw [Int.ofNat_emod, hq, hsplit, h17]
    have h10 : ((10 : ℕ) : ℤ) = (10 : ℤ) := by norm_num
    rw [h10, Int.add_mul_emod_self_left]
  have hlt : ((fake_large + total + 10 ^ digit - 1 - used) / 10 ^ digit) % 10 < 10 :=
    Nat.mod_lt _ (by norm_num)
  unfold amClaim
  have hpc : ((10 ^ digit : ℕ) : ℤ) = (10:ℤ) ^ digit := by push_cast; rfl
  rw [hpc] at hcast
  omega

/-! The best-weight fold used by the pair search and the stack scan. -/

theorem foldl_best_spec {α β : Type} (F : (ℕ × β) → α → (ℕ × β))
    (qual : α → Prop) (w : α → ℕ) (tag : α → β)
    (hF : ∀ acc p, ((qual p ∧ acc.1 < w p) → F acc p = (w p, tag p)) ∧
      (¬ (qual p ∧ acc.1 < w p) → F acc p = acc)) (L : List α) :
    ∀ init : ℕ × β,
      init.1 ≤ (L.foldl F init).1 ∧
      (∀ p ∈ L, qual p → w p ≤ (L.foldl F init).1) ∧
      ((L.foldl F init) = init ∨
        ∃ p ∈ L, qual p ∧ (L.foldl F init) = (w p, tag p) ∧ init.1 < w p) := by
  induction L with
  | nil => intro init; exact ⟨le_refl _, by simp, Or.inl rfl⟩
  | cons p0 rest ih =>
    intro init
    simp only [List.foldl_cons]
    by_cases hc : qual p0 ∧ init.1 < w p0
    · rw [(hF init p0).1 hc]
      obtain ⟨hq0, hlt0⟩ := hc
      obtain ⟨ihle, ihall, ihrep⟩ := ih (w p0, tag p0)
      refine ⟨le_trans (le_of_lt hlt0) ihle, ?_, ?_⟩
      · intro p hp hqp
        rcases List.mem_cons.1 hp with rfl | hp'
        · exact ihle
        · exact ihall p hp' hqp
      · rcases ihrep with heq | ⟨p, hp, hqp, heq, hlt⟩
        · exact Or.inr ⟨p0, List.mem_cons_self _ _, hq0, heq, hlt0⟩
        · exact Or.inr ⟨p, List.mem_cons_of_mem _ hp, hqp, heq, lt_trans hlt0 hlt⟩
    · rw [(hF init p0).2 hc]
      obtain ⟨ihle, ihall, ihrep⟩ := ih init
      refine ⟨ihle, ?_, ?_⟩
      · intro p hp hqp
        rcases List.mem_cons.1 hp with rfl | hp'
        · have hwle : w p ≤ init.1 := by
            by_contra hgt
            exact hc ⟨hqp, by omega⟩
          exact le_trans hwle ihle
        · exact ihall p hp' hqp
      · rcases ihrep with heq | ⟨p, hp, hqp, heq, hlt⟩
        · exact Or.inl heq
        · exact Or.inr ⟨p, List.mem_cons_of_mem _ hp, hqp, heq, hlt⟩

theorem foldl_flatMap {α β γ : Type} (g : α → List β) (f : γ → β → γ) (L : List α) :
    ∀ init : γ, (L.flatMap g).foldl f init
      = L.foldl (fun acc a => (g a).foldl f acc) init := by
  induction L with
  | nil => intro init; rfl
  | cons a rest ih =>
    intro init
    rw [List.flatMap_cons, List.foldl_append, List.foldl_cons]
    exact ih _

/-- All ordered pairs of entries of the inner map, in the double-loop
iteration order of optimize_amounts. -/
def pairList (es : List (ℕ × Stack)) : List ((ℕ × Stack) × (ℕ × Stack)) :=
  es.flatMap (fun a => es.map (fun b => (a, b)))

theorem mem_pairList {es : List (ℕ × Stack)} {p : (ℕ × Stack) × (ℕ × Stack)} :
    p ∈ pairList es ↔ p.1 ∈ es ∧ p.2 ∈ es := by
  unfold pairList
  rw [List.mem_flatMap]
  constructor
  · rintro ⟨a, ha, hp⟩
    rw [List.mem_map] at hp
    obtain ⟨b, hb, rfl⟩ := hp
    exact ⟨ha, hb⟩
  · rintro ⟨h1, h2⟩
    exact ⟨p.1, h1, List.mem_map.2 ⟨p.2, h2, by rfl⟩⟩

theorem bestPair_eq_fold (es : List (ℕ × Stack)) (am : ℕ) :
    bestPair es am = (pairList es).foldl (fun acc p =>
      if (p.1.1 + p.2.1 + am) % 10 = 0 ∧
          (TWO_THRESHOLD ≤ p.1.2.length ∨ TWO_THRESHOLD ≤ p.2.2.length) ∧
          acc.1 < p.1.2.length + p.2.2.length
      then (p.1.2.length + p.2.2.length, p.1.1, p.2.1) else acc) (0, 0, 0) := by
  unfold bestPair pairList
  rw [foldl_flatMap]
  congr 1
  funext acc a
  rw [List.foldl_map]

/-- All stacks of have_coins with their digit and leading keys, in the
double-loop iteration order of the compaction scan. -/
def stackTriples (h : HaveCoins) : List (ℕ × ℕ × Stack) :=
  h.flatMap (fun e => e.2.map (fun a => (e.1, a.1, a.2)))

theorem mem_stackTriples {h : HaveCoins} {p : ℕ × ℕ × Stack} :
    p ∈ stackTriples h ↔ ∃ es, (p.1, es) ∈ h ∧ (p.2.1, p.2.2) ∈ es := by
  unfold stackTriples
  rw [List.mem_flatMap]
  constructor
  · rintro ⟨e, he, hp⟩
    rw [List.mem_map] at hp
    obtain ⟨a, ha, rfl⟩ := hp
    exact ⟨e.2, he, ha⟩
  · rintro ⟨es, he, ha⟩
    refine ⟨(p.1, es), he, List.mem_map.2 ⟨(p.2.1, p.2.2), ha, by rfl⟩⟩

theorem bestStackScan_eq_fold (h : HaveCoins) :
    bestStackScan h = (stackTriples h).foldl (fun acc p =>
      if acc.1 < p.2.2.length then (p.2.2.length, some (p.1, p.2.1)) else acc)
      (STACK_OPTIMIZATION_THRESHOLD, none) := by
  unfold bestStackScan stackTriples
  rw [foldl_flatMap]
  congr 1
  funext acc e
  rw [List.foldl_map]

theorem alFind_of_mem_ksorted {β : Type} {m : List (ℕ × β)} {k : ℕ} {v : β}
    (hs : KSorted m) (hm : (k, v) ∈ m) : alFind k m = some v := by
  induction m with
  | nil => cases hm
  | cons e rest ih =>
    obtain ⟨k', v'⟩ := e
    obtain ⟨hlt, hrest⟩ := ksorted_cons hs
    rcases List.mem_cons.1 hm with heq | hm'
    · cases heq
      exact alFind_cons_eq
    · by_cases hk : k = k'
      · subst hk
        exfalso
        have : k < k := hlt k (List.mem_map_of_mem Prod.fst hm')
        omega
      · rw [alFind_cons_ne hk]
        exact ih hrest hm'

theorem mem_alErase_of_ne {β : Type} {m : List (ℕ × β)} {k k2 : ℕ} {v : β}
    (hm : (k2, v) ∈ m) (hne : k2 ≠ k) : (k2, v) ∈ alErase k m := by
  induction m with
  | nil => cases hm
  | cons e rest ih =>
    obtain ⟨k', v'⟩ := e
    by_cases hk : k = k'
    · subst hk
      rw [alErase_cons_eq]
      rcases List.mem_cons.1 hm with heq | hm'
      · cases heq; exact absurd rfl hne
      · exact hm'
    · rw [alErase_cons_ne hk]
      rcases List.mem_cons.1 hm with heq | hm'
      · cases heq; exact List.mem_cons_self _ _
      · exact List.mem_cons_of_mem _ (ih hm')

theorem bestPair_spec {es : List (ℕ × Stack)} (am : ℕ) {a b : ℕ} {sa sb : Stack}
    (ha : (a, sa) ∈ es) (hb : (b, sb) ∈ es) (hq : (a + b + am) % 10 = 0)
    (hth : TWO_THRESHOLD ≤ sa.length ∨ TWO_THRESHOLD ≤ sb.length)
    (hpos : 0 < sa.length + sb.length) :
    ∃ a0 b0 sa0 sb0,
      bestPair es am = (sa0.length + sb0.length, a0, b0) ∧
      (a0, sa0) ∈ es ∧ (b0, sb0) ∈ es ∧ (a0 + b0 + am) % 10 = 0 ∧
      (TWO_THRESHOLD ≤ sa0.length ∨ TWO_THRESHOLD ≤ sb0.length) ∧
      0 < sa0.length + sb0.length ∧
      ∀ x y sx sy, (x, sx) ∈ es → (y, sy) ∈ es → (x + y + am) % 10 = 0 →
        (TWO_THRESHOLD ≤ sx.length ∨ TWO_THRESHOLD ≤ sy.length) →
        sx.length + sy.length ≤ sa0.length + sb0.length := by
  have hspec := foldl_best_spec
    (fun acc p => if (p.1.1 + p.2.1 + am) % 10 = 0 ∧
        (TWO_THRESHOLD ≤ p.1.2.length ∨ TWO_THRESHOLD ≤ p.2.2.length) ∧
        acc.1 < p.1.2.length + p.2.2.length
      then (p.1.2.length + p.2.2.length, p.1.1, p.2.1) else acc)
    (fun p => (p.1.1 + p.2.1 + am) % 10 = 0 ∧
        (TWO_THRESHOLD ≤ p.1.2.length ∨ TWO_THRESHOLD ≤ p.2.2.length))
    (fun p => p.1.2.length + p.2.2.length)
    (fun p => (p.1.1, p.2.1))
    (by
      intro acc p
      dsimp only
      constructor
      · rintro ⟨⟨h1, h2⟩, h3⟩
        rw [if_pos ⟨h1, h2, h3⟩]
      · intro hn
        rw [if_neg (fun hh => hn ⟨⟨hh.1, hh.2.1⟩, hh.2.2⟩)])
    (pairList es) (0, 0, 0)
  obtain ⟨hle, hall, hrep⟩ := hspec
  rw [← bestPair_eq_fold] at hle hall hrep
  have hmem : ((a, sa), (b, sb)) ∈ pairList es := mem_pairList.2 ⟨ha, hb⟩
  have hw := hall _ hmem ⟨hq, hth⟩
  rcases hrep with heq | ⟨p, hp, hqp, heq, hlt⟩
  · exfalso
    rw [heq] at hw
    simp only at hw
    omega
  · obtain ⟨hp1, hp2⟩ := mem_pairList.1 hp
    refine ⟨p.1.1, p.2.1, p.1.2, p.2.2, heq, hp1, hp2, hqp.1, hqp.2, ?_, ?_⟩
    · rw [heq] at hw
      simp only at hw
      omega
    · intro x y sx sy hx hy hq2 hth2
      have hthis := hall ((x, sx), (y, sy)) (mem_pairList.2 ⟨hx, hy⟩) ⟨hq2, hth2⟩
      rw [heq] at hthis
      exact hthis

theorem bestStackScan_some {h : HaveCoins} {w : ℕ} {dg ld : ℕ}
    (hscan : bestStackScan h = (w, some (dg, ld))) :
    ∃ es st, (dg, es) ∈ h ∧ (ld, st) ∈ es ∧ st.length = w ∧
      STACK_OPTIMIZATION_THRESHOLD < w := by
  have hspec := foldl_best_spec
    (fun acc p =>
      if acc.1 < p.2.2.length then (p.2.2.length, some (p.1, p.2.1)) else acc)
    (fun _ => True) (fun p => p.2.2.length)
    (fun p => some (p.1, p.2.1))
    (by
      intro acc p
      dsimp only
      constructor
      · rintro ⟨-, h3⟩; rw [if_pos h3]
      · intro hn; rw [if_neg (fun hh => hn ⟨trivial, hh⟩)])
    (stackTriples h) (STACK_OPTIMIZATION_THRESHOLD, none)
  obtain ⟨hle, hall, hrep⟩ := hspec
  rw [← bestStackScan_eq_fold] at hrep
  rcases hrep with heq | ⟨p, hp, -, heq, hlt⟩
  · rw [hscan] at heq
    exact absurd heq (by simp)
  · rw [hscan] at heq
    simp only [Prod.mk.injEq, Option.some.injEq] at heq
    obtain ⟨hw, hdg, hld⟩ := heq
    obtain ⟨es, hes, ha⟩ := mem_stackTriples.1 hp
    subst hdg
    subst hld
    refine ⟨es, p.2.2, hes, ha, hw.symm, ?_⟩
    simp only at hlt
    omega

theorem optDigitStep_pair {total digit : ℕ} {h : HaveCoins} {s : SelState}
    {es : List (ℕ × Stack)} (hh : HaveWF h) (hf : alFind digit h = some es)
    (hex : ∃ a2 ∈ es, ∃ b2 ∈ es,
      ((a2 : ℕ × Stack).1 + (b2 : ℕ × Stack).1
        + amCode total s.used_total (10 ^ digit)) % 10 = 0 ∧
      (TWO_THRESHOLD ≤ a2.2.length ∨ TWO_THRESHOLD ≤ b2.2.length)) :
    ∃ a0 b0 sa0 sb0 c1 h1 c2 h2,
      bestPair es (amCode total s.used_total (10 ^ digit))
        = (sa0.length + sb0.length, a0, b0) ∧
      alFind a0 es = some sa0 ∧ alFind b0 es = some sb0 ∧
      (a0 + b0 + amCode total s.used_total (10 ^ digit)) % 10 = 0 ∧
      (TWO_THRESHOLD ≤ sa0.length ∨ TWO_THRESHOLD ≤ sb0.length) ∧
      (∀ x y sx sy, (x, sx) ∈ es → (y, sy) ∈ es →
        (x + y + amCode total s.used_total (10 ^ digit)) % 10 = 0 →
        (TWO_THRESHOLD ≤ sx.length ∨ TWO_THRESHOLD ≤ sy.length) →
        sx.length + sy.length ≤ sa0.length + sb0.length) ∧
      havePopAt h digit a0 = some (c1, h1) ∧
      havePopAt h1 digit b0 = some (c2, h2) ∧
      optDigitStep total digit h s = (h2, pickCoin (pickCoin s c1) c2) := by
  obtain ⟨hks, hall⟩ := hh
  obtain ⟨hesne, hkes, hesok⟩ := hall _ (mem_of_alFind_some hf)
  obtain ⟨a2, ha2, b2, hb2, hq2, hth2⟩ := hex
  have hpos : 0 < a2.2.length + b2.2.length := by
    have hne := (hesok a2 ha2).1
    cases hstack : a2.2 with
    | nil => exact absurd hstack hne
    | cons x xs =>
      simp only [List.length_cons]
      omega
  obtain ⟨a0, b0, sa0, sb0, hbp, ha0m, hb0m, hq0, hth0, hpos0, hmax⟩ :=
    @bestPair_spec es (amCode total s.used_total (10 ^ digit))
      a2.1 b2.1 a2.2 b2.2 ha2 hb2 hq2 hth2 hpos
  have hfa0 : alFind a0 es = some sa0 := alFind_of_mem_ksorted hkes ha0m
  have hfb0 : alFind b0 es = some sb0 := alFind_of_mem_ksorted hkes hb0m
  obtain ⟨hsa0ne, hsa0coins⟩ := hesok _ ha0m
  obtain ⟨hsb0ne, hsb0coins⟩ := hesok _ hb0m
  obtain ⟨c1, st1, hc1⟩ : ∃ c st, sa0 = c :: st := by
    cases sa0 with
    | nil => exact absurd rfl hsa0ne
    | cons x xs => exact ⟨x, xs, rfl⟩
  -- the first pop
  have hpop1es : stacksPopAt es a0
      = some (c1, if st1.isEmpty then alErase a0 es
          else alUpdate a0 (fun _ => st1) es) :=
    stacksPopAt_eq (hc1 ▸ hfa0)
  -- in the same-stack case the tail stays non-empty
  have hsame : b0 = a0 → st1 ≠ [] := by
    intro hba hnil
    have hsbeq : sb0 = sa0 := by
      rw [hba, hfa0, Option.some.injEq] at hfb0
      exact hfb0.symm
    have hlen10 : TWO_THRESHOLD ≤ sa0.length := by
      rcases hth0 with h1 | h1
      · exact h1
      · rw [hsbeq] at h1; exact h1
    rw [hc1, hnil] at hlen10
    unfold TWO_THRESHOLD at hlen10
    simp at hlen10
  -- the inner map after the first pop
  have hkey : ∃ es1, stacksPopAt es a0 = some (c1, es1) ∧ es1 ≠ [] ∧
      ∃ sb1, alFind b0 es1 = some sb1 ∧ sb1 ≠ [] := by
    by_cases hst1 : st1.isEmpty
    · have hst1nil : st1 = [] := List.isEmpty_iff.1 hst1
      have hba : b0 ≠ a0 := by
        intro hba
        exact hsame hba hst1nil
      refine ⟨alErase a0 es, by rw [hpop1es, if_pos hst1], ?_, sb0, ?_, hsb0ne⟩
      · exact List.ne_nil_of_mem (mem_alErase_of_ne hb0m hba)
      · rw [alFind_alErase_ne hba]
        exact hfb0
    · refine ⟨alUpdate a0 (fun _ => st1) es, by rw [hpop1es, if_neg hst1],
        alUpdate_ne_nil _ _ _, ?_⟩
      by_cases hba : b0 = a0
      · subst hba
        refine ⟨st1, alFind_alUpdate_self _ hkes, ?_⟩
        simpa [List.isEmpty_iff] using hst1
      · exact ⟨sb0, by rw [alFind_alUpdate_ne _ hba]; exact hfb0, hsb0ne⟩
  obtain ⟨es1, hpop1es', hes1ne, sb1, hfb1, hsb1ne⟩ := hkey
  have hes1empty : es1.isEmpty = false := by
    cases hu : es1 with
    | nil => exact absurd hu hes1ne
    | cons _ _ => rfl
  have hpop1 : havePopAt h digit a0 = some (c1, alUpdate digit (fun _ => es1) h) := by
    rw [havePopAt_eq hf hpop1es', hes1empty]
    simp
  have hfind1 : alFind digit (alUpdate digit (fun _ => es1) h) = some es1 :=
    alFind_alUpdate_self _ hks
  obtain ⟨c2, st2, hc2⟩ : ∃ c st, sb1 = c :: st := by
    cases sb1 with
    | nil => exact absurd rfl hsb1ne
    | cons x xs => exact ⟨x, xs, rfl⟩
  have hpop2es : stacksPopAt es1 b0
      = some (c2, if st2.isEmpty then alErase b0 es1
          else alUpdate b0 (fun _ => st2) es1) :=
    stacksPopAt_eq (hc2 ▸ hfb1)
  have hpop2 : havePopAt (alUpdate digit (fun _ => es1) h) digit b0
      = some (c2, if (if st2.isEmpty then alErase b0 es1
            else alUpdate b0 (fun _ => st2) es1).isEmpty
          then alErase digit (alUpdate digit (fun _ => es1) h)
          else alUpdate digit
            (fun _ => if st2.isEmpty then alErase b0 es1
              else alUpdate b0 (fun _ => st2) es1)
            (alUpdate digit (fun _ => es1) h)) :=
    havePopAt_eq hfind1 hpop2es
  refine ⟨a0, b0, sa0, sb0, c1, alUpdate digit (fun _ => es1) h, c2, _,
    hbp, hfa0, hfb0, hq0, hth0, hmax, hpop1, hpop2, ?_⟩
  unfold optDigitStep
  rw [hf]
  dsimp only
  rw [hbp]
  dsimp only
  rw [if_pos (by omega : ¬ sa0.length + sb0.length = 0)]
  rw [hpop1]
  dsimp only
  rw [hpop2]

theorem popTen_spec {h : HaveCoins} {w dg ld : ℕ} {s : SelState} (hh : HaveWF h)
    (hscan : bestStackScan h = (w, some (dg, ld))) :
    ∃ es st, alFind dg h = some es ∧ alFind ld es = some st ∧
      STACK_OPTIMIZATION_THRESHOLD < st.length ∧
      popTenFrom h dg ld s
        = (alUpdate dg (fun _ => alUpdate ld (fun _ => st.drop 10) es) h,
          (st.take 10).foldl pickCoin s) ∧
      (st.take 10).length = 10 ∧ st.drop 10 ≠ [] := by
  obtain ⟨es, st, hmem, hmem2, hwlen, hgt⟩ := bestStackScan_some hscan
  obtain ⟨hks, hall⟩ := hh
  have hf : alFind dg h = some es := alFind_of_mem_ksorted hks hmem
  have hkes := (hall _ hmem).2.1
  have hf2 : alFind ld es = some st := alFind_of_mem_ksorted hkes hmem2
  have hlen : STACK_OPTIMIZATION_THRESHOLD < st.length := by rw [hwlen]; exact hgt
  refine ⟨es, st, hf, hf2, hlen, ?_, ?_, ?_⟩
  · unfold popTenFrom
    rw [hf]
    dsimp only
    rw [hf2]
  · rw [List.length_take]
    unfold STACK_OPTIMIZATION_THRESHOLD at hlen
    omega
  · intro hnil
    have hld := congrArg List.length hnil
    rw [List.length_drop] at hld
    simp only [List.length_nil] at hld
    unfold STACK_OPTIMIZATION_THRESHOLD at hlen
    omega

/-- C7 counterexample: at digit 18 the fake_large offset no longer leaves
the value unchanged.  A coin of amount 10 to the 18th (representable in
uint64) puts digit 18 in range; there the code computes am = 8 while the
claimed formula computes am = 9. -/
theorem am_formula_digit18 :
    digitOf (10 ^ 18) = 18 ∧ amCode 1 0 (10 ^ 18) = 8 ∧ amClaim 1 0 (10 ^ 18) = 9 := by
  refine ⟨by decide, by decide, by decide⟩

/-- C7 (amended): in optimize_amounts, for digits up to 17 and absent uint64
wrap-around of the offset expression, the computed am equals 10 minus
((target + digit_amount - 1 - used_total) / digit_amount) mod 10 taken over
the integers (floor division); the fake_large offset of 10 to the 18th
vanishes only for those digits.  And whenever a qualifying pair exists, the
selector picks a pair of leading digits summing to 10 - am modulo 10, with
at least one of the two stacks at least TWO_THRESHOLD = 10 tall and the
combined height maximal among qualifying pairs, and pops exactly one coin
from each of the two chosen stacks (the same stack serving both picks when
the two keys coincide). -/
theorem optimize_amounts_formula_and_pair :
    (∀ total used digit, digit ≤ 17 → used < W64 →
        used ≤ fake_large + total + 10 ^ digit - 1 →
        fake_large + total + 10 ^ digit - 1 - used < W64 →
        (amCode total used (10 ^ digit) : ℤ) = amClaim total used (10 ^ digit)) ∧
    (∀ total digit (h : HaveCoins) (s : SelState) (es : List (ℕ × Stack)),
        HaveWF h → alFind digit h = some es →
        (∃ a2 ∈ es, ∃ b2 ∈ es, ((a2 : ℕ × Stack).1 + (b2 : ℕ × Stack).1
            + amCode total s.used_total (10 ^ digit)) % 10 = 0 ∧
          (TWO_THRESHOLD ≤ a2.2.length ∨ TWO_THRESHOLD ≤ b2.2.length)) →
        ∃ a0 b0 sa0 sb0 c1 h1 c2 h2,
          bestPair es (amCode total s.used_total (10 ^ digit))
            = (sa0.length + sb0.length, a0, b0) ∧
          alFind a0 es = some sa0 ∧ alFind b0 es = some sb0 ∧
          (a0 + b0 + amCode total s.used_total (10 ^ digit)) % 10 = 0 ∧
          (TWO_THRESHOLD ≤ sa0.length ∨ TWO_THRESHOLD ≤ sb0.length) ∧
          (∀ x y sx sy, (x, sx) ∈ es → (y, sy) ∈ es →
            (x + y + amCode total s.used_total (10 ^ digit)) % 10 = 0 →
            (TWO_THRESHOLD ≤ sx.length ∨ TWO_THRESHOLD ≤ sy.length) →
            sx.length + sy.length ≤ sa0.length + sb0.length) ∧
          havePopAt h digit a0 = some (c1, h1) ∧
          havePopAt h1 digit b0 = some (c2, h2) ∧
          optDigitStep total digit h s = (h2, pickCoin (pickCoin s c1) c2)) :=
  ⟨amCode_eq_claim, fun _ _ _ _ _ hh hf hex => optDigitStep_pair hh hf hex⟩

/-- The concrete inner map for the digit-rounding witnesses: one coin of
amount 3 and a ten-coin stack of amount 7 at digit 0. -/
def c7es : List (ℕ × Stack) :=
  [(3, [mkOut 3 0 0]), (7, (List.range 10).map (fun i => mkOut 7 (i + 1) 0))]

/-- The concrete have_coins map for the digit-rounding witnesses. -/
def c7have : HaveCoins := [(0, c7es)]

/-- C7 witness: the formula at a concrete in-range digit, and the pair pick
of the boundary scenario (leading digits 3 and 7 cover a shortfall ending
in 0). -/
theorem optimize_amounts_formula_and_pair_witness :
    ((amCode 1000 0 (10 ^ 3) : ℤ) = amClaim 1000 0 (10 ^ 3)) ∧
    (∃ a0 b0 sa0 sb0 c1 h1 c2 h2,
      bestPair c7es (amCode 990 initialSelState.used_total (10 ^ 0))
        = (sa0.length + sb0.length, a0, b0) ∧
      alFind a0 c7es = some sa0 ∧ alFind b0 c7es = some sb0 ∧
      (a0 + b0 + amCode 990 initialSelState.used_total (10 ^ 0)) % 10 = 0 ∧
      (TWO_THRESHOLD ≤ sa0.length ∨ TWO_THRESHOLD ≤ sb0.length) ∧
      (∀ x y sx sy, (x, sx) ∈ c7es → (y, sy) ∈ c7es →
        (x + y + amCode 990 initialSelState.used_total (10 ^ 0)) % 10 = 0 →
        (TWO_THRESHOLD ≤ sx.length ∨ TWO_THRESHOLD ≤ sy.length) →
        sx.length + sy.length ≤ sa0.length + sb0.length) ∧
      havePopAt c7have 0 a0 = some (c1, h1) ∧
      havePopAt h1 0 b0 = some (c2, h2) ∧
      optDigitStep 990 0 c7have initialSelState
        = (h2, pickCoin (pickCoin initialSelState c1) c2)) :=
  ⟨optimize_amounts_formula_and_pair.1 1000 0 3 (by norm_num) (by decide) (by decide)
      (by decide),
    optimize_amounts_formula_and_pair.2 990 0 c7have initialSelState c7es (by decide) rfl
      ⟨(3, [mkOut 3 0 0]), by decide, (7, (List.range 10).map (fun i => mkOut 7 (i + 1) 0)),
        by decide, by decide, by decide⟩⟩

/-- C10: during selection no pop acts on an empty stack.  The compaction
scan only returns a stack strictly taller than
STACK_OPTIMIZATION_THRESHOLD = 20, from which exactly 10 coins are removed,
leaving it non-empty; and the digit-rounding pair pick, guarded by
TWO_THRESHOLD = 10, performs both of its pops (also when the same stack is
chosen twice) on present, non-empty stacks, witnessed by the two successful
havePopAt results. -/
theorem no_empty_pops :
    (∀ (h : HaveCoins) (w dg ld : ℕ) (s : SelState), HaveWF h →
      bestStackScan h = (w, some (dg, ld)) →
      ∃ es st, alFind dg h = some es ∧ alFind ld es = some st ∧
        STACK_OPTIMIZATION_THRESHOLD < st.length ∧
        popTenFrom h dg ld s
          = (alUpdate dg (fun _ => alUpdate ld (fun _ => st.drop 10) es) h,
            (st.take 10).foldl pickCoin s) ∧
        (st.take 10).length = 10 ∧ st.drop 10 ≠ []) ∧
    (∀ total digit (h : HaveCoins) (s : SelState) (es : List (ℕ × Stack)),
      HaveWF h → alFind digit h = some es →
      (∃ a2 ∈ es, ∃ b2 ∈ es, ((a2 : ℕ × Stack).1 + (b2 : ℕ × Stack).1
          + amCode total s.used_total (10 ^ digit)) % 10 = 0 ∧
        (TWO_THRESHOLD ≤ a2.2.length ∨ TWO_THRESHOLD ≤ b2.2.length)) →
      ∃ a0 b0 c1 h1 c2 h2,
        havePopAt h digit a0 = some (c1, h1) ∧
        havePopAt h1 digit b0 = some (c2, h2) ∧
        optDigitStep total digit h s = (h2, pickCoin (pickCoin s c1) c2)) := by
  constructor
  · intro h w dg ld s hh hscan
    exact popTen_spec hh hscan
  · intro total digit h s es hh hf hex
    obtain ⟨a0, b0, sa0, sb0, c1, h1, c2, h2, -, -, -, -, -, -, hp1, hp2, heq⟩ :=
      optDigitStep_pair hh hf hex
    exact ⟨a0, b0, c1, h1, c2, h2, hp1, hp2, heq⟩

/-- The concrete have_coins map for the compaction witness: a 21-coin stack
of amount 5 at digit 0, leading digit 5. -/
def c10have : HaveCoins := [(0, [(5, (List.range 21).map (fun i => mkOut 5 i 0))])]

/-- C10 witness: the compaction half applied at a concrete 21-coin stack,
and the pair half at the boundary-scenario map. -/
theorem no_empty_pops_witness :
    (∃ es st, alFind 0 c10have = some es ∧ alFind 5 es = some st ∧
      STACK_OPTIMIZATION_THRESHOLD < st.length ∧
      popTenFrom c10have 0 5 initialSelState
        = (alUpdate 0 (fun _ => alUpdate 5 (fun _ => st.drop 10) es) c10have,
          (st.take 10).foldl pickCoin initialSelState) ∧
      (st.take 10).length = 10 ∧ st.drop 10 ≠ []) ∧
    (∃ a0 b0 c1 h1 c2 h2,
      havePopAt c7have 0 a0 = some (c1, h1) ∧
      havePopAt h1 0 b0 = some (c2, h2) ∧
      optDigitStep 990 0 c7have initialSelState
        = (h2, pickCoin (pickCoin initialSelState c1) c2)) :=
  ⟨no_empty_pops.1 c10have 21 0 5 initialSelState (by decide) (by decide),
    no_empty_pops.2 990 0 c7have initialSelState c7es (by decide) rfl
      ⟨(3, [mkOut 3 0 0]), by decide, (7, (List.range 10).map (fun i => mkOut 7 (i + 1) 0)),
        by decide, by decide, by decide⟩⟩

/-! The counter invariant: used_total and inputs_count always track the sum
and number of the coins committed plus provisionally picked. -/

/-- Sum of the amounts of a list of coins. -/
def amtSum (l : List Output) : ℕ := (l.map Output.amount).sum

/-- The counter invariant of the selector state. -/
def Inv (s : SelState) : Prop :=
  s.used_total = amtSum s.used_unspents + amtSum s.optimization_unspents ∧
  s.inputs_count = s.used_unspents.length + s.optimization_unspents.length

theorem amtSum_append (l1 l2 : List Output) :
    amtSum (l1 ++ l2) = amtSum l1 + amtSum l2 := by
  unfold amtSum
  rw [List.map_append, List.sum_append]

theorem Inv_pickCoin {s : SelState} (h : Inv s) (c : Output) : Inv (pickCoin s c) := by
  obtain ⟨h1, h2⟩ := h
  unfold Inv pickCoin
  constructor
  · simp only [amtSum_append, h1]
    unfold amtSum
    simp [List.map_cons]
    omega
  · simp only [List.length_append, h2, List.length_cons]
    simp
    omega

theorem Inv_foldl_pick {s : SelState} (h : Inv s) (l : List Output) :
    Inv (l.foldl pickCoin s) := by
  induction l generalizing s with
  | nil => exact h
  | cons c rest ih => exact ih (Inv_pickCoin h c)

theorem pickCoin_used (s : SelState) (c : Output) :
    (pickCoin s c).used_total = s.used_total + c.amount := rfl

theorem foldl_pick_used (l : List Output) : ∀ s : SelState,
    s.used_total ≤ (l.foldl pickCoin s).used_total := by
  induction l with
  | nil => intro s; exact le_refl _
  | cons c rest ih =>
    intro s
    refine le_trans ?_ (ih (pickCoin s c))
    rw [pickCoin_used]
    omega

theorem dustCoverSingle_shape (total : ℕ) (d : DustCoins) (s : SelState) :
    (dustCoverSingle total d s).2 = s ∨
      ∃ c, (dustCoverSingle total d s).2 = pickCoin s c := by
  unfold dustCoverSingle
  by_cases h1 : s.used_total < total
  · rw [if_pos h1]
    cases hlb : alLowerBound (total - s.used_total) d with
    | none => exact Or.inl rfl
    | some kv =>
      obtain ⟨k, st⟩ := kv
      dsimp only
      cases hsp : stacksPopAt d k with
      | none => exact Or.inl rfl
      | some cd =>
        obtain ⟨c, d'⟩ := cd
        exact Or.inr ⟨c, rfl⟩
  · rw [if_neg h1]
    exact Or.inl rfl

theorem Inv_dustCoverSingle {total : ℕ} {d : DustCoins} {s : SelState} (h : Inv s) :
    Inv (dustCoverSingle total d s).2 := by
  rcases dustCoverSingle_shape total d s with he | ⟨c, he⟩
  · rw [he]; exact h
  · rw [he]; exact Inv_pickCoin h c

theorem Inv_dustFillGo (total : ℕ) : ∀ (fuel cnt : ℕ) (d : DustCoins) (s : SelState),
    Inv s → Inv (dustFillGo total fuel cnt d s).2.2 := by
  intro fuel
  induction fuel with
  | zero => intro cnt d s h; exact h
  | succ f ih =>
    intro cnt d s h
    unfold dustFillGo
    by_cases hc : s.used_total < total ∧ d ≠ [] ∧ 1 ≤ cnt
    · rw [if_pos hc]
      cases hl : d.getLast? with
      | none => exact h
      | some kv =>
        obtain ⟨k, st⟩ := kv
        dsimp only
        cases hsp : stacksPopAt d k with
        | none => exact h
        | some cd =>
          obtain ⟨c, d'⟩ := cd
          exact ih (cnt - 1) d' (pickCoin s c) (Inv_pickCoin h c)
    · rw [if_neg hc]
      exact h

theorem popTenFrom_shape (h : HaveCoins) (dg ld : ℕ) (s : SelState) :
    (popTenFrom h dg ld s).2 = s ∨
      ∃ l : List Output, (popTenFrom h dg ld s).2 = l.foldl pickCoin s := by
  unfold popTenFrom
  cases hf : alFind dg h with
  | none => exact Or.inl rfl
  | some es =>
    dsimp only
    cases hf2 : alFind ld es with
    | none => exact Or.inl rfl
    | some st => exact Or.inr ⟨st.take 10, rfl⟩

theorem Inv_stackLoopGo : ∀ (fuel cnt : ℕ) (h : HaveCoins) (s : SelState),
    Inv s → Inv (stackLoopGo fuel cnt h s).2.2 := by
  intro fuel
  induction fuel with
  | zero => intro cnt h s hi; exact hi
  | succ f ih =>
    intro cnt h s hi
    unfold stackLoopGo
    by_cases hc : 10 ≤ cnt
    · rw [if_pos hc]
      cases hb : bestStackScan h with
      | mk w o =>
        cases o with
        | none => exact hi
        | some dl =>
          obtain ⟨dg, ld⟩ := dl
          dsimp only
          refine ih (cnt - 10) _ _ ?_
          rcases popTenFrom_shape h dg ld s with he | ⟨l, he⟩
          · rw [he]; exact hi
          · rw [he]; exact Inv_foldl_pick hi l
    · rw [if_neg hc]
      exact hi

theorem optDigitStep_shape (total digit : ℕ) (h : HaveCoins) (s : SelState) :
    (optDigitStep total digit h s).2 = s ∨
      (∃ c, (optDigitStep total digit h s).2 = pickCoin s c) ∨
      ∃ c1 c2, (optDigitStep total digit h s).2 = pickCoin (pickCoin s c1) c2 := by
  unfold optDigitStep
  cases hf : alFind digit h with
  | none => exact Or.inl rfl
  | some es =>
    dsimp only
    by_cases hbp : (bestPair es (amCode total s.used_total (10 ^ digit))).1 ≠ 0
    · rw [if_pos hbp]
      cases hp1 : havePopAt h digit (bestPair es (amCode total s.used_total (10 ^ digit))).2.1 with
      | none => exact Or.inl rfl
      | some ch =>
        obtain ⟨c1, h1⟩ := ch
        dsimp only
        cases hp2 : havePopAt h1 digit
            (bestPair es (amCode total s.used_total (10 ^ digit))).2.2 with
        | none => exact Or.inr (Or.inl ⟨c1, rfl⟩)
        | some ch2 =>
          obtain ⟨c2, h2⟩ := ch2
          exact Or.inr (Or.inr ⟨c1, c2, rfl⟩)
    · rw [if_neg hbp]
      by_cases ham : amCode total s.used_total (10 ^ digit) = 10
      · rw [if_pos ham]
        exact Or.inl rfl
      · rw [if_neg ham]
        by_cases hbs : singleSearch (amCode total s.used_total (10 ^ digit)) es 0 0 ≠ 0
        · rw [if_pos hbs]
          cases hp : havePopAt h digit
              (singleSearch (amCode total s.used_total (10 ^ digit)) es 0 0) with
          | none => exact Or.inl rfl
          | some ch =>
            obtain ⟨c, h1⟩ := ch
            exact Or.inr (Or.inl ⟨c, rfl⟩)
        · rw [if_neg hbs]
          exact Or.inl rfl

theorem Inv_optDigitStep {total digit : ℕ} {h : HaveCoins} {s : SelState} (hi : Inv s) :
    Inv (optDigitStep total digit h s).2 := by
  rcases optDigitStep_shape total digit h s with he | ⟨c, he⟩ | ⟨c1, c2, he⟩
  · rw [he]; exact hi
  · rw [he]; exact Inv_pickCoin hi c
  · rw [he]; exact Inv_pickCoin (Inv_pickCoin hi c1) c2

theorem optDigitStep_used_mono (total digit : ℕ) (h : HaveCoins) (s : SelState) :
    s.used_total ≤ (optDigitStep total digit h s).2.used_total := by
  rcases optDigitStep_shape total digit h s with he | ⟨c, he⟩ | ⟨c1, c2, he⟩
  · rw [he]
  · rw [he, pickCoin_used]; omega
  · rw [he, pickCoin_used, pickCoin_used]; omega

theorem Inv_optAmountsGo (total : ℕ) : ∀ (fuel digit : ℕ) (h : HaveCoins) (s : SelState),
    Inv s → Inv (optAmountsGo total fuel digit h s).2 := by
  intro fuel
  induction fuel with
  | zero => intro digit h s hi; exact hi
  | succ f ih =>
    intro digit h s hi
    unfold optAmountsGo
    by_cases hc : total ≤ s.used_total ∧ s.used_total < 10 ^ digit
    · rw [if_pos hc]; exact hi
    · rw [if_neg hc]
      exact ih (digit + 1) _ _ (Inv_optDigitStep hi)

theorem optAmountsGo_used_mono (total : ℕ) : ∀ (fuel digit : ℕ) (h : HaveCoins)
    (s : SelState), s.used_total ≤ (optAmountsGo total fuel digit h s).2.used_total := by
  intro fuel
  induction fuel with
  | zero => intro digit h s; exact le_refl _
  | succ f ih =>
    intro digit h s
    unfold optAmountsGo
    by_cases hc : total ≤ s.used_total ∧ s.used_total < 10 ^ digit
    · rw [if_pos hc]
    · rw [if_neg hc]
      exact le_trans (optDigitStep_used_mono total digit h s) (ih (digit + 1) _ _)

theorem Inv_singleLargeGo (total : ℕ) : ∀ (fuel digit : ℕ) (h : HaveCoins) (s : SelState),
    Inv s → Inv (singleLargeGo total fuel digit h s).2 := by
  intro fuel
  induction fuel with
  | zero => intro digit h s hi; exact hi
  | succ f ih =>
    intro digit h s hi
    unfold singleLargeGo
    cases hf : alFind digit h with
    | none => exact ih (digit + 1) h s hi
    | some es =>
      dsimp only
      cases hfind : es.find? (fun a => ¬ a.2.isEmpty ∧
          total - s.used_total ≤ a.1 * 10 ^ digit) with
      | none => exact ih (digit + 1) h s hi
      | some a =>
        obtain ⟨lead, st⟩ := a
        dsimp only
        cases hp : havePopAt h digit lead with
        | none => exact hi
        | some ch =>
          obtain ⟨c, h1⟩ := ch
          exact Inv_pickCoin hi c

theorem unoptimizeStep_fields (acc : HaveCoins × DustCoins × SelState) (un : Output) :
    (unoptimizeStep acc un).2.2.used_total = acc.2.2.used_total - un.amount ∧
    (unoptimizeStep acc un).2.2.inputs_count = acc.2.2.inputs_count - 1 ∧
    (unoptimizeStep acc un).2.2.optimization_unspents = acc.2.2.optimization_unspents ∧
    (unoptimizeStep acc un).2.2.used_unspents = acc.2.2.used_unspents ∧
    (unoptimizeStep acc un).2.2.ra_amounts = acc.2.2.ra_amounts := by
  unfold unoptimizeStep
  by_cases hd : un.dust
  · rw [if_pos hd]
    exact ⟨rfl, rfl, rfl, rfl, rfl⟩
  · rw [if_neg hd]
    exact ⟨rfl, rfl, rfl, rfl, rfl⟩

theorem unopt_foldl (l : List Output) : ∀ (h : HaveCoins) (d : DustCoins) (s : SelState)
    (X C : ℕ), s.used_total = X + amtSum l → s.inputs_count = C + l.length →
    (l.foldl unoptimizeStep (h, d, s)).2.2.used_total = X ∧
    (l.foldl unoptimizeStep (h, d, s)).2.2.inputs_count = C ∧
    (l.foldl unoptimizeStep (h, d, s)).2.2.optimization_unspents
      = s.optimization_unspents ∧
    (l.foldl unoptimizeStep (h, d, s)).2.2.used_unspents = s.used_unspents ∧
    (l.foldl unoptimizeStep (h, d, s)).2.2.ra_amounts = s.ra_amounts := by
  induction l with
  | nil =>
    intro h d s X C h1 h2
    unfold amtSum at h1
    simp at h1 h2
    exact ⟨h1, h2, rfl, rfl, rfl⟩
  | cons c rest ih =>
    intro h d s X C h1 h2
    rw [List.foldl_cons]
    have hfields := unoptimizeStep_fields (h, d, s) c
    have hamt : amtSum (c :: rest) = c.amount + amtSum rest := by
      unfold amtSum
      rw [List.map_cons, List.sum_cons]
    obtain ⟨e1, e2, e3, e4, e5⟩ := hfields
    have hstep : unoptimizeStep (h, d, s) c
        = ((unoptimizeStep (h, d, s) c).1, (unoptimizeStep (h, d, s) c).2.1,
          (unoptimizeStep (h, d, s) c).2.2) := rfl
    rw [hstep]
    have := ih (unoptimizeStep (h, d, s) c).1 (unoptimizeStep (h, d, s) c).2.1
      (unoptimizeStep (h, d, s) c).2.2 X C
      (by rw [e1, h1, hamt]; omega) (by rw [e2, h2, List.length_cons]; omega)
    rw [e3, e4, e5] at this
    exact this

theorem unoptimizeAmounts_state {h : HaveCoins} {d : DustCoins} {s : SelState}
    (hi : Inv s) :
    (unoptimizeAmounts h d s).2.2.used_total = amtSum s.used_unspents ∧
    (unoptimizeAmounts h d s).2.2.inputs_count = s.used_unspents.length ∧
    (unoptimizeAmounts h d s).2.2.optimization_unspents = [] ∧
    (unoptimizeAmounts h d s).2.2.used_unspents = s.used_unspents ∧
    (unoptimizeAmounts h d s).2.2.ra_amounts = s.ra_amounts ∧
    Inv (unoptimizeAmounts h d s).2.2 := by
  obtain ⟨h1, h2⟩ := hi
  unfold unoptimizeAmounts
  have := unopt_foldl s.optimization_unspents h d s (amtSum s.used_unspents)
    s.used_unspents.length (by omega) (by omega)
  obtain ⟨e1, e2, e3, e4, e5⟩ := this
  dsimp only
  refine ⟨e1, e2, rfl, e4, e5, ?_⟩
  constructor
  · show (_ : ℕ) = amtSum _ + amtSum []
    rw [e1, e4]
    unfold amtSum
    simp
  · show (_ : ℕ) = _ + ([] : List Output).length
    rw [e2, e4]
    simp

theorem amtSum_nil : amtSum [] = 0 := rfl

theorem Inv_combine {s : SelState} (hi : Inv s) : Inv (combineOptimizedUnspents s) := by
  obtain ⟨h1, h2⟩ := hi
  unfold Inv combineOptimizedUnspents
  dsimp only
  constructor
  · rw [amtSum_append, amtSum_nil]
    omega
  · rw [List.length_append]
    simp only [List.length_nil]
    omega

theorem fillerGo_true (anonymity total : ℕ) : ∀ (fuel : ℕ) (h : HaveCoins)
    (d : DustCoins) (s : SelState),
    ((fillerGo anonymity total fuel h d s).1 = true →
      total ≤ (fillerGo anonymity total fuel h d s).2.2.2.used_total) ∧
    (Inv s → Inv (fillerGo anonymity total fuel h d s).2.2.2) := by
  intro fuel
  induction fuel with
  | zero =>
    intro h d s
    exact ⟨fun hh => Bool.noConfusion hh, fun hi => hi⟩
  | succ f ih =>
    intro h d s
    unfold fillerGo
    by_cases h1 : total ≤ s.used_total
    · rw [if_pos h1]
      exact ⟨fun _ => h1, fun hi => hi⟩
    · rw [if_neg h1]
      by_cases h2 : h = [] ∧ (anonymity ≠ 0 ∨ d = [])
      · rw [if_pos h2]
        exact ⟨fun hh => Bool.noConfusion hh, fun hi => hi⟩
      · rw [if_neg h2]
        dsimp only
        by_cases h3 : (if anonymity = 0 then
            (match dustLastCoin d with | some c => c.amount | none => 0) else 0) <
            (match haveLastCoin h with | some c => c.amount | none => 0)
        · rw [if_pos h3]
          cases hp : popLastHave h with
          | none => exact ⟨fun hh => Bool.noConfusion hh, fun hi => hi⟩
          | some ch =>
            obtain ⟨c, h'⟩ := ch
            exact ⟨(ih h' d (pickCoin s c)).1,
              fun hi => (ih h' d (pickCoin s c)).2 (Inv_pickCoin hi c)⟩
        · rw [if_neg h3]
          cases hp : popLastDust d with
          | none => exact ⟨fun hh => Bool.noConfusion hh, fun hi => hi⟩
          | some cd =>
            obtain ⟨c, d'⟩ := cd
            exact ⟨(ih h d' (pickCoin s c)).1,
              fun hi => (ih h d' (pickCoin s c)).2 (Inv_pickCoin hi c)⟩

theorem selectInner_spec (anonymity max_digit total cnt : ℕ) (h : HaveCoins)
    (d : DustCoins) (s : SelState) (hi : Inv s) :
    Inv (selectInner anonymity max_digit total cnt h d s).2.2.2 ∧
    ((selectInner anonymity max_digit total cnt h d s).1 = true →
      total ≤ (selectInner anonymity max_digit total cnt h d s).2.2.2.used_total) := by
  unfold selectInner
  set dc := if anonymity = 0 then dustCoverSingle total d s else (d, s) with hdc
  have hidc : Inv dc.2 := by
    rw [hdc]
    by_cases ha : anonymity = 0
    · rw [if_pos ha]; exact Inv_dustCoverSingle hi
    · rw [if_neg ha]; exact hi
  set df := if anonymity = 0 then dustFillLoop total cnt dc.1 dc.2
    else (cnt, dc.1, dc.2) with hdf
  have hidf : Inv df.2.2 := by
    rw [hdf]
    by_cases ha : anonymity = 0
    · rw [if_pos ha]
      unfold dustFillLoop
      exact Inv_dustFillGo total cnt cnt dc.1 dc.2 hidc
    · rw [if_neg ha]; exact hidc
  set sl := stackLoop df.1 h df.2.2 with hsl
  have hisl : Inv sl.2.2 := by
    rw [hsl]
    unfold stackLoop
    exact Inv_stackLoopGo _ _ _ _ hidf
  set oa := optimizeAmounts sl.2.1 max_digit total sl.2.2 with hoa
  have hioa : Inv oa.2 := by
    rw [hoa]
    unfold optimizeAmounts
    exact Inv_optAmountsGo total _ 0 _ _ hisl
  by_cases hc1 : total ≤ oa.2.used_total
  · rw [if_pos hc1]
    exact ⟨hioa, fun _ => hc1⟩
  · rw [if_neg hc1]
    set slg := singleLargeGo total (max_digit + 1) 0 oa.1 oa.2 with hslg
    have hislg : Inv slg.2 := by
      rw [hslg]
      exact Inv_singleLargeGo total _ 0 _ _ hioa
    by_cases hc2 : total ≤ slg.2.used_total
    · rw [if_pos hc2]
      exact ⟨hislg, fun _ => hc2⟩
    · rw [if_neg hc2]
      set uo := unoptimizeAmounts slg.1 df.2.1 slg.2 with huo
      have hiuo : Inv uo.2.2 := by
        rw [huo]
        exact (unoptimizeAmounts_state hislg).2.2.2.2.2
      set fl := fillerGo anonymity total (haveCount uo.1 + dustCount uo.2.1 + 1)
        uo.1 uo.2.1 uo.2.2 with hfl
      have hfspec := fillerGo_true anonymity total
        (haveCount uo.1 + dustCount uo.2.1 + 1) uo.1 uo.2.1 uo.2.2
      rw [← hfl] at hfspec
      by_cases hc3 : fl.1 = true
      · rw [if_pos hc3]
        dsimp only
        refine ⟨?_, fun _ => ?_⟩
        · unfold optimizeAmounts
          exact Inv_optAmountsGo total _ 0 _ _ (hfspec.2 hiuo)
        · refine le_trans (hfspec.1 hc3) ?_
          unfold optimizeAmounts
          exact optAmountsGo_used_mono total _ 0 _ _
      · rw [if_neg hc3]
        exact ⟨hfspec.2 hiuo, fun hh => Bool.noConfusion hh⟩

/-! Equations for the five exits of one outer iteration. -/

theorem outerStep_eq_nef {txSize : ℕ → ℕ → ℕ → ℕ} {p : OuterParams}
    {maxd fee opts : ℕ} {h : HaveCoins} {d : DustCoins} {s : SelState}
    (hr : (selectInner p.anonymity maxd (p.total_amount + fee) opts h d s).1 = false) :
    outerStep txSize p maxd fee opts h d s
      = .nef (selectInner p.anonymity maxd (p.total_amount + fee) opts h d s).2.1
          (selectInner p.anonymity maxd (p.total_amount + fee) opts h d s).2.2.1
          (selectInner p.anonymity maxd (p.total_amount + fee) opts h d s).2.2.2 := by
  unfold outerStep
  rw [if_pos (by rw [hr]; exact Bool.false_ne_true)]

theorem outerStep_eq_retry_median {txSize : ℕ → ℕ → ℕ → ℕ} {p : OuterParams}
    {maxd fee opts : ℕ} {h : HaveCoins} {d : DustCoins} {s : SelState}
    (hr : (selectInner p.anonymity maxd (p.total_amount + fee) opts h d s).1 = true)
    (hmed : optimizationMedian p <
      txSize (selectInner p.anonymity maxd (p.total_amount + fee) opts h d s).2.2.2.inputs_count
        (p.total_outputs + 8) p.anonymity)
    (hopts : 0 < opts) :
    outerStep txSize p maxd fee opts h d s
      = .retry fee (if opts / 2 < 10 then 0 else opts / 2)
          (unoptimizeAmounts (selectInner p.anonymity maxd (p.total_amount + fee) opts h d s).2.1
            (selectInner p.anonymity maxd (p.total_amount + fee) opts h d s).2.2.1
            (selectInner p.anonymity maxd (p.total_amount + fee) opts h d s).2.2.2).1
          (unoptimizeAmounts (selectInner p.anonymity maxd (p.total_amount + fee) opts h d s).2.1
            (selectInner p.anonymity maxd (p.total_amount + fee) opts h d s).2.2.1
            (selectInner p.anonymity maxd (p.total_amount + fee) opts h d s).2.2.2).2.1
          (unoptimizeAmounts (selectInner p.anonymity maxd (p.total_amount + fee) opts h d s).2.1
            (selectInner p.anonymity maxd (p.total_amount + fee) opts h d s).2.2.1
            (selectInner p.anonymity maxd (p.total_amount + fee) opts h d s).2.2.2).2.2 := by
  unfold outerStep
  rw [if_neg (by rw [hr]; simp)]
  dsimp only
  rw [if_pos ⟨hmed, hopts⟩]

theorem outerStep_eq_dnf {txSize : ℕ → ℕ → ℕ → ℕ} {p : OuterParams}
    {maxd fee opts : ℕ} {h : HaveCoins} {d : DustCoins} {s : SelState}
    (hr : (selectInner p.anonymity maxd (p.total_amount + fee) opts h d s).1 = true)
    (hmed : ¬ (optimizationMedian p <
      txSize (selectInner p.anonymity maxd (p.total_amount + fee) opts h d s).2.2.2.inputs_count
        (p.total_outputs + 8) p.anonymity ∧ 0 < opts))
    (hfit : p.effective_median_size <
      txSize (selectInner p.anonymity maxd (p.total_amount + fee) opts h d s).2.2.2.inputs_count
        (p.total_outputs + 8) p.anonymity) :
    outerStep txSize p maxd fee opts h d s
      = .dnf (selectInner p.anonymity maxd (p.total_amount + fee) opts h d s).2.1
          (selectInner p.anonymity maxd (p.total_amount + fee) opts h d s).2.2.1
          (selectInner p.anonymity maxd (p.total_amount + fee) opts h d s).2.2.2 := by
  unfold outerStep
  rw [if_neg (by rw [hr]; simp)]
  dsimp only
  rw [if_neg hmed, if_pos hfit]

theorem outerStep_eq_done {txSize : ℕ → ℕ → ℕ → ℕ} {p : OuterParams}
    {maxd fee opts : ℕ} {h : HaveCoins} {d : DustCoins} {s : SelState}
    (hr : (selectInner p.anonymity maxd (p.total_amount + fee) opts h d s).1 = true)
    (hmed : ¬ (optimizationMedian p <
      txSize (selectInner p.anonymity maxd (p.total_amount + fee) opts h d s).2.2.2.inputs_count
        (p.total_outputs + 8) p.anonymity ∧ 0 < opts))
    (hfit : ¬ p.effective_median_size <
      txSize (selectInner p.anonymity maxd (p.total_amount + fee) opts h d s).2.2.2.inputs_count
        (p.total_outputs + 8) p.anonymity)
    (hfee : p.fee_per_byte *
        txSize (selectInner p.anonymity maxd (p.total_amount + fee) opts h d s).2.2.2.inputs_count
          (p.total_outputs + 8) p.anonymity
      ≤ fee + ((selectInner p.anonymity maxd (p.total_amount + fee) opts h d s).2.2.2.used_total
          - p.total_amount - fee) % p.default_dust_threshold) :
    outerStep txSize p maxd fee opts h d s
      = .done ((selectInner p.anonymity maxd (p.total_amount + fee) opts h d s).2.2.2.used_total
            - p.total_amount - fee
            - ((selectInner p.anonymity maxd (p.total_amount + fee) opts h d s).2.2.2.used_total
              - p.total_amount - fee) % p.default_dust_threshold)
          (selectInner p.anonymity maxd (p.total_amount + fee) opts h d s).2.1
          (selectInner p.anonymity maxd (p.total_amount + fee) opts h d s).2.2.1
          (combineOptimizedUnspents
            (selectInner p.anonymity maxd (p.total_amount + fee) opts h d s).2.2.2) := by
  unfold outerStep
  rw [if_neg (by rw [hr]; simp)]
  dsimp only
  rw [if_neg hmed, if_neg hfit, if_pos hfee]

theorem outerStep_eq_retry_fee {txSize : ℕ → ℕ → ℕ → ℕ} {p : OuterParams}
    {maxd fee opts : ℕ} {h : HaveCoins} {d : DustCoins} {s : SelState}
    (hr : (selectInner p.anonymity maxd (p.total_amount + fee) opts h d s).1 = true)
    (hmed : ¬ (optimizationMedian p <
      txSize (selectInner p.anonymity maxd (p.total_amount + fee) opts h d s).2.2.2.inputs_count
        (p.total_outputs + 8) p.anonymity ∧ 0 < opts))
    (hfit : ¬ p.effective_median_size <
      txSize (selectInner p.anonymity maxd (p.total_amount + fee) opts h d s).2.2.2.inputs_count
        (p.total_outputs + 8) p.anonymity)
    (hfee : ¬ p.fee_per_byte *
        txSize (selectInner p.anonymity maxd (p.total_amount + fee) opts h d s).2.2.2.inputs_count
          (p.total_outputs + 8) p.anonymity
      ≤ fee + ((selectInner p.anonymity maxd (p.total_amount + fee) opts h d s).2.2.2.used_total
          - p.total_amount - fee) % p.default_dust_threshold) :
    outerStep txSize p maxd fee opts h d s
      = .retry ((p.fee_per_byte *
            txSize (selectInner p.anonymity maxd (p.total_amount + fee) opts h d s).2.2.2.inputs_count
              (p.total_outputs + 8) p.anonymity
            - ((selectInner p.anonymity maxd (p.total_amount + fee) opts h d s).2.2.2.used_total
              - p.total_amount - fee) % p.default_dust_threshold
            + p.default_dust_threshold - 1) / p.default_dust_threshold
            * p.default_dust_threshold)
          opts
          (unoptimizeAmounts (selectInner p.anonymity maxd (p.total_amount + fee) opts h d s).2.1
            (selectInner p.anonymity maxd (p.total_amount + fee) opts h d s).2.2.1
            (selectInner p.anonymity maxd (p.total_amount + fee) opts h d s).2.2.2).1
          (unoptimizeAmounts (selectInner p.anonymity maxd (p.total_amount + fee) opts h d s).2.1
            (selectInner p.anonymity maxd (p.total_amount + fee) opts h d s).2.2.1
            (selectInner p.anonymity maxd (p.total_amount + fee) opts h d s).2.2.2).2.1
          (unoptimizeAmounts (selectInner p.anonymity maxd (p.total_amount + fee) opts h d s).2.1
            (selectInner p.anonymity maxd (p.total_amount + fee) opts h d s).2.2.1
            (selectInner p.anonymity maxd (p.total_amount + fee) opts h d s).2.2.2).2.2 := by
  unfold outerStep
  rw [if_neg (by rw [hr]; simp)]
  dsimp only
  rw [if_neg hmed, if_neg hfit, if_neg hfee]

theorem outerGo_ok (txSize : ℕ → ℕ → ℕ → ℕ) (p : OuterParams) (maxd : ℕ) :
    ∀ (fuel fee opts : ℕ) (h : HaveCoins) (d : DustCoins) (s : SelState) (res : OuterRes),
    Inv s → outerGo txSize p maxd fuel fee opts h d s = some res → res.status = "" →
    p.total_amount + res.fee ≤ res.s.used_total ∧
    res.change = some (res.s.used_total - p.total_amount - res.fee -
      (res.s.used_total - p.total_amount - res.fee) % p.default_dust_threshold) ∧
    res.s.used_total = amtSum res.s.used_unspents ∧
    res.s.optimization_unspents = [] := by
  intro fuel
  induction fuel with
  | zero => intro fee opts h d s res _ hrun; cases hrun
  | succ f ih =>
    intro fee opts h d s res hInv hrun hok
    have hspec := selectInner_spec p.anonymity maxd (p.total_amount + fee) opts h d s hInv
    unfold outerGo at hrun
    by_cases hr : (selectInner p.anonymity maxd (p.total_amount + fee) opts h d s).1 = true
    · by_cases hmed : optimizationMedian p <
          txSize (selectInner p.anonymity maxd (p.total_amount + fee) opts h d s).2.2.2.inputs_count
            (p.total_outputs + 8) p.anonymity ∧ 0 < opts
      · rw [outerStep_eq_retry_median hr hmed.1 hmed.2] at hrun
        exact ih _ _ _ _ _ _ ((unoptimizeAmounts_state hspec.1).2.2.2.2.2) hrun hok
      · by_cases hfit : p.effective_median_size <
            txSize (selectInner p.anonymity maxd (p.total_amount + fee) opts h d s).2.2.2.inputs_count
              (p.total_outputs + 8) p.anonymity
        · rw [outerStep_eq_dnf hr hmed hfit] at hrun
          dsimp only at hrun
          cases hrun
          dsimp only at hok
          exact absurd hok (by decide)
        · by_cases hfee : p.fee_per_byte *
              txSize (selectInner p.anonymity maxd (p.total_amount + fee) opts h d s).2.2.2.inputs_count
                (p.total_outputs + 8) p.anonymity
            ≤ fee + ((selectInner p.anonymity maxd (p.total_amount + fee) opts h d s).2.2.2.used_total
                - p.total_amount - fee) % p.default_dust_threshold
          · rw [outerStep_eq_done hr hmed hfit hfee] at hrun
            dsimp only at hrun
            cases hrun
            dsimp only
            have hInv2 : Inv (combineOptimizedUnspents
                (selectInner p.anonymity maxd (p.total_amount + fee) opts h d s).2.2.2) :=
              Inv_combine hspec.1
            obtain ⟨i1, i2⟩ := hInv2
            refine ⟨hspec.2 hr, rfl, ?_, rfl⟩
            rw [i1]
            show amtSum _ + amtSum ([] : List Output) = _
            rw [amtSum_nil]
            omega
          · rw [outerStep_eq_retry_fee hr hmed hfit hfee] at hrun
            exact ih _ _ _ _ _ _ ((unoptimizeAmounts_state hspec.1).2.2.2.2.2) hrun hok
    · rw [outerStep_eq_nef (Bool.not_eq_true _ ▸ hr : _ = false)] at hrun
      dsimp only at hrun
      cases hrun
      dsimp only at hok
      exact absurd hok (by decide)

/-- C1: whenever the outer select_optimal_outputs returns the OK status (the
empty status string), the accumulated used_total, which equals the sum of
the amounts of all selected (committed) unspents, is at least total_amount
plus the final fee, and the value written through the change pointer equals
used_total - total_amount - fee - change_dust_fee with change_dust_fee =
(used_total - total_amount - fee) mod default_dust_threshold. -/
theorem select_ok_spec (txSize : ℕ → ℕ → ℕ → ℕ) (isDust : ℕ → Bool)
    (unlocked : ℕ → Bool) (confirmed_height : ℕ) (unspents : List Output)
    (p : OuterParams) (fuel : ℕ) (res : OuterRes)
    (hrun : select_optimal_outputs txSize isDust unlocked confirmed_height unspents p fuel
      = some res)
    (hok : res.status = "") :
    p.total_amount + res.fee ≤ res.s.used_total ∧
    res.change = some (res.s.used_total - p.total_amount - res.fee -
      (res.s.used_total - p.total_amount - res.fee) % p.default_dust_threshold) ∧
    res.s.used_total = amtSum res.s.used_unspents ∧
    res.s.optimization_unspents = [] := by
  unfold select_optimal_outputs at hrun
  exact outerGo_ok txSize p _ fuel p.minimum_fee _ _ _ _ res ⟨rfl, rfl⟩ hrun hok

/-- The concrete parameters of the boundary scenario: one coin of amount
1000, target 990, zero fee per byte, minimum fee 10. -/
def c1P : OuterParams :=
  { effective_median_size := 1000000, anonymity := 0, total_amount := 990,
    total_outputs := 1, fee_per_byte := 0, optimization_level := "minimal",
    minimum_fee := 10, default_dust_threshold := 100 }

/-- The concrete unspent pool of the boundary scenario. -/
def c1Pool : List Output := [mkOut 1000 0 0]

/-- C1 witness: the OK-specification applied to a concrete terminating run
(the boundary scenario: target 990 covered by a single 1000 coin). -/
theorem select_ok_spec_witness :
    ∃ res, select_optimal_outputs (fun _ _ _ => 0) (fun a => a < 10) (fun _ => true) 1
        c1Pool c1P 40 = some res ∧
      (c1P.total_amount + res.fee ≤ res.s.used_total ∧
        res.change = some (res.s.used_total - c1P.total_amount - res.fee -
          (res.s.used_total - c1P.total_amount - res.fee) % c1P.default_dust_threshold) ∧
        res.s.used_total = amtSum res.s.used_unspents ∧
        res.s.optimization_unspents = []) := by
  cases hrun : select_optimal_outputs (fun _ _ _ => 0) (fun a => a < 10) (fun _ => true) 1
      c1Pool c1P 40 with
  | none =>
    exfalso
    have h2 : (select_optimal_outputs (fun _ _ _ => 0) (fun a => a < 10) (fun _ => true) 1
        c1Pool c1P 40).map OuterRes.status = some "" := by rfl
    rw [hrun] at h2
    cases h2
  | some res =>
    have h2 : (select_optimal_outputs (fun _ _ _ => 0) (fun a => a < 10) (fun _ => true) 1
        c1Pool c1P 40).map OuterRes.status = some "" := by rfl
    rw [hrun] at h2
    have hok : res.status = "" := by
      simpa using h2
    exact ⟨res, rfl, select_ok_spec (fun _ _ _ => 0) (fun a => a < 10) (fun _ => true) 1
      c1Pool c1P 40 res hrun hok⟩

/-! The provisional-pick relation and the rollback discipline. -/

/-- One provisional optimizer pick: a coin popped off a stack of have_coins
or dust_coins and accounted through pickCoin.  Every selection site of the
inner selector is of this shape. -/
inductive PickStep : (HaveCoins × DustCoins × SelState) →
    (HaveCoins × DustCoins × SelState) → Prop where
  | fromHave {h : HaveCoins} {d : DustCoins} {s : SelState} {dg ld : ℕ} {c : Output}
      {h' : HaveCoins} (hp : havePopAt h dg ld = some (c, h')) :
      PickStep (h, d, s) (h', d, pickCoin s c)
  | fromDust {h : HaveCoins} {d : DustCoins} {s : SelState} {k : ℕ} {c : Output}
      {d' : DustCoins} (hp : stacksPopAt d k = some (c, d')) :
      PickStep (h, d, s) (h, d', pickCoin s c)

/-- Any sequence of provisional optimizer picks. -/
def Picks : (HaveCoins × DustCoins × SelState) →
    (HaveCoins × DustCoins × SelState) → Prop :=
  Relation.ReflTransGen PickStep

/-- The invariant carried along a pick sequence started at well-formed maps
with no pending provisional picks. -/
def PicksInv (h0 : HaveCoins) (d0 : DustCoins) (s0 : SelState)
    (t : HaveCoins × DustCoins × SelState) : Prop :=
  HaveWF t.1 ∧ DustWF t.2.1 ∧
  t.2.2.used_unspents = s0.used_unspents ∧
  t.2.2.ra_amounts = s0.ra_amounts ∧
  t.2.2.used_total = s0.used_total + amtSum t.2.2.optimization_unspents ∧
  t.2.2.inputs_count = s0.inputs_count + t.2.2.optimization_unspents.length ∧
  (∀ c ∈ t.2.2.optimization_unspents, 1 ≤ c.amount) ∧
  List.Perm (haveFlat h0)
    (haveFlat t.1 ++ t.2.2.optimization_unspents.filter (fun c => c.dust = false)) ∧
  List.Perm (stacksFlat d0)
    (stacksFlat t.2.1 ++ t.2.2.optimization_unspents.filter (fun c => c.dust = true))

theorem amtSum_cons (c : Output) (l : List Output) :
    amtSum (c :: l) = c.amount + amtSum l := by
  unfold amtSum
  rw [List.map_cons, List.sum_cons]

theorem picksInv_init {h0 : HaveCoins} {d0 : DustCoins} {s0 : SelState}
    (hW : HaveWF h0) (hD : DustWF d0) (hopt : s0.optimization_unspents = []) :
    PicksInv h0 d0 s0 (h0, d0, s0) := by
  unfold PicksInv
  dsimp only
  rw [hopt]
  refine ⟨hW, hD, rfl, rfl, ?_, ?_, ?_, ?_, ?_⟩
  · rw [amtSum_nil]
    omega
  · rfl
  · intro c hc
    exact absurd hc (List.not_mem_nil c)
  · rw [List.filter_nil, List.append_nil]
  · rw [List.filter_nil, List.append_nil]

theorem picksInv_step {h0 : HaveCoins} {d0 : DustCoins} {s0 : SelState}
    {t t' : HaveCoins × DustCoins × SelState} (hJ : PicksInv h0 d0 s0 t)
    (hstep : PickStep t t') : PicksInv h0 d0 s0 t' := by
  obtain ⟨jW, jD, j1, j2, j3, j4, j5, j6, j7⟩ := hJ
  cases hstep with
  | @fromHave h d s dg ld c h' hp =>
    dsimp only at jW jD j1 j2 j3 j4 j5 j6 j7
    obtain ⟨hW', hperm, hcd, -, -, hamt⟩ := haveWF_popAt jW hp
    unfold PicksInv
    refine ⟨hW', jD, ?_, ?_, ?_, ?_, ?_, ?_, ?_⟩
    · dsimp only [pickCoin]
      exact j1
    · dsimp only [pickCoin]
      exact j2
    · dsimp only [pickCoin]
      rw [j3, amtSum_append, amtSum_cons, amtSum_nil]
      omega
    · dsimp only [pickCoin]
      rw [j4, List.length_append]
      simp only [List.length_cons, List.length_nil]
      omega
    · intro c' hc'
      dsimp only [pickCoin] at hc'
      rcases List.mem_append.1 hc' with hx | hx
      · exact j5 c' hx
      · rw [List.mem_singleton] at hx
        subst hx
        exact hamt
    · dsimp only [pickCoin]
      rw [List.filter_append]
      have hfc : List.filter (fun x => x.dust = false) [c] = [c] := by
        simp [hcd]
      rw [hfc]
      refine j6.trans ?_
      refine (hperm.append_right _).trans ?_
      rw [List.cons_append, ← List.append_assoc]
      exact (List.perm_append_singleton _ _).symm
    · dsimp only [pickCoin]
      rw [List.filter_append]
      have hfc : List.filter (fun x => x.dust = true) [c] = [] := by
        simp [hcd]
      rw [hfc, List.append_nil]
      exact j7
  | @fromDust h d s k c d' hp =>
    dsimp only at jW jD j1 j2 j3 j4 j5 j6 j7
    obtain ⟨hD', hperm, hcd, -, hamt⟩ := dustWF_popAt jD hp
    unfold PicksInv
    refine ⟨jW, hD', ?_, ?_, ?_, ?_, ?_, ?_, ?_⟩
    · dsimp only [pickCoin]
      exact j1
    · dsimp only [pickCoin]
      exact j2
    · dsimp only [pickCoin]
      rw [j3, amtSum_append, amtSum_cons, amtSum_nil]
      omega
    · dsimp only [pickCoin]
      rw [j4, List.length_append]
      simp only [List.length_cons, List.length_nil]
      omega
    · intro c' hc'
      dsimp only [pickCoin] at hc'
      rcases List.mem_append.1 hc' with hx | hx
      · exact j5 c' hx
      · rw [List.mem_singleton] at hx
        subst hx
        exact hamt
    · dsimp only [pickCoin]
      rw [List.filter_append]
      have hfc : List.filter (fun x => x.dust = false) [c] = [] := by
        simp [hcd]
      rw [hfc, List.append_nil]
      exact j6
    · dsimp only [pickCoin]
      rw [List.filter_append]
      have hfc : List.filter (fun x => x.dust = true) [c] = [c] := by
        simp [hcd]
      rw [hfc]
      refine j7.trans ?_
      refine (hperm.append_right _).trans ?_
      rw [List.cons_append, ← List.append_assoc]
      exact (List.perm_append_singleton _ _).symm

theorem picks_inv {h0 : HaveCoins} {d0 : DustCoins} {s0 : SelState}
    {t : HaveCoins × DustCoins × SelState} (hW : HaveWF h0) (hD : DustWF d0)
    (hopt : s0.optimization_unspents = []) (hpicks : Picks (h0, d0, s0) t) :
    PicksInv h0 d0 s0 t := by
  induction hpicks with
  | refl => exact picksInv_init hW hD hopt
  | tail hab hbc ih => exact picksInv_step ih hbc

/-- The have-coins component of the unoptimize fold is the fold of havePush
over the non-dust picks, in order. -/
theorem unopt_fold_have (l : List Output) : ∀ (h : HaveCoins) (d : DustCoins) (s : SelState),
    (l.foldl unoptimizeStep (h, d, s)).1
      = (l.filter (fun c => c.dust = false)).foldl havePush h := by
  induction l with
  | nil =>
    intro h d s
    rfl
  | cons c rest ih =>
    intro h d s
    rw [List.foldl_cons]
    cases hdc : c.dust with
    | true =>
      have hstep : unoptimizeStep (h, d, s) c
          = (h, dustPush d c, { s with used_total := s.used_total - c.amount,
                                       inputs_count := s.inputs_count - 1 }) := by
        unfold unoptimizeStep
        rw [hdc]
        rfl
      rw [hstep, ih]
      have hfil : List.filter (fun c => c.dust = false) (c :: rest)
          = List.filter (fun c => c.dust = false) rest := by
        simp [List.filter_cons, hdc]
      rw [hfil]
    | false =>
      have hstep : unoptimizeStep (h, d, s) c
          = (havePush h c, d, { s with used_total := s.used_total - c.amount,
                                       inputs_count := s.inputs_count - 1 }) := by
        unfold unoptimizeStep
        rw [hdc]
        rfl
      rw [hstep, ih]
      have hfil : List.filter (fun c => c.dust = false) (c :: rest)
          = c :: List.filter (fun c => c.dust = false) rest := by
        simp [List.filter_cons, hdc]
      rw [hfil, List.foldl_cons]

/-- The dust-coins component of the unoptimize fold is the fold of dustPush
over the dust picks, in order. -/
theorem unopt_fold_dust (l : List Output) : ∀ (h : HaveCoins) (d : DustCoins) (s : SelState),
    (l.foldl unoptimizeStep (h, d, s)).2.1
      = (l.filter (fun c => c.dust = true)).foldl dustPush d := by
  induction l with
  | nil =>
    intro h d s
    rfl
  | cons c rest ih =>
    intro h d s
    rw [List.foldl_cons]
    cases hdc : c.dust with
    | true =>
      have hstep : unoptimizeStep (h, d, s) c
          = (h, dustPush d c, { s with used_total := s.used_total - c.amount,
                                       inputs_count := s.inputs_count - 1 }) := by
        unfold unoptimizeStep
        rw [hdc]
        rfl
      rw [hstep, ih]
      have hfil : List.filter (fun c => c.dust = true) (c :: rest)
          = c :: List.filter (fun c => c.dust = true) rest := by
        simp [List.filter_cons, hdc]
      rw [hfil, List.foldl_cons]
    | false =>
      have hstep : unoptimizeStep (h, d, s) c
          = (havePush h c, d, { s with used_total := s.used_total - c.amount,
                                       inputs_count := s.inputs_count - 1 }) := by
        unfold unoptimizeStep
        rw [hdc]
        rfl
      rw [hstep, ih]
      have hfil : List.filter (fun c => c.dust = true) (c :: rest)
          = List.filter (fun c => c.dust = true) rest := by
        simp [List.filter_cons, hdc]
      rw [hfil]

/-- Folding havePush over non-dust coins of positive amount preserves
well-formedness and adds exactly those coins to the flattened content. -/
theorem havePush_fold (l : List Output) : ∀ (h : HaveCoins), HaveWF h →
    (∀ c ∈ l, c.dust = false ∧ 1 ≤ c.amount) →
    HaveWF (l.foldl havePush h) ∧
      List.Perm (haveFlat (l.foldl havePush h)) (haveFlat h ++ l) := by
  induction l with
  | nil =>
    intro h hW _
    exact ⟨hW, by rw [List.foldl_nil, List.append_nil]⟩
  | cons c rest ih =>
    intro h hW hall
    obtain ⟨hd, ha⟩ := hall c (by simp)
    obtain ⟨hW', hperm⟩ := haveWF_push hW hd ha
    obtain ⟨hW2, hperm2⟩ := ih (havePush h c) hW' (fun c' hc' => hall c' (by simp [hc']))
    rw [List.foldl_cons]
    refine ⟨hW2, ?_⟩
    refine hperm2.trans ?_
    refine (hperm.append_right rest).trans ?_
    rw [List.cons_append]
    exact List.perm_middle.symm

/-- Folding dustPush over dust coins of positive amount preserves
well-formedness and adds exactly those coins to the flattened content. -/
theorem dustPush_fold (l : List Output) : ∀ (d : DustCoins), DustWF d →
    (∀ c ∈ l, c.dust = true ∧ 1 ≤ c.amount) →
    DustWF (l.foldl dustPush d) ∧
      List.Perm (stacksFlat (l.foldl dustPush d)) (stacksFlat d ++ l) := by
  induction l with
  | nil =>
    intro d hD _
    exact ⟨hD, by rw [List.foldl_nil, List.append_nil]⟩
  | cons c rest ih =>
    intro d hD hall
    obtain ⟨hd, ha⟩ := hall c (by simp)
    obtain ⟨hD', hperm⟩ := dustWF_push hD hd ha
    obtain ⟨hD2, hperm2⟩ := ih (dustPush d c) hD' (fun c' hc' => hall c' (by simp [hc']))
    rw [List.foldl_cons]
    refine ⟨hD2, ?_⟩
    refine hperm2.trans ?_
    refine (hperm.append_right rest).trans ?_
    rw [List.cons_append]
    exact List.perm_middle.symm

/-- C8: after any sequence of provisional optimizer picks from well-formed
maps with no pending picks, unoptimize_amounts restores used_total and
inputs_count to their pre-pick values, returns each picked coin to
have_coins via havePush (digit and leading-digit keys) if non-dust or to
dust_coins via dustPush (amount key) if dust, empties
optimization_unspents, and the restored maps hold exactly the pre-pick
multisets of coins; combine_optimized_unspents instead appends all
provisional picks to used_unspents and empties optimization_unspents. -/
theorem unoptimize_restores (h0 h : HaveCoins) (d0 d : DustCoins) (s0 s : SelState)
    (hW : HaveWF h0) (hD : DustWF d0) (hopt0 : s0.optimization_unspents = [])
    (hpicks : Picks (h0, d0, s0) (h, d, s)) :
    (unoptimizeAmounts h d s).2.2.used_total = s0.used_total ∧
    (unoptimizeAmounts h d s).2.2.inputs_count = s0.inputs_count ∧
    (unoptimizeAmounts h d s).2.2.optimization_unspents = [] ∧
    (unoptimizeAmounts h d s).2.2.used_unspents = s0.used_unspents ∧
    (unoptimizeAmounts h d s).1
      = (s.optimization_unspents.filter (fun c => c.dust = false)).foldl havePush h ∧
    (unoptimizeAmounts h d s).2.1
      = (s.optimization_unspents.filter (fun c => c.dust = true)).foldl dustPush d ∧
    HaveWF (unoptimizeAmounts h d s).1 ∧
    DustWF (unoptimizeAmounts h d s).2.1 ∧
    (↑(haveFlat (unoptimizeAmounts h d s).1) : Multiset Output) = ↑(haveFlat h0) ∧
    (↑(stacksFlat (unoptimizeAmounts h d s).2.1) : Multiset Output)
      = ↑(stacksFlat d0) ∧
    (combineOptimizedUnspents s).used_unspents
      = s.used_unspents ++ s.optimization_unspents ∧
    (combineOptimizedUnspents s).optimization_unspents = [] := by
  obtain ⟨jW, jD, j1, j2, j3, j4, j5, j6, j7⟩ := picks_inv hW hD hopt0 hpicks
  dsimp only at jW jD j1 j2 j3 j4 j5 j6 j7
  obtain ⟨u1, u2, u3, u4, u5⟩ := unopt_foldl s.optimization_unspents h d s
    s0.used_total s0.inputs_count j3 j4
  have hm1 : (unoptimizeAmounts h d s).1
      = (s.optimization_unspents.filter (fun c => c.dust = false)).foldl havePush h :=
    unopt_fold_have s.optimization_unspents h d s
  have hm2 : (unoptimizeAmounts h d s).2.1
      = (s.optimization_unspents.filter (fun c => c.dust = true)).foldl dustPush d :=
    unopt_fold_dust s.optimization_unspents h d s
  have hflags1 : ∀ c ∈ s.optimization_unspents.filter (fun c => c.dust = false),
      c.dust = false ∧ 1 ≤ c.amount := by
    intro c hc
    have hmem := List.mem_filter.1 hc
    exact ⟨by simpa using hmem.2, j5 c hmem.1⟩
  have hflags2 : ∀ c ∈ s.optimization_unspents.filter (fun c => c.dust = true),
      c.dust = true ∧ 1 ≤ c.amount := by
    intro c hc
    have hmem := List.mem_filter.1 hc
    exact ⟨by simpa using hmem.2, j5 c hmem.1⟩
  obtain ⟨w1, p1⟩ := havePush_fold _ h jW hflags1
  obtain ⟨w2, p2⟩ := dustPush_fold _ d jD hflags2
  refine ⟨u1, u2, rfl, u4.trans j1, hm1, hm2, ?_, ?_, ?_, ?_, rfl, rfl⟩
  · rw [hm1]
    exact w1
  · rw [hm2]
    exact w2
  · rw [hm1]
    refine Multiset.coe_eq_coe.2 ?_
    exact p1.trans j6.symm
  · rw [hm2]
    refine Multiset.coe_eq_coe.2 ?_
    exact p2.trans j7.symm

/-- The have_coins map after popping the single leading-digit-3 coin from
the digit-rounding scenario map. -/
def c8h1 : HaveCoins := [(0, [(7, (List.range 10).map (fun i => mkOut 7 (i + 1) 0))])]

/-- The selector state after that one provisional pick. -/
def c8s1 : SelState := pickCoin initialSelState (mkOut 3 0 0)

/-- C8 witness: the restoration theorem applied after one concrete
provisional pick (the leading-digit-3 coin of the boundary-scenario map). -/
theorem unoptimize_restores_witness :
    (unoptimizeAmounts c8h1 [] c8s1).2.2.used_total = initialSelState.used_total ∧
    (unoptimizeAmounts c8h1 [] c8s1).2.2.inputs_count = initialSelState.inputs_count ∧
    (unoptimizeAmounts c8h1 [] c8s1).2.2.optimization_unspents = [] ∧
    (unoptimizeAmounts c8h1 [] c8s1).2.2.used_unspents
      = initialSelState.used_unspents ∧
    (unoptimizeAmounts c8h1 [] c8s1).1
      = (c8s1.optimization_unspents.filter (fun c => c.dust = false)).foldl
          havePush c8h1 ∧
    (unoptimizeAmounts c8h1 [] c8s1).2.1
      = (c8s1.optimization_unspents.filter (fun c => c.dust = true)).foldl
          dustPush [] ∧
    HaveWF (unoptimizeAmounts c8h1 [] c8s1).1 ∧
    DustWF (unoptimizeAmounts c8h1 [] c8s1).2.1 ∧
    (↑(haveFlat (unoptimizeAmounts c8h1 [] c8s1).1) : Multiset Output)
      = ↑(haveFlat c7have) ∧
    (↑(stacksFlat (unoptimizeAmounts c8h1 [] c8s1).2.1) : Multiset Output)
      = ↑(stacksFlat ([] : DustCoins)) ∧
    (combineOptimizedUnspents c8s1).used_unspents
      = c8s1.used_unspents ++ c8s1.optimization_unspents ∧
    (combineOptimizedUnspents c8s1).optimization_unspents = [] :=
  unoptimize_restores c7have c8h1 [] [] initialSelState c8s1 (by decide) (by decide)
    rfl (Relation.ReflTransGen.single
      (@PickStep.fromHave c7have [] initialSelState 0 3 (mkOut 3 0 0) c8h1 (by decide)))

/-! Conservation of coin content through the selection phases. -/

theorem amtSum_perm {l l' : List Output} (h : List.Perm l l') : amtSum l = amtSum l' := by
  unfold amtSum
  exact (h.map Output.amount).sum_eq

theorem amtSum_filter_dust (l : List Output) :
    amtSum l = amtSum (l.filter (fun c => c.dust = false))
      + amtSum (l.filter (fun c => c.dust = true)) := by
  induction l with
  | nil => rfl
  | cons c rest ih =>
    cases hdc : c.dust with
    | true =>
      have h1 : List.filter (fun c => c.dust = false) (c :: rest)
          = List.filter (fun c => c.dust = false) rest := by
        simp [List.filter_cons, hdc]
      have h2 : List.filter (fun c => c.dust = true) (c :: rest)
          = c :: List.filter (fun c => c.dust = true) rest := by
        simp [List.filter_cons, hdc]
      rw [amtSum_cons, h1, h2, amtSum_cons, ih]
      omega
    | false =>
      have h1 : List.filter (fun c => c.dust = false) (c :: rest)
          = c :: List.filter (fun c => c.dust = false) rest := by
        simp [List.filter_cons, hdc]
      have h2 : List.filter (fun c => c.dust = true) (c :: rest)
          = List.filter (fun c => c.dust = true) rest := by
        simp [List.filter_cons, hdc]
      rw [amtSum_cons, h1, h2, amtSum_cons, ih]
      omega

theorem foldl_pick_fields (l : List Output) : ∀ s : SelState,
    (l.foldl pickCoin s).used_total = s.used_total + amtSum l ∧
    (l.foldl pickCoin s).inputs_count = s.inputs_count + l.length ∧
    (l.foldl pickCoin s).optimization_unspents = s.optimization_unspents ++ l ∧
    (l.foldl pickCoin s).used_unspents = s.used_unspents ∧
    (l.foldl pickCoin s).ra_amounts = s.ra_amounts := by
  induction l with
  | nil =>
    intro s
    refine ⟨?_, ?_, ?_, rfl, rfl⟩
    · rw [List.foldl_nil, amtSum_nil]
      omega
    · rfl
    · rw [List.foldl_nil, List.append_nil]
  | cons c rest ih =>
    intro s
    rw [List.foldl_cons]
    obtain ⟨i1, i2, i3, i4, i5⟩ := ih (pickCoin s c)
    refine ⟨?_, ?_, ?_, i4, i5⟩
    · rw [i1, amtSum_cons]
      show _ = s.used_total + (c.amount + amtSum rest)
      unfold pickCoin
      dsimp only
      omega
    · rw [i2]
      show s.inputs_count + 1 + rest.length = _
      rw [List.length_cons]
      omega
    · rw [i3]
      show s.optimization_unspents ++ [c] ++ rest = _
      rw [List.append_assoc]
      rfl

theorem perm_self_append_eq_nil {l x : List Output} (h : List.Perm l (l ++ x)) : x = [] := by
  have hlen := h.length_eq
  rw [List.length_append] at hlen
  cases x with
  | nil => rfl
  | cons a y => simp at hlen

/-- The usable pool of the inner selector: non-dust coins always, the dust
pool only when anonymity is zero. -/
def usableSum (anonymity : ℕ) (h : HaveCoins) (d : DustCoins) : ℕ :=
  amtSum (haveFlat h) + (if anonymity = 0 then amtSum (stacksFlat d) else 0)

/-- Rolling back at a PicksInv state restores counters and contents to the
base and re-establishes the invariant with no pending picks. -/
theorem unoptimize_of_picksInv {h0 : HaveCoins} {d0 : DustCoins} {s0 : SelState}
    {h : HaveCoins} {d : DustCoins} {s : SelState}
    (hJ : PicksInv h0 d0 s0 (h, d, s)) :
    (unoptimizeAmounts h d s).2.2.used_total = s0.used_total ∧
    (unoptimizeAmounts h d s).2.2.inputs_count = s0.inputs_count ∧
    (unoptimizeAmounts h d s).2.2.optimization_unspents = [] ∧
    (unoptimizeAmounts h d s).2.2.used_unspents = s0.used_unspents ∧
    (unoptimizeAmounts h d s).2.2.ra_amounts = s0.ra_amounts ∧
    List.Perm (haveFlat (unoptimizeAmounts h d s).1) (haveFlat h0) ∧
    List.Perm (stacksFlat (unoptimizeAmounts h d s).2.1) (stacksFlat d0) ∧
    PicksInv h0 d0 s0
      ((unoptimizeAmounts h d s).1, (unoptimizeAmounts h d s).2.1,
        (unoptimizeAmounts h d s).2.2) := by
  obtain ⟨jW, jD, j1, j2, j3, j4, j5, j6, j7⟩ := hJ
  dsimp only at jW jD j1 j2 j3 j4 j5 j6 j7
  obtain ⟨u1, u2, u3, u4, u5⟩ := unopt_foldl s.optimization_unspents h d s
    s0.used_total s0.inputs_count j3 j4
  have hm1 : (unoptimizeAmounts h d s).1
      = (s.optimization_unspents.filter (fun c => c.dust = false)).foldl havePush h :=
    unopt_fold_have s.optimization_unspents h d s
  have hm2 : (unoptimizeAmounts h d s).2.1
      = (s.optimization_unspents.filter (fun c => c.dust = true)).foldl dustPush d :=
    unopt_fold_dust s.optimization_unspents h d s
  have hflags1 : ∀ c ∈ s.optimization_unspents.filter (fun c => c.dust = false),
      c.dust = false ∧ 1 ≤ c.amount := by
    intro c hc
    have hmem := List.mem_filter.1 hc
    exact ⟨by simpa using hmem.2, j5 c hmem.1⟩
  have hflags2 : ∀ c ∈ s.optimization_unspents.filter (fun c => c.dust = true),
      c.dust = true ∧ 1 ≤ c.amount := by
    intro c hc
    have hmem := List.mem_filter.1 hc
    exact ⟨by simpa using hmem.2, j5 c hmem.1⟩
  obtain ⟨w1, p1⟩ := havePush_fold _ h jW hflags1
  obtain ⟨w2, p2⟩ := dustPush_fold _ d jD hflags2
  have hph : List.Perm (haveFlat (unoptimizeAmounts h d s).1) (haveFlat h0) := by
    rw [hm1]
    exact p1.trans j6.symm
  have hpd : List.Perm (stacksFlat (unoptimizeAmounts h d s).2.1) (stacksFlat d0) := by
    rw [hm2]
    exact p2.trans j7.symm
  have v1 : (unoptimizeAmounts h d s).2.2.used_total = s0.used_total := u1
  have v2 : (unoptimizeAmounts h d s).2.2.inputs_count = s0.inputs_count := u2
  have v3 : (unoptimizeAmounts h d s).2.2.optimization_unspents = [] := rfl
  have v4 : (unoptimizeAmounts h d s).2.2.used_unspents = s.used_unspents := u4
  have v5 : (unoptimizeAmounts h d s).2.2.ra_amounts = s.ra_amounts := u5
  refine ⟨v1, v2, v3, v4.trans j1, v5.trans j2, hph, hpd, ?_⟩
  refine ⟨?_, ?_, ?_, ?_, ?_, ?_, ?_, ?_, ?_⟩
  · rw [hm1]
    exact w1
  · rw [hm2]
    exact w2
  · exact v4.trans j1
  · exact v5.trans j2
  · dsimp only
    rw [v1, v3, amtSum_nil]
    omega
  · dsimp only
    rw [v2, v3]
    rfl
  · intro c hc
    dsimp only at hc
    rw [v3] at hc
    exact absurd hc (List.not_mem_nil c)
  · dsimp only
    rw [v3, List.filter_nil, List.append_nil]
    exact hph.symm
  · dsimp only
    rw [v3, List.filter_nil, List.append_nil]
    exact hpd.symm

/-! Every selection phase is a sequence of provisional picks: the invariant
is preserved from the inner entry through each phase. -/

theorem picksInv_dustCover {h0 : HaveCoins} {d0 : DustCoins} {s0 : SelState}
    {total : ℕ} {h : HaveCoins} {d : DustCoins} {s : SelState}
    (hJ : PicksInv h0 d0 s0 (h, d, s)) :
    PicksInv h0 d0 s0 (h, (dustCoverSingle total d s).1, (dustCoverSingle total d s).2) := by
  unfold dustCoverSingle
  by_cases hu : s.used_total < total
  · rw [if_pos hu]
    cases hlb : alLowerBound (total - s.used_total) d with
    | none => exact hJ
    | some kv =>
      obtain ⟨k, st⟩ := kv
      dsimp only
      cases hp : stacksPopAt d k with
      | none => exact hJ
      | some cd =>
        obtain ⟨c, d'⟩ := cd
        exact picksInv_step hJ (PickStep.fromDust hp)
  · rw [if_neg hu]
    exact hJ

theorem picksInv_dustFillGo {h0 : HaveCoins} {d0 : DustCoins} {s0 : SelState}
    (total : ℕ) : ∀ (fuel cnt : ℕ) (d : DustCoins) (s : SelState) (h : HaveCoins),
    PicksInv h0 d0 s0 (h, d, s) →
    PicksInv h0 d0 s0
      (h, (dustFillGo total fuel cnt d s).2.1, (dustFillGo total fuel cnt d s).2.2) := by
  intro fuel
  induction fuel with
  | zero => intro cnt d s h hJ; exact hJ
  | succ f ih =>
    intro cnt d s h hJ
    unfold dustFillGo
    by_cases hc : s.used_total < total ∧ d ≠ [] ∧ 1 ≤ cnt
    · rw [if_pos hc]
      cases hl : d.getLast? with
      | none => exact hJ
      | some kv =>
        obtain ⟨k, st⟩ := kv
        dsimp only
        cases hp : stacksPopAt d k with
        | none => exact hJ
        | some cd =>
          obtain ⟨c, d'⟩ := cd
          exact ih (cnt - 1) d' (pickCoin s c) h (picksInv_step hJ (PickStep.fromDust hp))
    · rw [if_neg hc]
      exact hJ

theorem picksInv_optDigitStep {h0 : HaveCoins} {d0 : DustCoins} {s0 : SelState}
    {total digit : ℕ} {h : HaveCoins} {d : DustCoins} {s : SelState}
    (hJ : PicksInv h0 d0 s0 (h, d, s)) :
    PicksInv h0 d0 s0
      ((optDigitStep total digit h s).1, d, (optDigitStep total digit h s).2) := by
  unfold optDigitStep
  cases hf : alFind digit h with
  | none => exact hJ
  | some es =>
    dsimp only
    by_cases hbp : (bestPair es (amCode total s.used_total (10 ^ digit))).1 ≠ 0
    · rw [if_pos hbp]
      cases hp1 : havePopAt h digit (bestPair es (amCode total s.used_total (10 ^ digit))).2.1 with
      | none => exact hJ
      | some ch =>
        obtain ⟨c1, h1⟩ := ch
        dsimp only
        have hJ1 := picksInv_step hJ (PickStep.fromHave hp1)
        cases hp2 : havePopAt h1 digit
            (bestPair es (amCode total s.used_total (10 ^ digit))).2.2 with
        | none => exact hJ1
        | some ch2 =>
          obtain ⟨c2, h2⟩ := ch2
          exact picksInv_step hJ1 (PickStep.fromHave hp2)
    · rw [if_neg hbp]
      by_cases ham : amCode total s.used_total (10 ^ digit) = 10
      · rw [if_pos ham]
        exact hJ
      · rw [if_neg ham]
        by_cases hbs : singleSearch (amCode total s.used_total (10 ^ digit)) es 0 0 ≠ 0
        · rw [if_pos hbs]
          cases hp : havePopAt h digit
              (singleSearch (amCode total s.used_total (10 ^ digit)) es 0 0) with
          | none => exact hJ
          | some ch =>
            obtain ⟨c, h1⟩ := ch
            exact picksInv_step hJ (PickStep.fromHave hp)
        · rw [if_neg hbs]
          exact hJ

theorem picksInv_optAmountsGo {h0 : HaveCoins} {d0 : DustCoins} {s0 : SelState}
    (total : ℕ) : ∀ (fuel digit : ℕ) (h : HaveCoins) (s : SelState) (d : DustCoins),
    PicksInv h0 d0 s0 (h, d, s) →
    PicksInv h0 d0 s0
      ((optAmountsGo total fuel digit h s).1, d, (optAmountsGo total fuel digit h s).2) := by
  intro fuel
  induction fuel with
  | zero => intro digit h s d hJ; exact hJ
  | succ f ih =>
    intro digit h s d hJ
    unfold optAmountsGo
    by_cases hc : total ≤ s.used_total ∧ s.used_total < 10 ^ digit
    · rw [if_pos hc]
      exact hJ
    · rw [if_neg hc]
      dsimp only
      exact ih (digit + 1) _ _ d (picksInv_optDigitStep hJ)

theorem picksInv_singleLargeGo {h0 : HaveCoins} {d0 : DustCoins} {s0 : SelState}
    (total : ℕ) : ∀ (fuel digit : ℕ) (h : HaveCoins) (s : SelState) (d : DustCoins),
    PicksInv h0 d0 s0 (h, d, s) →
    PicksInv h0 d0 s0
      ((singleLargeGo total fuel digit h s).1, d, (singleLargeGo total fuel digit h s).2) := by
  intro fuel
  induction fuel with
  | zero => intro digit h s d hJ; exact hJ
  | succ f ih =>
    intro digit h s d hJ
    unfold singleLargeGo
    cases hf : alFind digit h with
    | none => exact ih (digit + 1) h s d hJ
    | some es =>
      dsimp only
      cases hfind : es.find? (fun a => ¬ a.2.isEmpty
          ∧ total - s.used_total ≤ a.1 * 10 ^ digit) with
      | none => exact ih (digit + 1) h s d hJ
      | some a =>
        obtain ⟨lead, st⟩ := a
        dsimp only
        cases hp : havePopAt h digit lead with
        | none => exact hJ
        | some ch =>
          obtain ⟨c, h1⟩ := ch
          exact picksInv_step hJ (PickStep.fromHave hp)

theorem picksInv_popTen {h0 : HaveCoins} {d0 : DustCoins} {s0 : SelState}
    {h : HaveCoins} {d : DustCoins} {s : SelState} {w dg ld : ℕ}
    (hJ : PicksInv h0 d0 s0 (h, d, s)) (hscan : bestStackScan h = (w, some (dg, ld))) :
    PicksInv h0 d0 s0 ((popTenFrom h dg ld s).1, d, (popTenFrom h dg ld s).2) := by
  obtain ⟨jW, jD, j1, j2, j3, j4, j5, j6, j7⟩ := hJ
  dsimp only at jW jD j1 j2 j3 j4 j5 j6 j7
  obtain ⟨es, st, hf, hf2, hlen, heq, hlen10, hdne⟩ := popTen_spec jW hscan
  rw [heq]
  dsimp only
  obtain ⟨hks, hall⟩ := jW
  have hmem : (dg, es) ∈ h := mem_of_alFind_some hf
  obtain ⟨hesne, hkes, hesok⟩ := hall _ hmem
  have hmem2 : (ld, st) ∈ es := mem_of_alFind_some hf2
  have hstok := (hesok _ hmem2).2
  have hcoin : ∀ c ∈ st, c.dust = false ∧ digitOf c.amount = dg ∧
      leadOf c.amount = ld ∧ 1 ≤ c.amount := hstok
  have htake : ∀ c ∈ st.take 10, c.dust = false ∧ 1 ≤ c.amount := fun c hc =>
    ⟨(hcoin c (List.take_subset 10 st hc)).1, (hcoin c (List.take_subset 10 st hc)).2.2.2⟩
  have hW' : HaveWF (alUpdate dg (fun _ => alUpdate ld (fun _ => st.drop 10) es) h) := by
    refine ⟨ksorted_alUpdate _ hks, ?_⟩
    intro e he
    rcases mem_alUpdate hks he with rfl | he2
    · refine ⟨alUpdate_ne_nil _ _ _, ksorted_alUpdate _ hkes, ?_⟩
      intro a ha
      rcases mem_alUpdate hkes ha with rfl | ha2
      · refine ⟨hdne, ?_⟩
        intro c hc
        have hcm := hcoin c (List.drop_subset 10 st hc)
        exact ⟨hcm.1, hcm.2.1, hcm.2.2.1, hcm.2.2.2⟩
      · exact hesok a ha2
    · exact hall e he2
  have p1 : List.Perm (haveFlat h) (stacksFlat es ++ haveFlat (alErase dg h)) := by
    have hx := haveFlat_perm (perm_cons_erase_of_alFind hf)
    rw [haveFlat_cons] at hx
    exact hx
  have p2 : List.Perm (stacksFlat es) (st ++ stacksFlat (alErase ld es)) := by
    have hx := stacksFlat_perm (perm_cons_erase_of_alFind hf2)
    rw [stacksFlat_cons] at hx
    exact hx
  have p3 : List.Perm (haveFlat (alUpdate dg (fun _ => alUpdate ld (fun _ => st.drop 10) es) h))
      (stacksFlat (alUpdate ld (fun _ => st.drop 10) es) ++ haveFlat (alErase dg h)) := by
    have hx := haveFlat_perm
      (alUpdate_perm_replace (fun _ => alUpdate ld (fun _ => st.drop 10) es) hks hf)
    rw [haveFlat_cons] at hx
    exact hx
  have p4 : List.Perm (stacksFlat (alUpdate ld (fun _ => st.drop 10) es))
      (st.drop 10 ++ stacksFlat (alErase ld es)) := by
    have hx := stacksFlat_perm (alUpdate_perm_replace (fun _ => st.drop 10) hkes hf2)
    rw [stacksFlat_cons] at hx
    exact hx
  have hperm : List.Perm (haveFlat h)
      (st.take 10 ++ haveFlat (alUpdate dg (fun _ => alUpdate ld (fun _ => st.drop 10) es) h)) := by
    refine p1.trans ?_
    refine (p2.append_right _).trans ?_
    have hst : st = st.take 10 ++ st.drop 10 := (List.take_append_drop 10 st).symm
    conv_lhs => rw [hst]
    rw [List.append_assoc (st.take 10), List.append_assoc (st.take 10)]
    exact List.Perm.append_left _ ((p3.trans (p4.append_right _)).symm)
  obtain ⟨q1, q2, q3, q4, q5⟩ := foldl_pick_fields (st.take 10) s
  refine ⟨hW', jD, ?_, ?_, ?_, ?_, ?_, ?_, ?_⟩
  · dsimp only
    rw [q4]
    exact j1
  · dsimp only
    rw [q5]
    exact j2
  · dsimp only
    rw [q1, q3, j3, amtSum_append]
    omega
  · dsimp only
    rw [q2, q3, List.length_append, j4]
    omega
  · intro c hc
    dsimp only at hc
    rw [q3] at hc
    rcases List.mem_append.1 hc with hx | hx
    · exact j5 c hx
    · exact (htake c hx).2
  · dsimp only
    rw [q3, List.filter_append]
    have hfeq : List.filter (fun c => c.dust = false) (st.take 10) = st.take 10 :=
      List.filter_eq_self.2 (fun c hc => by simp [(htake c hc).1])
    rw [hfeq]
    refine j6.trans ?_
    refine (hperm.append_right _).trans ?_
    rw [List.append_assoc]
    refine (List.perm_append_comm).trans ?_
    rw [List.append_assoc]
  · dsimp only
    rw [q3, List.filter_append]
    have hfeq : List.filter (fun c => c.dust = true) (st.take 10) = [] :=
      List.filter_eq_nil_iff.2 (fun c hc => by simp [(htake c hc).1])
    rw [hfeq, List.append_nil]
    exact j7

theorem picksInv_stackLoopGo {h0 : HaveCoins} {d0 : DustCoins} {s0 : SelState} :
    ∀ (fuel cnt : ℕ) (h : HaveCoins) (s : SelState) (d : DustCoins),
    PicksInv h0 d0 s0 (h, d, s) →
    PicksInv h0 d0 s0
      ((stackLoopGo fuel cnt h s).2.1, d, (stackLoopGo fuel cnt h s).2.2) := by
  intro fuel
  induction fuel with
  | zero => intro cnt h s d hJ; exact hJ
  | succ f ih =>
    intro cnt h s d hJ
    unfold stackLoopGo
    by_cases hc : 10 ≤ cnt
    · rw [if_pos hc]
      cases hb : bestStackScan h with
      | mk w o =>
        cases o with
        | none => exact hJ
        | some dl =>
          obtain ⟨dg, ld⟩ := dl
          dsimp only
          exact ih (cnt - 10) (popTenFrom h dg ld s).1 (popTenFrom h dg ld s).2 d
            (picksInv_popTen hJ hb)
    · rw [if_neg hc]
      exact hJ

theorem mem_of_getLast?_eq {α : Type} {l : List α} {a : α}
    (hq : l.getLast? = some a) : a ∈ l := by
  obtain ⟨hne, heq⟩ := List.mem_getLast?_eq_getLast (show a ∈ l.getLast? from hq)
  rw [heq]
  exact List.getLast_mem hne

/-- On a well-formed non-empty have_coins map the filler pop always
succeeds, popping exactly the coin reported by haveLastCoin. -/
theorem haveLast_pop {h : HaveCoins} (hW : HaveWF h) (hne : h ≠ []) :
    ∃ c h', haveLastCoin h = some c ∧ popLastHave h = some (c, h') ∧ 1 ≤ c.amount := by
  obtain ⟨hks, hall⟩ := hW
  cases hq : h.getLast? with
  | none =>
    exfalso
    rw [List.getLast?_eq_none_iff] at hq
    exact hne hq
  | some e =>
    obtain ⟨dg, es⟩ := e
    have hmem : (dg, es) ∈ h := mem_of_getLast?_eq hq
    obtain ⟨hesne, hkes, hesok⟩ := hall _ hmem
    cases hq2 : es.getLast? with
    | none =>
      exfalso
      rw [List.getLast?_eq_none_iff] at hq2
      exact hesne hq2
    | some a =>
      obtain ⟨ld, st⟩ := a
      have hmem2 : (ld, st) ∈ es := mem_of_getLast?_eq hq2
      obtain ⟨hstne, hstok⟩ := hesok _ hmem2
      cases st with
      | nil => exact absurd rfl hstne
      | cons c st2 =>
        have hfd : alFind dg h = some es := alFind_of_mem_ksorted hks hmem
        have hfl : alFind ld es = some (c :: st2) := alFind_of_mem_ksorted hkes hmem2
        have hsp := stacksPopAt_eq hfl
        have hpop := havePopAt_eq hfd hsp
        have hpl : popLastHave h = havePopAt h dg ld := by
          unfold popLastHave
          rw [hq]
          dsimp only
          rw [hq2]
        refine ⟨c, _, ?_, hpl.trans hpop, (hstok c (by simp)).2.2.2⟩
        unfold haveLastCoin
        rw [hq, Option.some_bind]
        dsimp only
        rw [hq2, Option.some_bind]
        rfl

/-- On a well-formed non-empty dust_coins map the filler pop always
succeeds, popping exactly the coin reported by dustLastCoin. -/
theorem dustLast_pop {d : DustCoins} (hD : DustWF d) (hne : d ≠ []) :
    ∃ c d', dustLastCoin d = some c ∧ popLastDust d = some (c, d') ∧ 1 ≤ c.amount := by
  obtain ⟨hks, hall⟩ := hD
  cases hq : d.getLast? with
  | none =>
    exfalso
    rw [List.getLast?_eq_none_iff] at hq
    exact hne hq
  | some e =>
    obtain ⟨k, st⟩ := e
    have hmem : (k, st) ∈ d := mem_of_getLast?_eq hq
    obtain ⟨hstne, hstok⟩ := hall _ hmem
    cases st with
    | nil => exact absurd rfl hstne
    | cons c st2 =>
      have hfl : alFind k d = some (c :: st2) := alFind_of_mem_ksorted hks hmem
      have hsp := stacksPopAt_eq hfl
      have hpl : popLastDust d = stacksPopAt d k := by
        unfold popLastDust
        rw [hq]
      refine ⟨c, _, ?_, hpl.trans hsp, (hstok c (by simp)).2.2⟩
      unfold dustLastCoin
      rw [hq, Option.some_bind]
      rfl

theorem popLastHave_pop {h : HaveCoins} {c : Output} {h' : HaveCoins}
    (hp : popLastHave h = some (c, h')) :
    ∃ dg ld, havePopAt h dg ld = some (c, h') := by
  unfold popLastHave at hp
  cases hq : h.getLast? with
  | none => rw [hq] at hp; cases hp
  | some e =>
    obtain ⟨dg, es⟩ := e
    rw [hq] at hp
    dsimp only at hp
    cases hq2 : es.getLast? with
    | none => rw [hq2] at hp; cases hp
    | some a =>
      obtain ⟨ld, st⟩ := a
      rw [hq2] at hp
      exact ⟨dg, ld, hp⟩

theorem popLastDust_pop {d : DustCoins} {c : Output} {d' : DustCoins}
    (hp : popLastDust d = some (c, d')) :
    ∃ k, stacksPopAt d k = some (c, d') := by
  unfold popLastDust at hp
  cases hq : d.getLast? with
  | none => rw [hq] at hp; cases hp
  | some e =>
    obtain ⟨k, st⟩ := e
    rw [hq] at hp
    exact ⟨k, hp⟩

/-- The filler loop, run with enough fuel from an invariant state, preserves
the invariant and fails exactly when even consuming the whole usable content
(dust only when anonymity is zero) leaves it short of the target. -/
theorem fillerGo_char {h0 : HaveCoins} {d0 : DustCoins} {s0 : SelState}
    (anonymity total : ℕ) : ∀ (fuel : ℕ) (h : HaveCoins) (d : DustCoins) (s : SelState),
    PicksInv h0 d0 s0 (h, d, s) →
    haveCount h + dustCount d < fuel →
    PicksInv h0 d0 s0 ((fillerGo anonymity total fuel h d s).2.1,
      (fillerGo anonymity total fuel h d s).2.2.1,
      (fillerGo anonymity total fuel h d s).2.2.2) ∧
    ((fillerGo anonymity total fuel h d s).1 = false ↔
      s.used_total + amtSum (haveFlat h)
        + (if anonymity = 0 then amtSum (stacksFlat d) else 0) < total) := by
  intro fuel
  induction fuel with
  | zero =>
    intro h d s hJ hfu
    exact absurd hfu (by omega)
  | succ f ih =>
    intro h d s hJ hfu
    unfold fillerGo
    by_cases hc1 : total ≤ s.used_total
    · rw [if_pos hc1]
      refine ⟨hJ, ?_⟩
      constructor
      · intro hx
        exact Bool.noConfusion hx
      · intro hlt
        exact absurd hlt (by omega)
    · rw [if_neg hc1]
      by_cases hc2 : h = [] ∧ (anonymity ≠ 0 ∨ d = [])
      · rw [if_pos hc2]
        refine ⟨hJ, ?_⟩
        constructor
        · intro hx2
          obtain ⟨hh, hrest⟩ := hc2
          subst hh
          show s.used_total + amtSum (haveFlat ([] : HaveCoins)) + _ < total
          have hhf : haveFlat ([] : HaveCoins) = [] := rfl
          rw [hhf, amtSum_nil]
          rcases hrest with han | hd
          · rw [if_neg han]
            omega
          · subst hd
            have hdf : stacksFlat ([] : DustCoins) = [] := rfl
            rw [hdf, amtSum_nil]
            by_cases han : anonymity = 0
            · rw [if_pos han]
              omega
            · rw [if_neg han]
              omega
        · intro hx2
          rfl
      · rw [if_neg hc2]
        dsimp only
        by_cases hc3 : (if anonymity = 0 then
            (match dustLastCoin d with | some c => c.amount | none => 0) else 0) <
            (match haveLastCoin h with | some c => c.amount | none => 0)
        · rw [if_pos hc3]
          have jW : HaveWF h := hJ.1
          have hhne : h ≠ [] := by
            intro hh
            subst hh
            simp [haveLastCoin] at hc3
          obtain ⟨c, h', hlast, hpop, hca⟩ := haveLast_pop jW hhne
          rw [hpop]
          dsimp only
          obtain ⟨dg, ld, hpopAt⟩ := popLastHave_pop hpop
          have hJ2 := picksInv_step hJ (PickStep.fromHave hpopAt)
          have hWspec := haveWF_popAt jW hpopAt
          have hcnt : haveCount h' + 1 = haveCount h := by
            rw [haveCount_eq, haveCount_eq]
            have hle := hWspec.2.1.length_eq
            rw [List.length_cons] at hle
            omega
          have hsum : amtSum (haveFlat h) = c.amount + amtSum (haveFlat h') := by
            have hx := amtSum_perm hWspec.2.1
            rw [amtSum_cons] at hx
            exact hx
          obtain ⟨ih1, ih2⟩ := ih h' d (pickCoin s c) hJ2 (by omega)
          refine ⟨ih1, ?_⟩
          rw [ih2]
          have hpu := pickCoin_used s c
          constructor
          · intro hx
            omega
          · intro hx
            omega
        · rw [if_neg hc3]
          have jW : HaveWF h := hJ.1
          have jD : DustWF d := hJ.2.1
          have hdne : anonymity = 0 ∧ d ≠ [] := by
            by_cases hh : h = []
            · constructor
              · by_contra han
                exact hc2 ⟨hh, Or.inl han⟩
              · intro hd
                exact hc2 ⟨hh, Or.inr hd⟩
            · obtain ⟨c, h', hlast, -, hca⟩ := haveLast_pop jW hh
              rw [hlast] at hc3
              by_cases han : anonymity = 0
              · refine ⟨han, ?_⟩
                rw [if_pos han] at hc3
                intro hd
                subst hd
                simp [dustLastCoin] at hc3
                omega
              · exfalso
                rw [if_neg han] at hc3
                dsimp only at hc3
                omega
          obtain ⟨han, hdn⟩ := hdne
          obtain ⟨c, d', hlast, hpop, hca⟩ := dustLast_pop jD hdn
          rw [hpop]
          dsimp only
          obtain ⟨k, hpopAt⟩ := popLastDust_pop hpop
          have hJ2 := picksInv_step hJ (PickStep.fromDust hpopAt)
          have hDspec := dustWF_popAt jD hpopAt
          have hcnt : dustCount d' + 1 = dustCount d := by
            rw [dustCount_eq, dustCount_eq]
            have hle := hDspec.2.1.length_eq
            rw [List.length_cons] at hle
            omega
          have hsum : amtSum (stacksFlat d) = c.amount + amtSum (stacksFlat d') := by
            have hx := amtSum_perm hDspec.2.1
            rw [amtSum_cons] at hx
            exact hx
          obtain ⟨ih1, ih2⟩ := ih h d' (pickCoin s c) hJ2 (by omega)
          refine ⟨ih1, ?_⟩
          rw [ih2]
          rw [if_pos han, if_pos han]
          have hpu := pickCoin_used s c
          constructor
          · intro hx
            omega
          · intro hx
            omega

/-- The inner selector preserves the pick invariant from its entry state and
returns false exactly when even the whole usable pool (non-dust coins, plus
dust only when anonymity is zero) added to the entry used_total stays below
the target. -/
theorem selectInner_char (anonymity max_digit total cnt : ℕ) (h : HaveCoins)
    (d : DustCoins) (s : SelState) (hW : HaveWF h) (hD : DustWF d)
    (hopt : s.optimization_unspents = []) :
    PicksInv h d s ((selectInner anonymity max_digit total cnt h d s).2.1,
      (selectInner anonymity max_digit total cnt h d s).2.2.1,
      (selectInner anonymity max_digit total cnt h d s).2.2.2) ∧
    ((selectInner anonymity max_digit total cnt h d s).1 = false ↔
      s.used_total + usableSum anonymity h d < total) := by
  have hJ0 : PicksInv h d s (h, d, s) := picksInv_init hW hD hopt
  have hbound : ∀ t : HaveCoins × DustCoins × SelState, PicksInv h d s t →
      (anonymity ≠ 0 → t.2.1 = d) →
      t.2.2.used_total ≤ s.used_total + usableSum anonymity h d := by
    intro t hJt htd
    obtain ⟨-, -, -, -, j3, -, -, j6, j7⟩ := hJt
    have h6 : amtSum (haveFlat h) = amtSum (haveFlat t.1)
        + amtSum (t.2.2.optimization_unspents.filter (fun c => c.dust = false)) := by
      rw [amtSum_perm j6, amtSum_append]
    have hsplit := amtSum_filter_dust t.2.2.optimization_unspents
    unfold usableSum
    by_cases han : anonymity = 0
    · rw [if_pos han]
      have h7 : amtSum (stacksFlat d) = amtSum (stacksFlat t.2.1)
          + amtSum (t.2.2.optimization_unspents.filter (fun c => c.dust = true)) := by
        rw [amtSum_perm j7, amtSum_append]
      omega
    · rw [if_neg han]
      have htd2 := htd han
      rw [htd2] at j7
      have hnil := perm_self_append_eq_nil j7
      rw [hnil, amtSum_nil] at hsplit
      omega
  unfold selectInner
  set dc := if anonymity = 0 then dustCoverSingle total d s else (d, s) with hdc
  have hJdc : PicksInv h d s (h, dc.1, dc.2) := by
    rw [hdc]
    by_cases ha : anonymity = 0
    · rw [if_pos ha]
      exact picksInv_dustCover hJ0
    · rw [if_neg ha]
      exact hJ0
  set df := if anonymity = 0 then dustFillLoop total cnt dc.1 dc.2
    else (cnt, dc.1, dc.2) with hdf
  have hJdf : PicksInv h d s (h, df.2.1, df.2.2) := by
    rw [hdf]
    by_cases ha : anonymity = 0
    · rw [if_pos ha]
      unfold dustFillLoop
      exact picksInv_dustFillGo total cnt cnt dc.1 dc.2 h hJdc
    · rw [if_neg ha]
      exact hJdc
  have hdfd : anonymity ≠ 0 → df.2.1 = d := by
    intro han
    rw [hdf, if_neg han]
    dsimp only
    rw [hdc, if_neg han]
  set sl := stackLoop df.1 h df.2.2 with hsl
  have hJsl : PicksInv h d s (sl.2.1, df.2.1, sl.2.2) := by
    rw [hsl]
    unfold stackLoop
    exact picksInv_stackLoopGo df.1 df.1 h df.2.2 df.2.1 hJdf
  set oa := optimizeAmounts sl.2.1 max_digit total sl.2.2 with hoa
  have hJoa : PicksInv h d s (oa.1, df.2.1, oa.2) := by
    rw [hoa]
    unfold optimizeAmounts
    exact picksInv_optAmountsGo total (max_digit + 1) 0 sl.2.1 sl.2.2 df.2.1 hJsl
  by_cases hc1 : total ≤ oa.2.used_total
  · rw [if_pos hc1]
    refine ⟨hJoa, ?_⟩
    constructor
    · intro hx
      exact Bool.noConfusion hx
    · intro hlt
      exfalso
      have hb := hbound (oa.1, df.2.1, oa.2) hJoa (fun han => hdfd han)
      dsimp only at hb
      omega
  · rw [if_neg hc1]
    set slg := singleLargeGo total (max_digit + 1) 0 oa.1 oa.2 with hslg
    have hJslg : PicksInv h d s (slg.1, df.2.1, slg.2) := by
      rw [hslg]
      exact picksInv_singleLargeGo total (max_digit + 1) 0 oa.1 oa.2 df.2.1 hJoa
    by_cases hc2 : total ≤ slg.2.used_total
    · rw [if_pos hc2]
      refine ⟨hJslg, ?_⟩
      constructor
      · intro hx
        exact Bool.noConfusion hx
      · intro hlt
        exfalso
        have hb := hbound (slg.1, df.2.1, slg.2) hJslg (fun han => hdfd han)
        dsimp only at hb
        omega
    · rw [if_neg hc2]
      set uo := unoptimizeAmounts slg.1 df.2.1 slg.2 with huo
      have huospec := unoptimize_of_picksInv hJslg
      rw [← huo] at huospec
      obtain ⟨v1, v2, v3, v4, v5, vph, vpd, hJuo⟩ := huospec
      set fl := fillerGo anonymity total (haveCount uo.1 + dustCount uo.2.1 + 1)
        uo.1 uo.2.1 uo.2.2 with hfl
      have hfc := fillerGo_char anonymity total (haveCount uo.1 + dustCount uo.2.1 + 1)
        uo.1 uo.2.1 uo.2.2 hJuo (by omega)
      rw [← hfl] at hfc
      obtain ⟨hJfl, hiff⟩ := hfc
      have hC : uo.2.2.used_total + amtSum (haveFlat uo.1)
          + (if anonymity = 0 then amtSum (stacksFlat uo.2.1) else 0)
          = s.used_total + usableSum anonymity h d := by
        rw [v1]
        unfold usableSum
        have e1 : amtSum (haveFlat uo.1) = amtSum (haveFlat h) := amtSum_perm vph
        have e2 : amtSum (stacksFlat uo.2.1) = amtSum (stacksFlat d) := amtSum_perm vpd
        by_cases han : anonymity = 0
        · rw [if_pos han, if_pos han, e1, e2]
          omega
        · rw [if_neg han, if_neg han, e1]
          omega
      rw [hC] at hiff
      by_cases hc3 : fl.1 = true
      · rw [if_pos hc3]
        dsimp only
        refine ⟨?_, ?_⟩
        · unfold optimizeAmounts
          exact picksInv_optAmountsGo total (max_digit + 1) 0 fl.2.1 fl.2.2.2 fl.2.2.1 hJfl
        · constructor
          · intro hx
            exact Bool.noConfusion hx
          · intro hlt
            have hx := hiff.2 hlt
            rw [hc3] at hx
            exact Bool.noConfusion hx
      · rw [if_neg hc3]
        have hfl1 : fl.1 = false := by
          cases hq : fl.1
          · rfl
          · exact absurd hq hc3
        refine ⟨hJfl, ?_⟩
        constructor
        · intro hx2
          exact hiff.1 hfl1
        · intro hx2
          rfl

/-- The outer fee loop, run from a reset state whose maps hold the content
of h0 and d0: the status trichotomy, the NOT_ENOUGH_FUNDS iff at the
returning fee, and the block-size bounds of the other two exits. -/
theorem outerGo_char (txSize : ℕ → ℕ → ℕ → ℕ) (p : OuterParams) (maxd : ℕ)
    (h0 : HaveCoins) (d0 : DustCoins) :
    ∀ (fuel fee opts : ℕ) (h : HaveCoins) (d : DustCoins) (s : SelState) (r : OuterRes),
    HaveWF h → DustWF d → List.Perm (haveFlat h) (haveFlat h0) →
    List.Perm (stacksFlat d) (stacksFlat d0) →
    s.used_total = 0 → s.optimization_unspents = [] →
    outerGo txSize p maxd fuel fee opts h d s = some r →
    (r.status = "" ∨ r.status = "NOT_ENOUGH_FUNDS"
        ∨ r.status = "TRANSACTION_DOES_NOT_FIT_IN_BLOCK") ∧
    (r.status = "NOT_ENOUGH_FUNDS" ↔
      usableSum p.anonymity h0 d0 < p.total_amount + r.fee) ∧
    (r.status = "TRANSACTION_DOES_NOT_FIT_IN_BLOCK" →
      p.effective_median_size < txSize r.s.inputs_count (p.total_outputs + 8) p.anonymity) ∧
    (r.status = "" →
      txSize r.s.inputs_count (p.total_outputs + 8) p.anonymity ≤ p.effective_median_size) := by
  intro fuel
  induction fuel with
  | zero =>
    intro fee opts h d s r _ _ _ _ _ _ hrun
    cases hrun
  | succ f ih =>
    intro fee opts h d s r hW hD hph hpd hu0 ho0 hrun
    obtain ⟨hJr, hiff⟩ :=
      selectInner_char p.anonymity maxd (p.total_amount + fee) opts h d s hW hD ho0
    have husable : usableSum p.anonymity h d = usableSum p.anonymity h0 d0 := by
      unfold usableSum
      rw [amtSum_perm hph, amtSum_perm hpd]
    unfold outerGo at hrun
    by_cases hr : (selectInner p.anonymity maxd (p.total_amount + fee) opts h d s).1 = true
    · by_cases hmed : optimizationMedian p <
          txSize (selectInner p.anonymity maxd (p.total_amount + fee) opts h d s).2.2.2.inputs_count
            (p.total_outputs + 8) p.anonymity ∧ 0 < opts
      · rw [outerStep_eq_retry_median hr hmed.1 hmed.2] at hrun
        obtain ⟨w1, w2, w3, w4, w5, wph, wpd, hJu⟩ := unoptimize_of_picksInv hJr
        exact ih _ _ _ _ _ _ hJu.1 hJu.2.1 (wph.trans hph) (wpd.trans hpd)
          (w1.trans hu0) w3 hrun
      · by_cases hfit : p.effective_median_size <
            txSize (selectInner p.anonymity maxd (p.total_amount + fee) opts h d s).2.2.2.inputs_count
              (p.total_outputs + 8) p.anonymity
        · rw [outerStep_eq_dnf hr hmed hfit] at hrun
          dsimp only at hrun
          cases hrun
          dsimp only
          refine ⟨Or.inr (Or.inr rfl), ?_, ?_, ?_⟩
          · constructor
            · intro hx
              exact absurd hx (by decide)
            · intro hlt
              exfalso
              have hfx : (selectInner p.anonymity maxd (p.total_amount + fee) opts h d s).1
                  = false := hiff.2 (by rw [hu0, husable]; omega)
              rw [hr] at hfx
              exact Bool.noConfusion hfx
          · intro hx
            exact hfit
          · intro hx
            exact absurd hx (by decide)
        · by_cases hfee : p.fee_per_byte *
              txSize (selectInner p.anonymity maxd (p.total_amount + fee) opts h d s).2.2.2.inputs_count
                (p.total_outputs + 8) p.anonymity
            ≤ fee + ((selectInner p.anonymity maxd (p.total_amount + fee) opts h d s).2.2.2.used_total
                - p.total_amount - fee) % p.default_dust_threshold
          · rw [outerStep_eq_done hr hmed hfit hfee] at hrun
            dsimp only at hrun
            cases hrun
            dsimp only
            refine ⟨Or.inl rfl, ?_, ?_, ?_⟩
            · constructor
              · intro hx
                exact absurd hx (by decide)
              · intro hlt
                exfalso
                have hfx : (selectInner p.anonymity maxd (p.total_amount + fee) opts h d s).1
                    = false := hiff.2 (by rw [hu0, husable]; omega)
                rw [hr] at hfx
                exact Bool.noConfusion hfx
            · intro hx
              exact absurd hx (by decide)
            · intro hx
              have hcomb : (combineOptimizedUnspents
                  (selectInner p.anonymity maxd (p.total_amount + fee) opts h d s).2.2.2).inputs_count
                  = (selectInner p.anonymity maxd (p.total_amount + fee) opts h d s).2.2.2.inputs_count := rfl
              rw [hcomb]
              omega
          · rw [outerStep_eq_retry_fee hr hmed hfit hfee] at hrun
            obtain ⟨w1, w2, w3, w4, w5, wph, wpd, hJu⟩ := unoptimize_of_picksInv hJr
            exact ih _ _ _ _ _ _ hJu.1 hJu.2.1 (wph.trans hph) (wpd.trans hpd)
              (w1.trans hu0) w3 hrun
    · rw [outerStep_eq_nef (Bool.not_eq_true _ ▸ hr : _ = false)] at hrun
      dsimp only at hrun
      cases hrun
      dsimp only
      have hfls : (selectInner p.anonymity maxd (p.total_amount + fee) opts h d s).1 = false :=
        Bool.not_eq_true _ ▸ hr
      have hcond := hiff.1 hfls
      rw [hu0, husable] at hcond
      refine ⟨Or.inr (Or.inl rfl), ?_, ?_, ?_⟩
      · exact iff_of_true rfl (by omega)
      · intro hx
        exact absurd hx (by decide)
      · intro hx
        exact absurd hx (by decide)

/-- A dust-flagged concrete output. -/
def mkDust (amount global_index : ℕ) : Output :=
  { mkOut amount global_index 0 with dust := true }

/-- The parameters of the dust-exclusion scenario: anonymity 1, target 50,
no fees. -/
def c6P : OuterParams :=
  { effective_median_size := 1000000, anonymity := 1, total_amount := 50,
    total_outputs := 1, fee_per_byte := 0, optimization_level := "minimal",
    minimum_fee := 0, default_dust_threshold := 100 }

/-- The pool of the dust-exclusion scenario: one confirmed, unlocked dust
coin of amount 100. -/
def c6Pool : List Output := [mkDust 100 0]

/-- C6 counterexample: the confirmed, unlocked pool holds 100, which covers
total_amount 50 plus the current fee 0, yet the selector returns
NOT_ENOUGH_FUNDS because the only coin is dust and anonymity is nonzero:
the NOT_ENOUGH_FUNDS condition is not "the confirmed, unlocked pool cannot
cover total_amount plus the current fee". -/
theorem nef_despite_pool_cover :
    (select_optimal_outputs (fun _ _ _ => 0) (fun a => decide (a < 1000)) (fun _ => true) 1
        c6Pool c6P 5).map OuterRes.status = some "NOT_ENOUGH_FUNDS" ∧
    (select_optimal_outputs (fun _ _ _ => 0) (fun a => decide (a < 1000)) (fun _ => true) 1
        c6Pool c6P 5).map OuterRes.fee = some c6P.minimum_fee ∧
    c6P.total_amount + c6P.minimum_fee ≤ amtSum c6Pool ∧
    (∀ c ∈ c6Pool, c.height < 1) := by
  refine ⟨rfl, rfl, by decide, by decide⟩

/-- C6 (amended): a terminating run of select_optimal_outputs on
well-formed coin maps returns one of exactly three statuses: the OK status
(empty string), NOT_ENOUGH_FUNDS exactly when the usable pool - the
confirmed, unlocked outputs, excluding dust outputs whenever anonymity is
nonzero - cannot cover total_amount plus the fee of the returning
iteration, and TRANSACTION_DOES_NOT_FIT_IN_BLOCK only when the estimated
size of the selected transaction exceeds effective_median_size (the
optimization rollback guard having been exhausted); on the OK status the
estimated size fits within effective_median_size. -/
theorem select_status_char (txSize : ℕ → ℕ → ℕ → ℕ) (isDust : ℕ → Bool)
    (unlocked : ℕ → Bool) (confirmed_height : ℕ) (unspents : List Output)
    (p : OuterParams) (fuel : ℕ) (r : OuterRes)
    (hW : HaveWF (createHaveCoins isDust unlocked confirmed_height unspents).1)
    (hD : DustWF (createHaveCoins isDust unlocked confirmed_height unspents).2.1)
    (hrun : select_optimal_outputs txSize isDust unlocked confirmed_height unspents p fuel
      = some r) :
    (r.status = "" ∨ r.status = "NOT_ENOUGH_FUNDS"
        ∨ r.status = "TRANSACTION_DOES_NOT_FIT_IN_BLOCK") ∧
    (r.status = "NOT_ENOUGH_FUNDS" ↔
      usableSum p.anonymity (createHaveCoins isDust unlocked confirmed_height unspents).1
        (createHaveCoins isDust unlocked confirmed_height unspents).2.1
        < p.total_amount + r.fee) ∧
    (r.status = "TRANSACTION_DOES_NOT_FIT_IN_BLOCK" →
      p.effective_median_size < txSize r.s.inputs_count (p.total_outputs + 8) p.anonymity) ∧
    (r.status = "" →
      txSize r.s.inputs_count (p.total_outputs + 8) p.anonymity ≤ p.effective_median_size) := by
  unfold select_optimal_outputs at hrun
  exact outerGo_char txSize p _ _ _ fuel p.minimum_fee _ _ _ initialSelState r hW hD
    (List.Perm.refl _) (List.Perm.refl _) rfl rfl hrun

/-- The result of the boundary-scenario run, used to witness the status
characterization at a concrete terminating call. -/
def c6wr : OuterRes :=
  (select_optimal_outputs (fun _ _ _ => 0) (fun a => decide (a < 10)) (fun _ => true) 1
      c1Pool c1P 40).getD ⟨"X", none, 0, [], [], initialSelState⟩

/-- C6 witness: the status characterization applied to the concrete
boundary-scenario run (which returns the OK status). -/
theorem select_status_char_witness :
    (c6wr.status = "" ∨ c6wr.status = "NOT_ENOUGH_FUNDS"
        ∨ c6wr.status = "TRANSACTION_DOES_NOT_FIT_IN_BLOCK") ∧
    (c6wr.status = "NOT_ENOUGH_FUNDS" ↔
      usableSum c1P.anonymity
        (createHaveCoins (fun a => decide (a < 10)) (fun _ => true) 1 c1Pool).1
        (createHaveCoins (fun a => decide (a < 10)) (fun _ => true) 1 c1Pool).2.1
        < c1P.total_amount + c6wr.fee) ∧
    (c6wr.status = "TRANSACTION_DOES_NOT_FIT_IN_BLOCK" →
      c1P.effective_median_size
        < (fun _ _ _ => 0) c6wr.s.inputs_count (c1P.total_outputs + 8) c1P.anonymity) ∧
    (c6wr.status = "" →
      (fun _ _ _ => 0) c6wr.s.inputs_count (c1P.total_outputs + 8) c1P.anonymity
        ≤ c1P.effective_median_size) :=
  select_status_char (fun _ _ _ => 0) (fun a => decide (a < 10)) (fun _ => true) 1
    c1Pool c1P 40 c6wr (by decide) (by decide) rfl

/-- C9 witness: the failure-state theorem at a concrete call whose key-image
derivation fails. -/
theorem add_input_failure_state_witness :
    (add_input gkiFail emptyBuilder 0 (mkOut 1 3 42) []).1.input_descs
        = emptyBuilder.input_descs ∧
      (add_input gkiFail emptyBuilder 0 (mkOut 1 3 42) []).1.transaction
        = emptyBuilder.transaction ∧
      (add_input gkiFail emptyBuilder 0 (mkOut 1 3 42) []).1.inputs_amount
        = emptyBuilder.inputs_amount + (mkOut 1 3 42).amount :=
  add_input_failure_state gkiFail emptyBuilder 0 (mkOut 1 3 42) []
    "generating keyimage failed" rfl

end Varcoin
